import Mathlib

/-!
Shallow embedding of `src/components/TextComponent/tokenize.tsx` (metanno).

The embedding models the four components of the layout engine:
`chunkText` (Chunker), `styleTextChunks_` (Layout Assigner),
`tokenizeTextChunks` (Line Splitter) and `tokenize` (Orchestrator).

Modelling conventions, each justified against JavaScript semantics:
 - text is a `List Char`; `String.prototype.slice(b, e)` on in-range
   indices is `(text.drop b).take (e - b)` (both clamp at the end of the
   text; negative JS indices cannot arise because spans carry `Nat`
   offsets in every claim considered here);
 - JS `null` for `depth`/`zIndex` is `Option Int` with `none`; JS
   arithmetic coerces `null` to `0`, so `annotation.depth -
   underlineClusterDepth - 1` on a `null` depth produces the number
   `-underlineClusterDepth - 1`: the model writes `(depth.getD 0) - d - 1`
   and the result is always `some _`;
 - a thrown `TypeError` (reading `.shape` of `undefined` when a style
   name is missing from the style table) is `Except.error ()`;
 - the style table `{ [name]: PreprocessedStyle }` is an association
   list with `List.lookup`;
 - `TokenAnnotation` is shortened to `TokenAnn`.
-/

/-- The relevant fields of a `PreprocessedStyle`: `tokenize` only ever reads
`shape` and `autoNestingLayout`; the CSS payload (`base`, `highlighted`,
`labelPosition`) is never consulted by the layout engine. -/
structure PreprocessedStyle where
  autoNestingLayout : Bool
  shape : String
deriving DecidableEq

/-- The style table `{ [key: string]: PreprocessedStyle }`. -/
abbrev Styles := List (String × PreprocessedStyle)

/-- JS `styles[name]`: `none` models `undefined`. -/
def lookupStyle (styles : Styles) (name : String) : Option PreprocessedStyle :=
  styles.lookup name

/-- A `SpanData` input span.  `selected`/`highlighted` are passthrough
payload (optional booleans in the source; their presence never influences
the algorithm, so they are modelled as plain `Bool`).  The `text` field is
the slice attached by the orchestrator's `.map` (absent, i.e. `none`, on
caller input). -/
structure SpanData where
  sbegin : Nat
  send : Nat
  label : String
  style : String
  id : Option String
  selected : Bool
  highlighted : Bool
  mouseSelected : Bool
  text : Option (List Char)
deriving DecidableEq

/-- A per-chunk instantiation of a span (source name `TokenAnnotation`,
shortened).  `atext` is the passthrough `text` field the orchestrator added
to the span (spread into the record via `...rest`). -/
structure TokenAnn where
  depth : Option Int
  openleft : Bool
  openright : Bool
  label : String
  isFirstTokenOfSpan : Bool
  style : String
  zIndex : Option Int
  id : Option String
  selected : Bool
  highlighted : Bool
  mouseSelected : Bool
  atext : Option (List Char)
deriving DecidableEq

/-- A `TextChunk`: a maximal boundary-free interval of the text. -/
structure TextChunk where
  cbegin : Nat
  cend : Nat
  label : Option String
  token_annotations : List TokenAnn
  tokens : List (List Char)
deriving DecidableEq

/-- One renderable token (`TokenData`). -/
structure TokenData where
  text : List Char
  key : String
  tbegin : Nat
  tend : Nat
  token_annotations : List TokenAnn
  isFirstTokenOfChunk : Bool
  isLastTokenOfChunk : Bool
deriving DecidableEq

/-- JS `text.slice(b, e)` for `Nat` indices. -/
def sliceChars (text : List Char) (b e : Nat) : List Char :=
  (text.drop b).take (e - b)

/-- A character matched by `[^ \n]` (anything but space and newline). -/
def wordChar (c : Char) : Bool :=
  !(c == ' ') && !(c == '\n')

/-- Fuel-indexed implementation of the token split (the fuel makes the
recursion structural, so that concrete runs reduce inside the kernel; the
public `splitTokens` supplies `l.length`, which is always enough fuel
because every step consumes at least one character). -/
def splitTokensF : Nat → List Char → List (List Char)
  | 0, _ => []
  | _, [] => []
  | fuel + 1, c :: rest =>
    if c == '\n' then
      ['\n'] :: splitTokensF fuel rest
    else if c == ' ' then
      (c :: rest.takeWhile (fun x => x == ' ')) ::
        splitTokensF fuel (rest.dropWhile (fun x => x == ' '))
    else
      (c :: rest.takeWhile wordChar) :: splitTokensF fuel (rest.dropWhile wordChar)

/-- The token split `text_slice.match(/\n|[^ \n]+|[ ]+/g)`: at each scan
position the alternation yields a single newline, a maximal run of
non-space non-newline characters, or a maximal run of spaces (the three
character classes are disjoint and cover all characters, so the matches
partition the slice). -/
def splitTokens (l : List Char) : List (List Char) :=
  splitTokensF l.length l

/-- The boundary index list of `chunkText`: every span `begin` and `end`,
then `0` and `text.length`, deduplicated and sorted ascending.  JS builds
the list in insertion order, dedupes through a `Set` and sorts
numerically; since the values are distinct after dedup, the result is the
unique ascending enumeration of the boundary set, which this definition
also produces. -/
def boundaryIndices (spans : List SpanData) (text : List Char) : List Nat :=
  (((spans.flatMap fun s => [s.sbegin, s.send]) ++ [0, text.length]).dedup).insertionSort
    (fun a b => a ≤ b)

/-- Adjacent pairs `(l[i-1], l[i])` of a list, in order. -/
def adjPairs : List Nat → List (Nat × Nat)
  | a :: b :: rest => (a, b) :: adjPairs (b :: rest)
  | _ => []

/-- `chunkText`: one chunk per adjacent boundary pair.  For a non-empty
slice the `match` never returns `null` (every character matches one
alternative) and the `.filter(text => text.length > 0)` is applied to the
match list; an empty slice yields the single placeholder token `""`. -/
def chunkText (spans : List SpanData) (text : List Char) : List TextChunk :=
  (adjPairs (boundaryIndices spans text)).map fun p =>
    let slice := sliceChars text p.1 p.2
    { cbegin := p.1
      cend := p.2
      label := none
      token_annotations := []
      tokens :=
        if slice.length > 0 then
          (splitTokens slice).filter fun t => t.length > 0
        else [[]] }

/-- JS `styles?.[name]?.shape` (optional chaining: `none` when the style is
missing). -/
def shapeOf (styles : Styles) (name : String) : Option String :=
  (lookupStyle styles name).map (·.shape)

/-- JS `styles[name]?.autoNestingLayout === false` (the span-skipping test
on line 99 is `styles[style]?.autoNestingLayout !== false`, i.e. the
negation of this; a missing style yields `undefined !== false`, so a
missing style does NOT opt the span out). -/
def autoNestingOff (styles : Styles) (name : String) : Bool :=
  match lookupStyle styles name with
  | some st => !st.autoNestingLayout
  | none => false

/-- The depth rewrite applied to one annotation by
`reverseUnderlineClusterDepths`: only underline-shaped annotations are
touched, and `annotation.depth - underlineClusterDepth - 1` coerces a
`null` depth to `0` (JS number coercion), always producing a number. -/
def revAnn (styles : Styles) (uCD : Int) (a : TokenAnn) : TokenAnn :=
  if shapeOf styles a.style = some "underline" then
    { a with depth := some (a.depth.getD 0 - uCD - 1) }
  else a

/-- `reverseUnderlineClusterDepths`: rewrite the depths of all
underline-shaped annotations on every chunk whose index is in the open
cluster.  JS iterates the `Set` of indices and mutates each indexed chunk
in place; the per-index updates are independent, so the model applies the
rewrite to exactly the member indices. -/
def reverseUnderlineClusterDepths (styles : Styles) (uCD : Int) (cluster : List Nat)
    (chunks : List TextChunk) : List TextChunk :=
  chunks.mapIdx fun i ch =>
    if i ∈ cluster then
      { ch with token_annotations := ch.token_annotations.map (revAnn styles uCD) }
    else ch

/-- JS `missing[v] = true` on an array initialised as `[undefined]`:
a non-negative integer index extends the array (holes read back as
`undefined`, modelled `false`) and sets the slot; a `null` or negative
`v` stores at a non-index property, invisible to `findIndex`, so the
array is unchanged. -/
def markIndex (arr : List Bool) (v : Option Int) : List Bool :=
  match v with
  | some (Int.ofNat n) => (arr ++ List.replicate (n + 1 - arr.length) false).set n true
  | _ => arr

/-- JS `arr.findIndex(isNot)` followed by the `-1 → arr.length` fixup
(lines 109-116): the first index holding neither `true` nor a hole set to
`true`; `List.findIdx` already returns the length when every slot is
`true`. -/
def findFree (arr : List Bool) : Int :=
  (arr.findIdx fun b => !b : Nat)

/-- The annotation scan of lines 103-108: fold over the chunk's existing
annotations accumulating `(missingBoxDepths, missingUnderlineDepths,
missingZIndices)`; a non-mouse-selected annotation whose style is missing
from the table throws (`styles[tokenStyle].shape` is a `TypeError`). -/
def scanAnns (styles : Styles) :
    List TokenAnn → (List Bool × List Bool × List Bool) →
      Except Unit (List Bool × List Bool × List Bool)
  | [], acc => Except.ok acc
  | a :: rest, acc =>
    if a.mouseSelected then
      scanAnns styles rest acc
    else
      match lookupStyle styles a.style with
      | none => Except.error ()
      | some stl =>
        if stl.shape = "underline" then
          scanAnns styles rest (acc.1, markIndex acc.2.1 a.depth, markIndex acc.2.2 a.zIndex)
        else
          scanAnns styles rest (markIndex acc.1 a.depth, acc.2.1, markIndex acc.2.2 a.zIndex)

/-- Lines 100-116: scan the first overlapping chunk's existing
annotations, partition occupied depths by shape category (z-indices
shape-agnostic), and pick first-fit values.  Reading `.shape` of a missing
style — of a non-mouse-selected existing annotation (line 105) or of the
current span (lines 109/111) — throws a `TypeError`, modelled as
`Except.error ()` (the two error sites carry the same error value, so
their relative order is unobservable). -/
def computeDepthZ (styles : Styles) (anns : List TokenAnn) (spanStyle : String) :
    Except Unit (Option Int × Option Int) :=
  match scanAnns styles anns ([false], [false], [false]) with
  | Except.error e => Except.error e
  | Except.ok acc =>
    match lookupStyle styles spanStyle with
    | none => Except.error ()
    | some stl =>
      Except.ok (some (findFree (if stl.shape = "underline" then acc.2.1 else acc.1)),
                 some (findFree acc.2.2))

/-- The mutable locals of the `text_chunk_i` loop inside one span's
processing: the chunk array, the open cluster, `underlineClusterDepth`,
and the span's `newDepth`/`newZIndex` (computed at most once). -/
structure SpanLoopState where
  chunks : List TextChunk
  cluster : List Nat
  uCD : Int
  newDepth : Option Int
  newZIndex : Option Int
deriving DecidableEq

/-- One iteration of the chunk loop (lines 93-131) for chunk index `i`.
On overlap: add `i` to the cluster, stamp the chunk label when begins
align, compute `newDepth`/`newZIndex` if still unset and the span is
neither mouse-selected nor opted out, raise `underlineClusterDepth` for
underline-shaped spans (the `underlineClusterDepth < newDepth` comparison
coerces a `null` `newDepth` to `0`, so it never fires then), and prepend
the new annotation. -/
def processChunk (styles : Styles) (s : SpanData) (st : SpanLoopState) (i : Nat) :
    Except Unit SpanLoopState :=
  match st.chunks[i]? with
  | none => pure st
  | some ch =>
    if ch.cbegin < s.send ∧ s.sbegin < ch.cend then do
      let cluster := if i ∈ st.cluster then st.cluster else st.cluster ++ [i]
      let ch := if ch.cbegin = s.sbegin then { ch with label := some s.label } else ch
      let dz ←
        if st.newDepth = none ∧ s.mouseSelected = false ∧
            autoNestingOff styles s.style = false then
          computeDepthZ styles ch.token_annotations s.style
        else
          pure (st.newDepth, st.newZIndex)
      let ann : TokenAnn :=
        { depth := dz.1
          openleft := ch.cbegin != s.sbegin
          openright := ch.cend != s.send
          label := s.label
          isFirstTokenOfSpan := ch.cbegin == s.sbegin
          style := s.style
          zIndex := dz.2
          id := s.id
          selected := s.selected
          highlighted := s.highlighted
          mouseSelected := s.mouseSelected
          atext := s.text }
      let uCD :=
        if shapeOf styles s.style = some "underline" ∧ st.uCD < (dz.1).getD 0 then
          (dz.1).getD 0
        else st.uCD
      pure { chunks := st.chunks.set i { ch with token_annotations := ann :: ch.token_annotations }
             cluster := cluster
             uCD := uCD
             newDepth := dz.1
             newZIndex := dz.2 }
    else
      pure st

/-- The state threaded through the span walk of `styleTextChunks_`. -/
structure LayoutState where
  chunks : List TextChunk
  cluster : List Nat
  uCD : Int
  rMO : Nat
deriving DecidableEq

/-- Lines 86-92: cluster boundary detection.  `begin >= rightMostOffset`
flushes the cluster and resets it — but NOT `underlineClusterDepth` — and
sets `rightMostOffset = end`; otherwise `rightMostOffset` is raised to
`end` if larger. -/
def flushStep (styles : Styles) (st : LayoutState) (s : SpanData) : LayoutState :=
  if st.rMO ≤ s.sbegin then
    { chunks := reverseUnderlineClusterDepths styles st.uCD st.cluster st.chunks
      cluster := []
      uCD := st.uCD
      rMO := s.send }
  else if st.rMO < s.send then
    { st with rMO := s.send }
  else st

/-- Lines 83-133: process one span: cluster boundary detection, then the
chunk loop over all chunk indices. -/
def processSpan (styles : Styles) (st : LayoutState) (s : SpanData) :
    Except Unit LayoutState :=
  ((List.range (flushStep styles st s).chunks.length).foldlM (processChunk styles s)
    { chunks := (flushStep styles st s).chunks
      cluster := (flushStep styles st s).cluster
      uCD := (flushStep styles st s).uCD
      newDepth := none
      newZIndex := none }).map fun ls =>
    { chunks := ls.chunks, cluster := ls.cluster, uCD := ls.uCD,
      rMO := (flushStep styles st s).rMO }

/-- `styleTextChunks_`: walk the spans in order, then apply the final
cluster flush (line 134). -/
def styleTextChunks_ (text_chunks : List TextChunk) (spans : List SpanData)
    (styles : Styles) : Except Unit (List TextChunk) :=
  (spans.foldlM (processSpan styles)
    { chunks := text_chunks, cluster := [], uCD := 0, rMO := 0 }).map fun st =>
    reverseUnderlineClusterDepths styles st.uCD st.cluster st.chunks

/-- One iteration of the token loop of `tokenizeTextChunks` for the token
at position `token_i` of a chunk with `ntoks` tokens: a token equal to
`"\n"` pushes the current line (even if empty) and starts a new one; any
other token is appended to the current line as a `TokenData`.  The
accumulator carries `(current_line, all_lines, offset_in_text_chunk)`. -/
def lineStep (cbegin : Nat) (anns : List TokenAnn) (ntoks : Nat)
    (acc : List TokenData × List (List TokenData) × Nat) (p : Nat × List Char) :
    List TokenData × List (List TokenData) × Nat :=
  let b := cbegin + acc.2.2
  let e := cbegin + acc.2.2 + p.2.length
  if p.2 = ['\n'] then
    ([], acc.2.1 ++ [acc.1], acc.2.2 + p.2.length)
  else
    (acc.1 ++ [{ text := p.2
                 key := toString b ++ "-" ++ toString e
                 tbegin := b
                 tend := e
                 token_annotations := anns
                 isFirstTokenOfChunk := p.1 == 0
                 isLastTokenOfChunk := p.1 == ntoks - 1 }],
     acc.2.1, acc.2.2 + p.2.length)

/-- `tokenizeTextChunks` (lines 141-177): walk the chunks and their tokens
accumulating lines; afterwards append the trailing line exactly when the
current line is non-empty or the last chunk's token list ends in a newline
(the JS condition reads the loop variable `tokens`, which holds the LAST
chunk's token array, `[]` when there are no chunks). -/
def tokenizeTextChunks (text_chunks : List TextChunk) : List (List TokenData) :=
  let acc := text_chunks.foldl
    (fun (acc : List TokenData × List (List TokenData)) ch =>
      let r := ch.tokens.enum.foldl (lineStep ch.cbegin ch.token_annotations ch.tokens.length)
        (acc.1, acc.2, 0)
      (r.1, r.2.1))
    ([], [])
  let lastToks := match text_chunks.getLast? with
    | some ch => ch.tokens
    | none => []
  if acc.1.length > 0 ∨ (lastToks.length > 0 ∧ lastToks.getLast? = some ['\n']) then
    acc.2 ++ [acc.1]
  else acc.2

/-- The comparator of `tokenize`'s `spans.sort`, as a boolean
"comparator result ≤ 0" relation: mouse-selected spans first, then
ascending `begin`, ties by descending `end`. -/
def spanLE (a b : SpanData) : Bool :=
  if a.mouseSelected = b.mouseSelected then
    if a.sbegin ≠ b.sbegin then a.sbegin ≤ b.sbegin else b.send ≤ a.send
  else a.mouseSelected

/-- The priority order of the span walk.  JS `Array.prototype.sort` is
guaranteed stable, and `spanLE` ("comparator result is non-positive") is a
total preorder, so the JS sort computes THE stable sort with respect to
`spanLE`; `List.insertionSort` (which inserts each element before the
first later element not strictly below it) computes exactly that stable
sort, structurally. -/
def sortSpans (spans : List SpanData) : List SpanData :=
  spans.insertionSort fun a b => spanLE a b = true

/-- The return value of `tokenize`. -/
structure TokenizeResult where
  lines : List (List TokenData)
  ids : List (Option String)
deriving DecidableEq

/-- The sorted span list with each span's text slice attached on a fresh
copy (lines 184-189). -/
def preparedSpans (spans : List SpanData) (text : List Char) : List SpanData :=
  (sortSpans spans).map fun s =>
    { s with text := some (sliceChars text s.sbegin s.send) }

/-- `tokenize` (lines 179-198): sort the spans, attach each span's text
slice on a fresh copy, chunk, style (may throw on a missing style), and
split into lines. -/
def tokenize (spans : List SpanData) (text : List Char) (styles : Styles) :
    Except Unit TokenizeResult :=
  (styleTextChunks_ (chunkText (preparedSpans spans text) text)
      (preparedSpans spans text) styles).map fun styled =>
    { lines := tokenizeTextChunks styled
      ids := (preparedSpans spans text).map (·.id) }

/-- The caller-visible state of the `spans` ARGUMENT after `tokenize`
returns: JS `spans.sort(...)` sorts the caller's array in place (the
subsequent `.map` builds a fresh array for the added `text` field, so the
caller's array holds the original span objects, reordered). -/
def tokenizeCallerSpansAfter (spans : List SpanData) : List SpanData :=
  sortSpans spans

/-- Whether a `tokenize` call returned normally (`true`) or threw
(`false`). -/
def exceptIsOk (r : Except Unit TokenizeResult) : Bool :=
  match r with
  | Except.ok _ => true
  | Except.error _ => false

/-- The line list of a `tokenize` result, empty when the call threw. -/
def resLines (r : Except Unit TokenizeResult) : List (List TokenData) :=
  match r with
  | Except.ok v => v.lines
  | Except.error _ => []

/-- The id list of a `tokenize` result, empty when the call threw. -/
def resIds (r : Except Unit TokenizeResult) : List (Option String) :=
  match r with
  | Except.ok v => v.ids
  | Except.error _ => []

/-- Look up the annotation at position `ai` of the token at position `ti`
of the line at position `li` of a `tokenize` result (used to pin down
concrete annotations in counterexamples and witnesses). -/
def annAt (r : Except Unit TokenizeResult) (li ti ai : Nat) : Option TokenAnn :=
  ((resLines r)[li]?.bind fun l => l[ti]?).bind fun td => td.token_annotations[ai]?

/-- Total length of a chunk's token list. -/
def tokensLen (ts : List (List Char)) : Nat :=
  (ts.map List.length).sum

/-- The chunk offsets are chained: each chunk begins exactly where the
running document offset stands after the previous chunk's tokens
(chunks produced by `chunkText` on in-range spans satisfy this from
offset `0`). -/
def offsetsChained : List TextChunk → Nat → Bool
  | [], _ => true
  | ch :: rest, off => ch.cbegin == off && offsetsChained rest (off + tokensLen ch.tokens)

/-- Specification-side description of one line-splitter step, written from
the spec's words for the refinement proof of claim C8: the accumulator is
`(current line, finished lines, running document offset, whether the last
processed token was a newline)`; a token equal to a single newline
terminates the current line and produces no `TokenData`; any other token
yields a `TokenData` whose `begin`/`end` come from the running document
offset and whose key is `"{begin}-{end}"`. -/
def lineSpecStep (anns : List TokenAnn) (ntoks : Nat)
    (acc : List TokenData × List (List TokenData) × Nat × Bool) (p : Nat × List Char) :
    List TokenData × List (List TokenData) × Nat × Bool :=
  if p.2 = ['\n'] then
    ([], acc.2.1 ++ [acc.1], acc.2.2.1 + p.2.length, true)
  else
    (acc.1 ++ [{ text := p.2
                 key := toString acc.2.2.1 ++ "-" ++ toString (acc.2.2.1 + p.2.length)
                 tbegin := acc.2.2.1
                 tend := acc.2.2.1 + p.2.length
                 token_annotations := anns
                 isFirstTokenOfChunk := p.1 == 0
                 isLastTokenOfChunk := p.1 == ntoks - 1 }],
     acc.2.1, acc.2.2.1 + p.2.length, false)

/-- Specification-side line splitter (claim C8's wording): walk all tokens
with a single running document offset starting at `0`, and append the
trailing line exactly when the last line is non-empty or the very last
token processed was a newline. -/
def lineSplitterSpec (text_chunks : List TextChunk) : List (List TokenData) :=
  let acc := text_chunks.foldl
    (fun acc ch => ch.tokens.enum.foldl (lineSpecStep ch.token_annotations ch.tokens.length) acc)
    ([], [], 0, false)
  if acc.1 ≠ [] ∨ acc.2.2.2 = true then acc.2.1 ++ [acc.1] else acc.2.1

/-- The depths occupied, on a chunk, by non-mouse-selected annotations of
the given shape category (`underline = true` for the underline category,
`false` for the box category, i.e. any non-underline shape). -/
def sameShapeDepths (styles : Styles) (underline : Bool) (anns : List TokenAnn) :
    List (Option Int) :=
  (anns.filter fun a =>
    !a.mouseSelected && ((shapeOf styles a.style == some "underline") == underline)).map
    (·.depth)

/-- The z-indices occupied, on a chunk, by non-mouse-selected annotations
(shape-agnostic). -/
def nonMouseZs (anns : List TokenAnn) : List (Option Int) :=
  (anns.filter fun a => !a.mouseSelected).map (·.zIndex)

/-- Test fixture: a span. -/
def mkSp (b e : Nat) (sty : String) (ms : Bool) (idv : String) : SpanData :=
  { sbegin := b, send := e, label := "L", style := sty, id := some idv,
    selected := false, highlighted := false, mouseSelected := ms, text := none }

/-- Test fixture: an auto-nesting underline style `"u"`, an auto-nesting
box style `"b"`, and an underline style `"uo"` with
`autoNestingLayout: false`. -/
def exStyles : Styles :=
  [("u", { autoNestingLayout := true, shape := "underline" }),
   ("b", { autoNestingLayout := true, shape := "box" }),
   ("uo", { autoNestingLayout := false, shape := "underline" })]

/-- Test fixture: an underline-styled annotation with the given depth. -/
def exAnn (d : Option Int) : TokenAnn :=
  { depth := d, openleft := false, openright := false, label := "L",
    isFirstTokenOfSpan := true, style := "u", zIndex := some 0, id := some "A",
    selected := false, highlighted := false, mouseSelected := false, atext := none }

/-- Test fixture: a chunk `[0,2)` carrying one `exAnn` annotation. -/
def exChunk (d : Option Int) : TextChunk :=
  { cbegin := 0, cend := 2, label := none, token_annotations := [exAnn d],
    tokens := [['a', 'b']] }

/-- Test fixture: the underline annotation `tokenize` produces for span
`A` in the C5 witness run. -/
def c5uAnn : TokenAnn :=
  { depth := some (-1), openleft := false, openright := false, label := "L",
    isFirstTokenOfSpan := true, style := "u", zIndex := some 0, id := some "A",
    selected := false, highlighted := false, mouseSelected := false,
    atext := some "ab".toList }

/-- Test fixture: the box annotation `tokenize` produces for span `B` in
the C5 witness run. -/
def c5bAnn : TokenAnn :=
  { depth := some 0, openleft := false, openright := false, label := "L",
    isFirstTokenOfSpan := true, style := "b", zIndex := some 1, id := some "B",
    selected := false, highlighted := false, mouseSelected := false,
    atext := some "ab".toList }

/-- Test fixture: the single token of the C5 witness run. -/
def c5td : TokenData :=
  { text := "ab".toList, isFirstTokenOfChunk := true, isLastTokenOfChunk := true,
    key := "0-2", token_annotations := [c5bAnn, c5uAnn], tbegin := 0, tend := 2 }

/-- Test fixture: the two-span input of the C4 witness run (an underline span `[0,4)` and a box span `[1,3)` over `"abcd"`). -/
def c4spansW : List SpanData := [mkSp 0 4 "u" false "A", mkSp 1 3 "b" false "B"]

/-- Test fixture: span `A`'s annotation on the chunk `[0,1)` in the C4 witness run. -/
def c4annA0 : TokenAnn :=
  { depth := some (-1), openleft := false, openright := true, label := "L",
    isFirstTokenOfSpan := true, style := "u", zIndex := some 0, id := some "A",
    selected := false, highlighted := false, mouseSelected := false,
    atext := some "abcd".toList }

/-- Test fixture: span `A`'s annotation on the chunk `[1,3)` in the C4 witness run. -/
def c4annA1 : TokenAnn :=
  { depth := some (-1), openleft := true, openright := true, label := "L",
    isFirstTokenOfSpan := false, style := "u", zIndex := some 0, id := some "A",
    selected := false, highlighted := false, mouseSelected := false,
    atext := some "abcd".toList }

/-- Test fixture: span `A`'s annotation on the chunk `[3,4)` in the C4 witness run. -/
def c4annA2 : TokenAnn :=
  { depth := some (-1), openleft := true, openright := false, label := "L",
    isFirstTokenOfSpan := false, style := "u", zIndex := some 0, id := some "A",
    selected := false, highlighted := false, mouseSelected := false,
    atext := some "abcd".toList }

/-- Test fixture: span `B`'s annotation on the chunk `[1,3)` in the C4 witness run. -/
def c4annB1 : TokenAnn :=
  { depth := some 0, openleft := false, openright := false, label := "L",
    isFirstTokenOfSpan := true, style := "b", zIndex := some 1, id := some "B",
    selected := false, highlighted := false, mouseSelected := false,
    atext := some "bc".toList }

/-- Test fixture: the first token of the C4 witness run. -/
def c4td0 : TokenData :=
  { text := "a".toList, isFirstTokenOfChunk := true, isLastTokenOfChunk := true,
    key := "0-1", token_annotations := [c4annA0], tbegin := 0, tend := 1 }

/-- Test fixture: the second token of the C4 witness run. -/
def c4td1 : TokenData :=
  { text := "bc".toList, isFirstTokenOfChunk := true, isLastTokenOfChunk := true,
    key := "1-3", token_annotations := [c4annB1, c4annA1], tbegin := 1, tend := 3 }

/-- Test fixture: the third token of the C4 witness run. -/
def c4td2 : TokenData :=
  { text := "d".toList, isFirstTokenOfChunk := true, isLastTokenOfChunk := true,
    key := "3-4", token_annotations := [c4annA2], tbegin := 3, tend := 4 }

/-- Test fixture: the single output line of the C4 witness run. -/
def c4line : List TokenData := [c4td0, c4td1, c4td2]

/-- The claim's occupancy predicate for depths: some non-mouse-selected
annotation of the given shape category (underline when the flag is `true`)
holds the depth `n` in the scanned annotation list. -/
def depthOccupied (styles : Styles) (underline : Bool) (anns : List TokenAnn)
    (n : Nat) : Prop :=
  ∃ a ∈ anns, a.mouseSelected = false ∧
    ((lookupStyle styles a.style).map fun stl => stl.shape == "underline")
      = some underline ∧
    a.depth = some (n : Int)

/-- The claim's occupancy predicate for z-indices: some
non-mouse-selected annotation holds the z-index `n`. -/
def zOccupied (anns : List TokenAnn) (n : Nat) : Prop :=
  ∃ a ∈ anns, a.mouseSelected = false ∧ a.zIndex = some (n : Int)


/-- Test fixture: an existing non-mouse underline annotation (depth 0, z-index 0) for the C3 witness. -/
def c3uAnn0 : TokenAnn :=
  { depth := some 0, openleft := false, openright := false, label := "L",
    isFirstTokenOfSpan := true, style := "u", zIndex := some 0, id := some "X",
    selected := false, highlighted := false, mouseSelected := false, atext := none }

/-- Test fixture: an existing non-mouse box annotation (depth 0, z-index 1) for the C3 witness. -/
def c3bAnn0 : TokenAnn :=
  { depth := some 0, openleft := false, openright := false, label := "L",
    isFirstTokenOfSpan := true, style := "b", zIndex := some 1, id := some "Y",
    selected := false, highlighted := false, mouseSelected := false, atext := none }

/-- Test fixture: the chunk carrying both existing annotations in the C3 witness. -/
def c3chunk : TextChunk :=
  { cbegin := 0, cend := 2, label := none, token_annotations := [c3uAnn0, c3bAnn0],
    tokens := [['a', 'b']] }

/-- Test fixture: the loop state entering the C3 witness step. -/
def c3state : SpanLoopState :=
  { chunks := [c3chunk], cluster := [], uCD := 0, newDepth := none, newZIndex := none }

/-- Test fixture: the annotation the C3 witness step creates (depth 1, z-index 2). -/
def c3newAnn : TokenAnn :=
  { depth := some 1, openleft := false, openright := false, label := "L",
    isFirstTokenOfSpan := true, style := "u", zIndex := some 2, id := some "S",
    selected := false, highlighted := false, mouseSelected := false, atext := none }

/-- Test fixture: the chunk after the C3 witness step. -/
def c3chunkAfter : TextChunk :=
  { cbegin := 0, cend := 2, label := some "L",
    token_annotations := [c3newAnn, c3uAnn0, c3bAnn0], tokens := [['a', 'b']] }

/-- Test fixture: the loop state after the C3 witness step. -/
def c3stateAfter : SpanLoopState :=
  { chunks := [c3chunkAfter], cluster := [0], uCD := 1, newDepth := some 1,
    newZIndex := some 2 }

/-- Test fixture: the resolved underline style of the C3 witness span. -/
def c3stl : PreprocessedStyle := { autoNestingLayout := true, shape := "underline" }


/-- Claim C1 is refuted on three underline spans `A = [0,4)`, `B = [1,3)`,
`C = [5,7)` over `"abcdefgh"`.  The walk forms two clusters: `{A, B}`
(maximum assigned underline depth `1`) and `{C}` (maximum assigned
underline depth `0`).  By the claim, flushing the second cluster must
rewrite `C`'s depth `0` to `0 - 0 - 1 = -1`; the code instead subtracts
`underlineClusterDepth + 1 = 2` because `underlineClusterDepth` is never
reset between clusters, leaving `-2`.  The second conjunct runs the same
second cluster alone and obtains `-1`, showing the subtracted value
depends on the other, already flushed cluster. -/
theorem spec_C1_counterexample :
    (annAt (tokenize [mkSp 0 4 "u" false "A", mkSp 1 3 "u" false "B", mkSp 5 7 "u" false "C"]
        "abcdefgh".toList exStyles) 0 4 0).map (fun a => (a.id, a.depth))
      = some (some "C", some (-2)) ∧
    (annAt (tokenize [mkSp 5 7 "u" false "C"] "abcdefgh".toList exStyles) 0 1 0).map
        (fun a => (a.id, a.depth)) = some (some "C", some (-1)) := by
  decide

/-- Claim C2 is refuted on a single mouse-selected span whose style is
underline-shaped: its annotation is created with `depth = null`, but the
final cluster flush rewrites every underline-shaped depth on the cluster
chunks, coercing `null` to `0` and producing the number `-1`, so the
returned annotation has `depth = -1`, not `null` (its `zIndex` does stay
`null`). -/
theorem spec_C2_counterexample :
    (annAt (tokenize [mkSp 0 2 "u" true "M"] "ab".toList exStyles) 0 0 0).map
        (fun a => (a.id, a.depth, a.zIndex))
      = some (some "M", some (-1), none) := by
  decide

/-- Claim C3 is refuted on two non-mouse-selected underline spans over the
same chunk: `A` with the auto-nesting style `"u"` (assigned depth `0`) and
`B` with style `"uo"` (`autoNestingLayout: false`, so `depth = null`).
The final flush rewrites both underline-shaped depths with
`underlineClusterDepth = 0`: `A` gets `0 - 0 - 1 = -1` and `B` gets
`null - 0 - 1 = -1` (null coerced to 0), so the chunk carries two
non-mouse-selected, underline-shaped annotations with EQUAL depth `-1`. -/
theorem spec_C3_counterexample :
    (annAt (tokenize [mkSp 0 2 "u" false "A", mkSp 0 2 "uo" false "B"] "ab".toList exStyles)
        0 0 0).map (fun a => (a.id, a.mouseSelected, a.style, a.depth))
      = some (some "B", false, "uo", some (-1)) ∧
    (annAt (tokenize [mkSp 0 2 "u" false "A", mkSp 0 2 "uo" false "B"] "ab".toList exStyles)
        0 0 1).map (fun a => (a.id, a.mouseSelected, a.style, a.depth))
      = some (some "A", false, "u", some (-1)) ∧
    shapeOf exStyles "uo" = some "underline" ∧ shapeOf exStyles "u" = some "underline" := by
  decide

/-- Claim C4 is refuted on the mouse-selected underline span
`M = [10,14)`: the mouse span `M2 = [20,21)` flushes the cluster holding
both of `M`'s chunks (their depths become `-1`), and the later box span
`T = [10,12)` re-enters only `M`'s first chunk `[10,12)` into the cluster,
so the final flush rewrites that instance again to `-2` while the
instance on `[12,14)` keeps `-1`: the same span ends with two different
depths. -/
theorem spec_C4_counterexample :
    (annAt (tokenize [mkSp 10 14 "u" true "M", mkSp 20 21 "b" true "M2", mkSp 10 12 "b" false "T"]
        "abcdefghijklmnopqrstuv".toList exStyles) 0 1 1).map (fun a => (a.id, a.depth))
      = some (some "M", some (-2)) ∧
    (annAt (tokenize [mkSp 10 14 "u" true "M", mkSp 20 21 "b" true "M2", mkSp 10 12 "b" false "T"]
        "abcdefghijklmnopqrstuv".toList exStyles) 0 2 0).map (fun a => (a.id, a.depth))
      = some (some "M", some (-1)) := by
  decide

/-- Claim C7 is refuted on a mouse-selected span referencing the unknown
style `"zz"`: the span overlaps a chunk, yet `tokenize` returns normally,
because the depth computation (the only place that reads
`styles[...].shape` without optional chaining) is skipped entirely for
mouse-selected spans. -/
theorem spec_C7_counterexample :
    lookupStyle exStyles "zz" = none ∧
    exceptIsOk (tokenize [mkSp 0 2 "zz" true "M"] "ab".toList exStyles) = true := by
  decide

/-- Claim C9 is refuted on two spans in descending `begin` order: JS
`spans.sort(...)` sorts the caller's array in place, so after the call the
caller's array is reordered (here: the two elements are swapped), not
"the same elements in the same order". -/
theorem spec_C9_counterexample :
    tokenizeCallerSpansAfter [mkSp 5 6 "b" false "X", mkSp 0 1 "b" false "Y"]
      ≠ [mkSp 5 6 "b" false "X", mkSp 0 1 "b" false "Y"] := by
  decide

/-- The comparator relation `spanLE` is total. -/
theorem spanLE_total (a b : SpanData) : spanLE a b = true ∨ spanLE b a = true := by
  unfold spanLE
  cases ha : a.mouseSelected <;> cases hb : b.mouseSelected <;>
    simp_all <;> split_ifs <;> omega

/-- The comparator relation `spanLE` is transitive. -/
theorem spanLE_trans (a b c : SpanData) (hab : spanLE a b = true) (hbc : spanLE b c = true) :
    spanLE a c = true := by
  unfold spanLE at *
  cases ha : a.mouseSelected <;> cases hb : b.mouseSelected <;> cases hc : c.mouseSelected <;>
    simp_all <;> split_ifs at * <;> omega

/-- Claim C9, amended: `tokenize` sorts the caller's `spans` array in
place, so after the call the caller's array holds the same span objects
(a permutation, each with unchanged fields — the added `text` field lands
only on fresh copies), reordered into the priority order: mouse-selected
spans first, then ascending `begin`, ties by descending `end`. -/
theorem spec_C9_amended (spans : List SpanData) :
    (tokenizeCallerSpansAfter spans).Perm spans ∧
    List.Pairwise (fun a b => spanLE a b = true) (tokenizeCallerSpansAfter spans) := by
  haveI : IsTotal SpanData (fun a b => spanLE a b = true) := ⟨spanLE_total⟩
  haveI : IsTrans SpanData (fun a b => spanLE a b = true) := ⟨spanLE_trans⟩
  exact ⟨List.perm_insertionSort _ spans, List.sorted_insertionSort _ spans⟩

/-- Dropping a prefix never lengthens a list. -/
theorem dropWhile_length_le (p : Char → Bool) (l : List Char) :
    (l.dropWhile p).length ≤ l.length :=
  List.Sublist.length_le (List.dropWhile_sublist _)

/-- With enough fuel, the token split concatenates back to its input. -/
theorem splitTokensF_flatten : ∀ (fuel : Nat) (l : List Char), l.length ≤ fuel →
    (splitTokensF fuel l).flatten = l := by
  intro fuel
  induction fuel with
  | zero =>
    intro l hl
    have : l = [] := List.length_eq_zero.mp (Nat.le_zero.mp hl)
    subst this
    rfl
  | succ n ih =>
    intro l hl
    rcases l with _ | ⟨c, rest⟩
    · rfl
    · have hrest : rest.length ≤ n := by
        simp only [List.length_cons] at hl
        omega
      simp only [splitTokensF]
      split_ifs with h1 h2
      · simp only [List.flatten_cons]
        rw [ih rest hrest]
        have : c = '\n' := by simpa using h1
        simp [this]
      · simp only [List.flatten_cons]
        rw [ih _ (Nat.le_trans (dropWhile_length_le _ _) hrest)]
        simp [List.takeWhile_append_dropWhile]
      · simp only [List.flatten_cons]
        rw [ih _ (Nat.le_trans (dropWhile_length_le _ _) hrest)]
        simp [List.takeWhile_append_dropWhile]

/-- The token split concatenates back to its input. -/
theorem splitTokens_flatten (l : List Char) : (splitTokens l).flatten = l :=
  splitTokensF_flatten l.length l (Nat.le_refl _)

/-- Dropping the empty tokens of a token list does not change its
concatenation. -/
theorem flatten_filter_pos (L : List (List Char)) :
    (L.filter fun t => t.length > 0).flatten = L.flatten := by
  induction L with
  | nil => rfl
  | cons t ts ih =>
    by_cases h : t.length > 0
    · simp [List.filter_cons, h, ih]
    · have : t = [] := List.length_eq_zero.mp (by omega)
      simp [List.filter_cons, h, this, ih]

/-- Adjacent slices concatenate. -/
theorem sliceChars_append (text : List Char) (a b c : Nat) (hab : a ≤ b) (hbc : b ≤ c) :
    sliceChars text a b ++ sliceChars text b c = sliceChars text a c := by
  unfold sliceChars
  have hd : text.drop b = (text.drop a).drop (b - a) := by
    rw [List.drop_drop]
    congr 1
    omega
  rw [hd, ← List.take_add]
  congr 1
  omega

/-- A list has one fewer adjacent pair than elements. -/
theorem adjPairs_length : ∀ l : List Nat, (adjPairs l).length = l.length - 1 := by
  intro l
  match l with
  | [] => rfl
  | [a] => rfl
  | a :: b :: rest =>
    simp only [adjPairs, List.length_cons]
    rw [adjPairs_length (b :: rest)]
    simp

/-- The slices over the adjacent pairs of an ascending list telescope to
one slice from its head to its last element. -/
theorem flatten_adjPairs_slices (text : List Char) :
    ∀ (rest : List Nat) (a : Nat), List.Pairwise (fun x y => x ≤ y) (a :: rest) →
      ((adjPairs (a :: rest)).map (fun p => sliceChars text p.1 p.2)).flatten
        = sliceChars text a ((a :: rest).getLast (List.cons_ne_nil a rest)) := by
  intro rest
  induction rest with
  | nil =>
    intro a _
    simp [adjPairs, sliceChars]
  | cons b rest' ih =>
    intro a hp
    have hab : a ≤ b := (List.pairwise_cons.mp hp).1 b (by simp)
    have hp' : List.Pairwise (fun x y => x ≤ y) (b :: rest') := (List.pairwise_cons.mp hp).2
    have hblast : b ≤ (b :: rest').getLast (List.cons_ne_nil b rest') := by
      rcases List.getLast_mem (List.cons_ne_nil b rest') with h
      rcases List.mem_cons.mp h with he | hm
      · omega
      · exact (List.pairwise_cons.mp hp').1 _ hm
    have hlast : (a :: b :: rest').getLast (List.cons_ne_nil _ _)
        = (b :: rest').getLast (List.cons_ne_nil b rest') := by
      exact List.getLast_cons (List.cons_ne_nil b rest')
    simp only [adjPairs, List.map_cons, List.flatten_cons]
    rw [ih b hp', hlast]
    exact sliceChars_append text a b _ hab hblast

/-- The boundary index list is ascending. -/
theorem boundaryIndices_sorted (spans : List SpanData) (text : List Char) :
    List.Pairwise (fun x y => x ≤ y) (boundaryIndices spans text) := by
  haveI : IsTotal Nat (fun a b => a ≤ b) := ⟨Nat.le_total⟩
  haveI : IsTrans Nat (fun a b => a ≤ b) := ⟨fun a b c => Nat.le_trans⟩
  exact List.sorted_insertionSort _ _

/-- Membership in the boundary index list. -/
theorem mem_boundaryIndices_iff (spans : List SpanData) (text : List Char) (x : Nat) :
    x ∈ boundaryIndices spans text ↔
      x ∈ (spans.flatMap fun s => [s.sbegin, s.send]) ++ [0, text.length] := by
  unfold boundaryIndices
  rw [(List.perm_insertionSort _ _).mem_iff, List.mem_dedup]

/-- `0` is always a boundary. -/
theorem zero_mem_boundaryIndices (spans : List SpanData) (text : List Char) :
    0 ∈ boundaryIndices spans text := by
  rw [mem_boundaryIndices_iff]
  simp

/-- The text length is always a boundary. -/
theorem len_mem_boundaryIndices (spans : List SpanData) (text : List Char) :
    text.length ∈ boundaryIndices spans text := by
  rw [mem_boundaryIndices_iff]
  simp

/-- An ascending list of naturals containing `0` starts with `0`. -/
theorem sorted_head_eq_zero : ∀ (a : Nat) (rest : List Nat),
    List.Pairwise (fun x y => x ≤ y) (a :: rest) → 0 ∈ (a :: rest) → a = 0 := by
  intro a rest hp h0
  rcases List.mem_cons.mp h0 with he | hm
  · omega
  · have := (List.pairwise_cons.mp hp).1 0 hm
    omega

/-- In an ascending list, every element is at most the last. -/
theorem sorted_le_getLast : ∀ (l : List Nat) (hne : l ≠ []),
    List.Pairwise (fun x y => x ≤ y) l → ∀ x ∈ l, x ≤ l.getLast hne := by
  intro l
  induction l with
  | nil => intro hne; exact absurd rfl hne
  | cons a rest ih =>
    intro hne hp x hx
    rcases rest with _ | ⟨b, rest'⟩
    · simp at hx
      simp [hx]
    · rw [List.getLast_cons (List.cons_ne_nil b rest')]
      rcases List.mem_cons.mp hx with he | hm
      · subst he
        have : b ≤ (b :: rest').getLast (List.cons_ne_nil b rest') := by
          have := ih (List.cons_ne_nil b rest') (List.pairwise_cons.mp hp).2 b (by simp)
          exact this
        have hab : x ≤ b := (List.pairwise_cons.mp hp).1 b (by simp)
        omega
      · exact ih (List.cons_ne_nil b rest') (List.pairwise_cons.mp hp).2 x hm

/-- The chunk round-trip: concatenating every token of every chunk, in
order, reproduces the text (this holds for all inputs). -/
theorem spec_C6_roundtrip (spans : List SpanData) (text : List Char) :
    ((chunkText spans text).map (fun ch => ch.tokens.flatten)).flatten = text := by
  have hmapeq : (chunkText spans text).map (fun ch => ch.tokens.flatten)
      = (adjPairs (boundaryIndices spans text)).map (fun p => sliceChars text p.1 p.2) := by
    unfold chunkText
    rw [List.map_map]
    refine List.map_congr_left ?_
    intro p hp
    simp only [Function.comp]
    split_ifs with h
    · rw [flatten_filter_pos, splitTokens_flatten]
    · have : sliceChars text p.1 p.2 = [] := List.length_eq_zero.mp (by omega)
      simp [this]
  rw [hmapeq]
  rcases hbl : boundaryIndices spans text with _ | ⟨a, rest⟩
  · exact absurd (hbl ▸ zero_mem_boundaryIndices spans text) (by simp)
  · have hp : List.Pairwise (fun x y => x ≤ y) (a :: rest) := hbl ▸ boundaryIndices_sorted spans text
    rw [flatten_adjPairs_slices text rest a hp]
    have ha : a = 0 := sorted_head_eq_zero a rest hp (hbl ▸ zero_mem_boundaryIndices spans text)
    have hlast : text.length ≤ (a :: rest).getLast (List.cons_ne_nil a rest) :=
      sorted_le_getLast _ _ hp text.length (hbl ▸ len_mem_boundaryIndices spans text)
    subst ha
    unfold sliceChars
    rw [List.drop_zero]
    exact List.take_of_length_le (by omega)

/-- Claim C6: for in-range spans, the concatenation of all tokens of all
chunks of `chunkText` equals the original text, and the number of chunks
is the number of distinct boundary values minus one (the round-trip in
fact holds for all inputs; the in-range hypothesis mirrors the claim). -/
theorem spec_C6 (spans : List SpanData) (text : List Char)
    (_hws : ∀ s ∈ spans, s.sbegin ≤ s.send ∧ s.send ≤ text.length) :
    ((chunkText spans text).map (fun ch => ch.tokens.flatten)).flatten = text ∧
    (chunkText spans text).length + 1
      = ((spans.flatMap fun s => [s.sbegin, s.send]) ++ [0, text.length]).dedup.length := by
  refine ⟨spec_C6_roundtrip spans text, ?_⟩
  have h1 : (chunkText spans text).length = (adjPairs (boundaryIndices spans text)).length := by
    unfold chunkText
    rw [List.length_map]
  have h2 : (boundaryIndices spans text).length
      = ((spans.flatMap fun s => [s.sbegin, s.send]) ++ [0, text.length]).dedup.length := by
    unfold boundaryIndices
    exact List.length_insertionSort _ _
  have h3 : (boundaryIndices spans text).length ≥ 1 := by
    have := zero_mem_boundaryIndices spans text
    rcases hbl : boundaryIndices spans text with _ | ⟨a, rest⟩
    · rw [hbl] at this
      simp at this
    · simp
  rw [h1, adjPairs_length, ← h2]
  omega

/-- Witness for claim C6 at the spec's own example input. -/
theorem spec_C6_witness :
    (∀ s ∈ [mkSp 0 2 "b" false "A"], s.sbegin ≤ s.send ∧ s.send ≤ "ab cd".toList.length) ∧
    (((chunkText [mkSp 0 2 "b" false "A"] "ab cd".toList).map
        (fun ch => ch.tokens.flatten)).flatten = "ab cd".toList ∧
      (chunkText [mkSp 0 2 "b" false "A"] "ab cd".toList).length + 1
        = (([mkSp 0 2 "b" false "A"].flatMap fun s => [s.sbegin, s.send])
            ++ [0, "ab cd".toList.length]).dedup.length) :=
  ⟨by decide, spec_C6 _ _ (by decide)⟩

/-- The code's per-chunk token fold (offset counted inside the chunk,
added to `chunk.begin`) and the spec-side fold (one running document
offset) agree when the spec offset enters at `chunk.begin`; the spec fold
additionally tracks whether the last processed token was a newline. -/
theorem lineFold_inner : ∀ (toks : List (List Char)) (k : Nat) (anns : List TokenAnn)
    (cb n : Nat) (cl : List TokenData) (al : List (List TokenData)) (o : Nat) (lnl : Bool),
    (toks.enumFrom k).foldl (lineSpecStep anns n) (cl, al, cb + o, lnl)
      = (((toks.enumFrom k).foldl (lineStep cb anns n) (cl, al, o)).1,
         ((toks.enumFrom k).foldl (lineStep cb anns n) (cl, al, o)).2.1,
         cb + ((toks.enumFrom k).foldl (lineStep cb anns n) (cl, al, o)).2.2,
         match toks.getLast? with
         | none => lnl
         | some t => decide (t = ['\n'])) := by
  intro toks
  induction toks with
  | nil =>
    intro k anns cb n cl al o lnl
    rfl
  | cons t ts ih =>
    intro k anns cb n cl al o lnl
    rw [List.enumFrom_cons]
    simp only [List.foldl_cons]
    by_cases ht : t = ['\n']
    · have hstep : lineSpecStep anns n (cl, al, cb + o, lnl) (k, t)
          = ([], al ++ [cl], cb + (o + t.length), true) := by
        simp [lineSpecStep, ht]
        omega
      have hstep' : lineStep cb anns n (cl, al, o) (k, t)
          = ([], al ++ [cl], o + t.length) := by
        simp [lineStep, ht]
      rw [hstep, hstep', ih]
      rcases hlast : ts.getLast? with _ | t'
      · have : ts = [] := by
          cases ts
          · rfl
          · simp [List.getLast?_eq_getLast] at hlast
        subst this
        simp [ht]
      · have : (t :: ts).getLast? = some t' := by
          rw [List.getLast?_cons]
          rcases ts with _ | ⟨x, xs⟩
          · simp at hlast
          · simpa [List.getLast?_cons] using hlast
        rw [this]
    · have hstep : lineSpecStep anns n (cl, al, cb + o, lnl) (k, t)
          = (cl ++ [{ text := t
                      key := toString (cb + o) ++ "-" ++ toString (cb + o + t.length)
                      tbegin := cb + o
                      tend := cb + o + t.length
                      token_annotations := anns
                      isFirstTokenOfChunk := k == 0
                      isLastTokenOfChunk := k == n - 1 }],
             al, cb + (o + t.length), false) := by
        simp [lineSpecStep, ht]
        omega
      have hstep' : lineStep cb anns n (cl, al, o) (k, t)
          = (cl ++ [{ text := t
                      key := toString (cb + o) ++ "-" ++ toString (cb + o + t.length)
                      tbegin := cb + o
                      tend := cb + o + t.length
                      token_annotations := anns
                      isFirstTokenOfChunk := k == 0
                      isLastTokenOfChunk := k == n - 1 }],
             al, o + t.length) := by
        simp [lineStep, ht]
      rw [hstep, hstep', ih]
      rcases hlast : ts.getLast? with _ | t'
      · have : ts = [] := by
          cases ts
          · rfl
          · simp [List.getLast?_eq_getLast] at hlast
        subst this
        simp [ht]
      · have : (t :: ts).getLast? = some t' := by
          rw [List.getLast?_cons]
          rcases ts with _ | ⟨x, xs⟩
          · simp at hlast
          · simpa [List.getLast?_cons] using hlast
        rw [this]

/-- The code's per-chunk fold advances its in-chunk offset by the total
token length. -/
theorem lineFold_offset : ∀ (toks : List (List Char)) (k : Nat) (anns : List TokenAnn)
    (cb n : Nat) (cl : List TokenData) (al : List (List TokenData)) (o : Nat),
    ((toks.enumFrom k).foldl (lineStep cb anns n) (cl, al, o)).2.2
      = o + tokensLen toks := by
  intro toks
  induction toks with
  | nil =>
    intro k anns cb n cl al o
    simp [tokensLen]
  | cons t ts ih =>
    intro k anns cb n cl al o
    rw [List.enumFrom_cons]
    simp only [List.foldl_cons]
    have : tokensLen (t :: ts) = t.length + tokensLen ts := by
      simp [tokensLen]
    rw [this]
    by_cases ht : t = ['\n']
    · have hstep' : lineStep cb anns n (cl, al, o) (k, t) = ([], al ++ [cl], o + t.length) := by
        simp [lineStep, ht]
      rw [hstep', ih]
      omega
    · have hstep' : (lineStep cb anns n (cl, al, o) (k, t)).2.2 = o + t.length := by
        simp [lineStep, ht]
      rcases hs : lineStep cb anns n (cl, al, o) (k, t) with ⟨cl', al', o'⟩
      rw [hs] at hstep'
      simp at hstep'
      rw [ih]
      simp [hstep']
      omega

/-- The chunk-level folds of `tokenizeTextChunks` and `lineSplitterSpec`
agree on chunk lists with chained offsets and non-empty token lists. -/
theorem lineFold_outer : ∀ (chunks : List TextChunk) (off : Nat) (cl : List TokenData)
    (al : List (List TokenData)) (lnl : Bool),
    offsetsChained chunks off = true →
    (∀ ch ∈ chunks, ch.tokens ≠ []) →
    chunks.foldl (fun acc ch =>
        ch.tokens.enum.foldl (lineSpecStep ch.token_annotations ch.tokens.length) acc)
        (cl, al, off, lnl)
      = ((chunks.foldl (fun (acc : List TokenData × List (List TokenData)) ch =>
            let r := ch.tokens.enum.foldl
              (lineStep ch.cbegin ch.token_annotations ch.tokens.length) (acc.1, acc.2, 0)
            (r.1, r.2.1)) (cl, al)).1,
         (chunks.foldl (fun (acc : List TokenData × List (List TokenData)) ch =>
            let r := ch.tokens.enum.foldl
              (lineStep ch.cbegin ch.token_annotations ch.tokens.length) (acc.1, acc.2, 0)
            (r.1, r.2.1)) (cl, al)).2,
         off + (chunks.map fun ch => tokensLen ch.tokens).sum,
         match chunks.getLast? with
         | none => lnl
         | some ch => decide (ch.tokens.getLast?.getD [] = ['\n'])) := by
  intro chunks
  induction chunks with
  | nil =>
    intro off cl al lnl _ _
    simp
  | cons ch rest ih =>
    intro off cl al lnl hchain hne
    have hcb : ch.cbegin = off := by
      simp [offsetsChained] at hchain
      exact hchain.1
    have hchain' : offsetsChained rest (off + tokensLen ch.tokens) = true := by
      simp [offsetsChained] at hchain
      exact hchain.2
    have hne' : ∀ c ∈ rest, c.tokens ≠ [] := fun c hc => hne c (List.mem_cons_of_mem _ hc)
    have hnech : ch.tokens ≠ [] := hne ch (List.mem_cons_self _ _)
    simp only [List.foldl_cons]
    have hoff : off = ch.cbegin + 0 := by omega
    rw [hoff]
    rw [show ch.tokens.enum = ch.tokens.enumFrom 0 from rfl]
    rw [lineFold_inner]
    rw [lineFold_offset]
    have htl : ch.tokens.getLast? = some (ch.tokens.getLast?.getD []) := by
      rcases hg : ch.tokens.getLast? with _ | t
      · exact absurd (List.getLast?_eq_none_iff.mp hg) hnech
      · rfl
    rw [htl]
    rw [ih _ _ _ _ (by rw [show ch.cbegin + (0 + tokensLen ch.tokens) = off + tokensLen ch.tokens by omega]; exact hchain') hne']
    rcases hrl : rest.getLast? with _ | lch
    · have : rest = [] := by
        cases rest
        · rfl
        · simp [List.getLast?_eq_getLast] at hrl
      subst this
      simp
    · have : (ch :: rest).getLast? = some lch := by
        rw [List.getLast?_cons]
        rcases rest with _ | ⟨x, xs⟩
        · simp at hrl
        · simpa [List.getLast?_cons] using hrl
      rw [this]
      simp
      omega

/-- Claim C8: on chunk lists whose chunks all carry at least one token
and whose `begin` offsets are chained from `0` (both hold for every
`chunkText` output on in-range spans), the line splitter behaves exactly
as claimed: a token equal to a single newline terminates the current line
and produces no `TokenData`; every other token yields a `TokenData` whose
`begin`/`end` come from the running document offset and whose key is
`"{begin}-{end}"`; and a trailing line is appended exactly when the last
line is non-empty or the very last token processed was a newline. -/
theorem spec_C8 (text_chunks : List TextChunk)
    (h1 : ∀ ch ∈ text_chunks, ch.tokens ≠ [])
    (h2 : offsetsChained text_chunks 0 = true) :
    tokenizeTextChunks text_chunks = lineSplitterSpec text_chunks := by
  unfold tokenizeTextChunks lineSplitterSpec
  rw [lineFold_outer text_chunks 0 [] [] false h2 h1]
  rcases hlast : text_chunks.getLast? with _ | lch
  · have : text_chunks = [] := List.getLast?_eq_none_iff.mp hlast
    subst this
    rfl
  · have hmem : lch ∈ text_chunks := List.mem_of_mem_getLast? hlast
    have hne : lch.tokens ≠ [] := h1 lch hmem
    have htl : lch.tokens.getLast? = some (lch.tokens.getLast?.getD []) := by
      rcases hg : lch.tokens.getLast? with _ | t
      · exact absurd (List.getLast?_eq_none_iff.mp hg) hne
      · rfl
    have hcond : ∀ (cl : List TokenData),
        (cl.length > 0 ∨ (lch.tokens.length > 0 ∧ lch.tokens.getLast? = some ['\n']))
          ↔ (cl ≠ [] ∨ decide (lch.tokens.getLast?.getD [] = ['\n']) = true) := by
      intro cl
      constructor
      · rintro (h | ⟨hlen, hsome⟩)
        · left
          exact List.ne_nil_of_length_pos h
        · right
          rw [htl] at hsome
          simp at hsome
          simp [hsome]
      · rintro (h | h)
        · left
          exact List.length_pos.mpr h
        · right
          refine ⟨List.length_pos.mpr hne, ?_⟩
          simp at h
          rw [htl, h]
    simp only
    rw [if_congr (hcond _) rfl rfl]

/-- Setting an index to the value it already holds is the identity. -/
theorem list_set_self {α : Type} (l : List α) (i : Nat) (x : α) (h : l[i]? = some x) :
    l.set i x = l := by
  induction l generalizing i with
  | nil => simp at h
  | cons a rest ih =>
    rcases i with _ | j
    · simp at h
      simp [h]
    · simp at h
      simp [List.set_cons_succ, ih j h]

/-- Pointwise description of the cluster flush. -/
theorem reverse_chunks_getElem (styles : Styles) (uCD : Int) (cluster : List Nat)
    (chunks : List TextChunk) (i : Nat) :
    (reverseUnderlineClusterDepths styles uCD cluster chunks)[i]?
      = chunks[i]?.map (fun ch =>
          if i ∈ cluster then
            { ch with token_annotations := ch.token_annotations.map (revAnn styles uCD) }
          else ch) := by
  unfold reverseUnderlineClusterDepths
  rw [List.mapIdx_eq_enum_map, List.getElem?_map, List.getElem?_enum]
  rcases h : chunks[i]? with _ | ch <;> simp

/-- The cluster flush preserves every chunk's bounds and tokens. -/
theorem reverse_chunks_key (styles : Styles) (uCD : Int) (cluster : List Nat)
    (chunks : List TextChunk) :
    (reverseUnderlineClusterDepths styles uCD cluster chunks).map
        (fun c => (c.cbegin, c.cend, c.tokens))
      = chunks.map (fun c => (c.cbegin, c.cend, c.tokens)) := by
  unfold reverseUnderlineClusterDepths
  rw [List.mapIdx_eq_enum_map, List.map_map]
  have h1 : ∀ p ∈ chunks.enum,
      (((fun c => (c.cbegin, c.cend, c.tokens)) ∘ Function.uncurry fun i ch =>
        if i ∈ cluster then
          { ch with token_annotations := ch.token_annotations.map (revAnn styles uCD) }
        else ch) p : Nat × Nat × List (List Char))
        = ((fun c : TextChunk => (c.cbegin, c.cend, c.tokens)) ∘ Prod.snd) p := by
    intro p _
    by_cases h : p.1 ∈ cluster <;> simp [Function.comp, Function.uncurry, h]
  rw [List.map_congr_left h1, ← List.map_map, List.enum_map_snd]

/-- A missing span style makes the depth computation throw. -/
theorem computeDepthZ_missing (styles : Styles) (anns : List TokenAnn) (sty : String)
    (h : lookupStyle styles sty = none) :
    computeDepthZ styles anns sty = Except.error () := by
  unfold computeDepthZ
  rcases hs : scanAnns styles anns ([false], [false], [false]) with e | acc
  · cases e
    rfl
  · rw [h]

/-- The annotation scan succeeds when every non-mouse-selected annotation
resolves its style. -/
theorem scanAnns_ok (styles : Styles) :
    ∀ (anns : List TokenAnn),
      (∀ a ∈ anns, a.mouseSelected = false → lookupStyle styles a.style ≠ none) →
      ∀ acc, ∃ acc', scanAnns styles anns acc = Except.ok acc' := by
  intro anns
  induction anns with
  | nil =>
    intro _ acc
    exact ⟨acc, rfl⟩
  | cons a rest ih =>
    intro h acc
    have hrest := fun b hb => h b (List.mem_cons_of_mem _ hb)
    by_cases hm : a.mouseSelected
    · rcases ih hrest acc with ⟨acc', h'⟩
      exact ⟨acc', by simp [scanAnns, hm, h']⟩
    · have hpres : lookupStyle styles a.style ≠ none :=
        h a (List.mem_cons_self _ _) (Bool.not_eq_true _ ▸ Bool.of_not_eq_true hm)
      rcases hl : lookupStyle styles a.style with _ | stl
      · exact absurd hl hpres
      · by_cases hsh : stl.shape = "underline"
        · rcases ih hrest (acc.1, markIndex acc.2.1 a.depth, markIndex acc.2.2 a.zIndex)
            with ⟨acc', h'⟩
          refine ⟨acc', ?_⟩
          simp only [scanAnns, hm, hl]
          simp [hsh, h']
        · rcases ih hrest (markIndex acc.1 a.depth, acc.2.1, markIndex acc.2.2 a.zIndex)
            with ⟨acc', h'⟩
          refine ⟨acc', ?_⟩
          simp only [scanAnns, hm, hl]
          simp [hsh, h']

/-- The depth computation succeeds when the span's style and every
non-mouse-selected annotation's style resolve. -/
theorem computeDepthZ_ok_of_present (styles : Styles) (anns : List TokenAnn) (sty : String)
    (stl : PreprocessedStyle) (hsty : lookupStyle styles sty = some stl)
    (h : ∀ a ∈ anns, a.mouseSelected = false → lookupStyle styles a.style ≠ none) :
    ∃ dz, computeDepthZ styles anns sty = Except.ok dz := by
  rcases scanAnns_ok styles anns h ([false], [false], [false]) with ⟨acc, hs⟩
  unfold computeDepthZ
  rw [hs, hsty]
  exact ⟨_, rfl⟩

/-- A successful depth computation yields non-negative numbers for both
the depth and the z-index. -/
theorem computeDepthZ_ok_nonneg (styles : Styles) (anns : List TokenAnn) (sty : String)
    (dz : Option Int × Option Int) (h : computeDepthZ styles anns sty = Except.ok dz) :
    ∃ dn zn : Nat, dz = (some (dn : Int), some (zn : Int)) := by
  unfold computeDepthZ at h
  rcases hs : scanAnns styles anns ([false], [false], [false]) with e | acc
  · rw [hs] at h
    cases h
  · rw [hs] at h
    rcases hl : lookupStyle styles sty with _ | stl
    · rw [hl] at h
      cases h
    · rw [hl] at h
      have := Except.ok.inj h
      exact ⟨_, _, this.symm⟩

/-- Out-of-range chunk indices leave the loop state unchanged. -/
theorem processChunk_none (styles : Styles) (s : SpanData) (st : SpanLoopState) (i : Nat)
    (h : st.chunks[i]? = none) : processChunk styles s st i = Except.ok st := by
  unfold processChunk
  rw [h]
  rfl

/-- A chunk the span does not overlap leaves the loop state unchanged. -/
theorem processChunk_no_overlap (styles : Styles) (s : SpanData) (st : SpanLoopState) (i : Nat)
    (ch : TextChunk) (hch : st.chunks[i]? = some ch)
    (hov : ¬(ch.cbegin < s.send ∧ s.sbegin < ch.cend)) :
    processChunk styles s st i = Except.ok st := by
  unfold processChunk
  rw [hch]
  simp only [hov, if_false, reduceIte]
  rfl

/-- Full description of one overlapping chunk-loop step: the
depth computation runs exactly when `newDepth` is still unset and the
span is neither mouse-selected nor opted out; the annotation is prepended
and the cluster, `underlineClusterDepth` and `newDepth`/`newZIndex` are
updated as in lines 95-130. -/
theorem processChunk_overlap_step (styles : Styles) (s : SpanData) (st : SpanLoopState)
    (i : Nat) (ch : TextChunk) (hch : st.chunks[i]? = some ch)
    (hov : ch.cbegin < s.send ∧ s.sbegin < ch.cend) :
    processChunk styles s st i =
      (if st.newDepth = none ∧ s.mouseSelected = false ∧ autoNestingOff styles s.style = false
        then computeDepthZ styles ch.token_annotations s.style
        else Except.ok (st.newDepth, st.newZIndex)).bind (fun dz =>
      Except.ok
        { chunks := st.chunks.set i
            { cbegin := ch.cbegin
              cend := ch.cend
              label := if ch.cbegin = s.sbegin then some s.label else ch.label
              token_annotations :=
                { depth := dz.1
                  openleft := ch.cbegin != s.sbegin
                  openright := ch.cend != s.send
                  label := s.label
                  isFirstTokenOfSpan := ch.cbegin == s.sbegin
                  style := s.style
                  zIndex := dz.2
                  id := s.id
                  selected := s.selected
                  highlighted := s.highlighted
                  mouseSelected := s.mouseSelected
                  atext := s.text } :: ch.token_annotations
              tokens := ch.tokens }
          cluster := if i ∈ st.cluster then st.cluster else st.cluster ++ [i]
          uCD := if shapeOf styles s.style = some "underline" ∧ st.uCD < (dz.1).getD 0
                 then (dz.1).getD 0 else st.uCD
          newDepth := dz.1
          newZIndex := dz.2 }) := by
  unfold processChunk
  rw [hch]
  simp only [hov, and_self, if_true, reduceIte]
  by_cases hlb : ch.cbegin = s.sbegin <;>
    simp [hlb, Bind.bind] <;> split_ifs <;> rfl

/-- One chunk-loop step preserves every chunk's bounds and tokens. -/
theorem processChunk_shape (styles : Styles) (s : SpanData) (st : SpanLoopState) (i : Nat)
    (st' : SpanLoopState) (h : processChunk styles s st i = Except.ok st') :
    st'.chunks.map (fun c => (c.cbegin, c.cend, c.tokens))
      = st.chunks.map (fun c => (c.cbegin, c.cend, c.tokens)) := by
  rcases hch : st.chunks[i]? with _ | ch
  · rw [processChunk_none styles s st i hch] at h
    cases h
    rfl
  · by_cases hov : ch.cbegin < s.send ∧ s.sbegin < ch.cend
    · rw [processChunk_overlap_step styles s st i ch hch hov] at h
      rcases hx : (if st.newDepth = none ∧ s.mouseSelected = false ∧
          autoNestingOff styles s.style = false
        then computeDepthZ styles ch.token_annotations s.style
        else Except.ok (st.newDepth, st.newZIndex)) with e | dz
      · rw [hx] at h
        cases h
      · rw [hx] at h
        have hst' := (Except.ok.inj h).symm
        subst hst'
        simp only [List.map_set]
        have hm : (st.chunks.map (fun c => (c.cbegin, c.cend, c.tokens)))[i]?
            = some (ch.cbegin, ch.cend, ch.tokens) := by
          rw [List.getElem?_map, hch]
          rfl
        exact list_set_self _ i _ hm
    · rw [processChunk_no_overlap styles s st i ch hch hov] at h
      cases h
      rfl

/-- The chunk loop preserves every chunk's bounds and tokens. -/
theorem chunkLoop_shape (styles : Styles) (s : SpanData) :
    ∀ (l : List Nat) (st st' : SpanLoopState),
      l.foldlM (processChunk styles s) st = Except.ok st' →
      st'.chunks.map (fun c => (c.cbegin, c.cend, c.tokens))
        = st.chunks.map (fun c => (c.cbegin, c.cend, c.tokens)) := by
  intro l
  induction l with
  | nil =>
    intro st st' h
    cases h
    rfl
  | cons i rest ih =>
    intro st st' h
    rw [List.foldlM_cons] at h
    rcases hp : processChunk styles s st i with e | st1
    · rw [hp] at h
      cases h
    · rw [hp] at h
      exact (ih st1 st' h).trans (processChunk_shape styles s st i st1 hp)

/-- The flush step preserves every chunk's bounds and tokens. -/
theorem flushStep_key (styles : Styles) (st : LayoutState) (s : SpanData) :
    (flushStep styles st s).chunks.map (fun c => (c.cbegin, c.cend, c.tokens))
      = st.chunks.map (fun c => (c.cbegin, c.cend, c.tokens)) := by
  unfold flushStep
  split_ifs with h1 h2
  · exact reverse_chunks_key styles st.uCD st.cluster st.chunks
  · rfl
  · rfl

/-- The flush step never changes `underlineClusterDepth`. -/
theorem flushStep_uCD (styles : Styles) (st : LayoutState) (s : SpanData) :
    (flushStep styles st s).uCD = st.uCD := by
  unfold flushStep
  split_ifs <;> rfl

/-- Processing one span preserves every chunk's bounds and tokens. -/
theorem processSpan_shape (styles : Styles) (st : LayoutState) (s : SpanData)
    (st' : LayoutState) (h : processSpan styles st s = Except.ok st') :
    st'.chunks.map (fun c => (c.cbegin, c.cend, c.tokens))
      = st.chunks.map (fun c => (c.cbegin, c.cend, c.tokens)) := by
  unfold processSpan at h
  rcases hf : (List.range (flushStep styles st s).chunks.length).foldlM (processChunk styles s)
      { chunks := (flushStep styles st s).chunks
        cluster := (flushStep styles st s).cluster
        uCD := (flushStep styles st s).uCD
        newDepth := none
        newZIndex := none } with e | ls
  · rw [hf] at h
    cases h
  · rw [hf] at h
    have hst' := (Except.ok.inj h).symm
    subst hst'
    simpa using (chunkLoop_shape styles s _ _ ls hf).trans (flushStep_key styles st s)

/-- The span walk preserves every chunk's bounds and tokens. -/
theorem spanWalk_shape (styles : Styles) :
    ∀ (spans : List SpanData) (st st' : LayoutState),
      spans.foldlM (processSpan styles) st = Except.ok st' →
      st'.chunks.map (fun c => (c.cbegin, c.cend, c.tokens))
        = st.chunks.map (fun c => (c.cbegin, c.cend, c.tokens)) := by
  intro spans
  induction spans with
  | nil =>
    intro st st' h
    cases h
    rfl
  | cons s rest ih =>
    intro st st' h
    rw [List.foldlM_cons] at h
    rcases hp : processSpan styles st s with e | st1
    · rw [hp] at h
      cases h
    · rw [hp] at h
      exact (ih st1 st' h).trans (processSpan_shape styles st s st1 hp)

/-- The layout assigner preserves every chunk's bounds and tokens. -/
theorem styleTextChunks_shape (text_chunks : List TextChunk) (spans : List SpanData)
    (styles : Styles) (out : List TextChunk)
    (h : styleTextChunks_ text_chunks spans styles = Except.ok out) :
    out.map (fun c => (c.cbegin, c.cend, c.tokens))
      = text_chunks.map (fun c => (c.cbegin, c.cend, c.tokens)) := by
  unfold styleTextChunks_ at h
  rcases hf : spans.foldlM (processSpan styles)
      { chunks := text_chunks, cluster := [], uCD := 0, rMO := 0 } with e | st
  · rw [hf] at h
    cases h
  · rw [hf] at h
    have := (Except.ok.inj h).symm
    subst this
    rw [reverse_chunks_key]
    simpa using spanWalk_shape styles spans _ _ hf

/-- Witness for claim C8 on the spec's trailing-newline example `"a\n"`:
the hypotheses hold for its chunking, and the split yields the lines
`["a"]` and `[]`. -/
theorem spec_C8_witness :
    (∀ ch ∈ chunkText [] "a\n".toList, ch.tokens ≠ []) ∧
    offsetsChained (chunkText [] "a\n".toList) 0 = true ∧
    tokenizeTextChunks (chunkText [] "a\n".toList)
      = lineSplitterSpec (chunkText [] "a\n".toList) ∧
    (tokenizeTextChunks (chunkText [] "a\n".toList)).map (fun l => l.map (·.text))
      = [[['a']], []] :=
  ⟨by decide, by decide, spec_C8 _ (by decide) (by decide), by decide⟩

/-- The flush rewrite only touches `depth`. -/
theorem revAnn_fields (styles : Styles) (uCD : Int) (a : TokenAnn) :
    (revAnn styles uCD a).style = a.style ∧
    (revAnn styles uCD a).mouseSelected = a.mouseSelected ∧
    (revAnn styles uCD a).zIndex = a.zIndex ∧
    (revAnn styles uCD a).id = a.id := by
  unfold revAnn
  split_ifs <;> exact ⟨rfl, rfl, rfl, rfl⟩

/-- The cluster flush preserves the invariant that every
non-mouse-selected annotation resolves its style. -/
theorem reverse_anns_styleInv (styles : Styles) (uCD : Int) (cluster : List Nat)
    (chunks : List TextChunk)
    (h : ∀ ch ∈ chunks, ∀ a ∈ ch.token_annotations,
      a.mouseSelected = false → lookupStyle styles a.style ≠ none) :
    ∀ ch ∈ reverseUnderlineClusterDepths styles uCD cluster chunks,
      ∀ a ∈ ch.token_annotations,
        a.mouseSelected = false → lookupStyle styles a.style ≠ none := by
  intro ch hch a ha hm
  rcases List.getElem?_of_mem hch with ⟨i, hi⟩
  rw [reverse_chunks_getElem] at hi
  rcases hco : chunks[i]? with _ | ch0
  · rw [hco] at hi
    cases hi
  · rw [hco] at hi
    have hch0 : ch0 ∈ chunks := List.getElem?_mem hco
    simp only [Option.map_some'] at hi
    by_cases hmem : i ∈ cluster
    · rw [if_pos hmem] at hi
      have hi' := Option.some.inj hi
      subst hi'
      simp only [List.mem_map] at ha
      rcases ha with ⟨a0, ha0, rfl⟩
      have hf := revAnn_fields styles uCD a0
      rw [hf.1]
      exact h ch0 hch0 a0 ha0 (by rw [← hf.2.1]; exact hm)
    · rw [if_neg hmem] at hi
      have hi' := Option.some.inj hi
      subst hi'
      exact h ch0 hch0 a ha hm

/-- The chunk loop succeeds when every non-mouse-selected annotation
resolves its style and the span either resolves its style or overlaps no
chunk; the invariant is preserved. -/
theorem chunkLoop_ok (styles : Styles) (s : SpanData) :
    ∀ (l : List Nat) (st : SpanLoopState),
      (∀ ch ∈ st.chunks, ∀ a ∈ ch.token_annotations,
        a.mouseSelected = false → lookupStyle styles a.style ≠ none) →
      (s.mouseSelected = false → lookupStyle styles s.style = none →
        ∀ ch ∈ st.chunks, ¬(ch.cbegin < s.send ∧ s.sbegin < ch.cend)) →
      ∃ st', l.foldlM (processChunk styles s) st = Except.ok st' ∧
        (∀ ch ∈ st'.chunks, ∀ a ∈ ch.token_annotations,
          a.mouseSelected = false → lookupStyle styles a.style ≠ none) := by
  intro l
  induction l with
  | nil =>
    intro st hinv hbad
    exact ⟨st, rfl, hinv⟩
  | cons i rest ih =>
    intro st hinv hbad
    rcases hch : st.chunks[i]? with _ | ch
    · rcases ih st hinv hbad with ⟨st', hok, hinv'⟩
      refine ⟨st', ?_, hinv'⟩
      rw [List.foldlM_cons, processChunk_none styles s st i hch]
      exact hok
    · by_cases hov : ch.cbegin < s.send ∧ s.sbegin < ch.cend
      · -- overlapping chunk: one step, then continue
        have hchmem : ch ∈ st.chunks := List.getElem?_mem hch
        -- the depth computation (if it runs) succeeds
        have hdz : ∃ dz, (if st.newDepth = none ∧ s.mouseSelected = false ∧
              autoNestingOff styles s.style = false
            then computeDepthZ styles ch.token_annotations s.style
            else Except.ok (st.newDepth, st.newZIndex)) = Except.ok dz := by
          split_ifs with hc
          · rcases hsty : lookupStyle styles s.style with _ | stl
            · exact absurd hov (hbad hc.2.1 hsty ch hchmem)
            · exact computeDepthZ_ok_of_present styles ch.token_annotations s.style stl hsty
                (hinv ch hchmem)
          · exact ⟨_, rfl⟩
        rcases hdz with ⟨dz, hdz⟩
        set newAnn : TokenAnn :=
          { depth := dz.1
            openleft := ch.cbegin != s.sbegin
            openright := ch.cend != s.send
            label := s.label
            isFirstTokenOfSpan := ch.cbegin == s.sbegin
            style := s.style
            zIndex := dz.2
            id := s.id
            selected := s.selected
            highlighted := s.highlighted
            mouseSelected := s.mouseSelected
            atext := s.text } with hann
        set st1 : SpanLoopState :=
          { chunks := st.chunks.set i
              { cbegin := ch.cbegin
                cend := ch.cend
                label := if ch.cbegin = s.sbegin then some s.label else ch.label
                token_annotations := newAnn :: ch.token_annotations
                tokens := ch.tokens }
            cluster := if i ∈ st.cluster then st.cluster else st.cluster ++ [i]
            uCD := if shapeOf styles s.style = some "underline" ∧ st.uCD < (dz.1).getD 0
                   then (dz.1).getD 0 else st.uCD
            newDepth := dz.1
            newZIndex := dz.2 } with hst1
        have hstep : processChunk styles s st i = Except.ok st1 := by
          rw [processChunk_overlap_step styles s st i ch hch hov, hdz]
          rfl
        have hinv1 : ∀ c ∈ st1.chunks, ∀ a ∈ c.token_annotations,
            a.mouseSelected = false → lookupStyle styles a.style ≠ none := by
          intro c hc a ha hm
          rcases List.mem_or_eq_of_mem_set hc with hcm | hceq
          · exact hinv c hcm a ha hm
          · subst hceq
            simp only at ha
            rcases List.mem_cons.mp ha with haeq | ham
            · subst haeq
              rw [hann] at hm ⊢
              simp only at hm ⊢
              rcases hsty : lookupStyle styles s.style with _ | stl
              · exact absurd hov (hbad hm hsty ch hchmem)
              · simp [hsty]
            · exact hinv ch hchmem a ham hm
        have hbad1 : s.mouseSelected = false → lookupStyle styles s.style = none →
            ∀ c ∈ st1.chunks, ¬(c.cbegin < s.send ∧ s.sbegin < c.cend) := by
          intro hm hsty
          exact absurd hov (hbad hm hsty ch hchmem)
        rcases ih st1 hinv1 hbad1 with ⟨st', hok, hinv'⟩
        refine ⟨st', ?_, hinv'⟩
        rw [List.foldlM_cons, hstep]
        exact hok
      · rcases ih st hinv hbad with ⟨st', hok, hinv'⟩
        refine ⟨st', ?_, hinv'⟩
        rw [List.foldlM_cons, processChunk_no_overlap styles s st i ch hch hov]
        exact hok

/-- Overlap facts transfer between chunk lists with equal bounds. -/
theorem overlap_transfer (s : SpanData) (A B : List TextChunk)
    (hk : A.map (fun c => (c.cbegin, c.cend, c.tokens))
           = B.map (fun c => (c.cbegin, c.cend, c.tokens)))
    (h : ∀ ch ∈ B, ¬(ch.cbegin < s.send ∧ s.sbegin < ch.cend)) :
    ∀ ch ∈ A, ¬(ch.cbegin < s.send ∧ s.sbegin < ch.cend) := by
  intro ch hch
  have hmem : (ch.cbegin, ch.cend, ch.tokens)
      ∈ A.map (fun c => (c.cbegin, c.cend, c.tokens)) :=
    List.mem_map_of_mem _ hch
  rw [hk] at hmem
  rcases List.mem_map.mp hmem with ⟨ch', hch', heq⟩
  simp only [Prod.ext_iff] at heq
  intro hov
  exact h ch' hch' (by rw [heq.1, heq.2.1]; exact hov)

/-- Processing one span succeeds under the style invariant when the span
either resolves its style or overlaps no chunk. -/
theorem processSpan_ok (styles : Styles) (st : LayoutState) (s : SpanData)
    (hinv : ∀ ch ∈ st.chunks, ∀ a ∈ ch.token_annotations,
      a.mouseSelected = false → lookupStyle styles a.style ≠ none)
    (hbad : s.mouseSelected = false → lookupStyle styles s.style = none →
      ∀ ch ∈ st.chunks, ¬(ch.cbegin < s.send ∧ s.sbegin < ch.cend)) :
    ∃ st', processSpan styles st s = Except.ok st' ∧
      (∀ ch ∈ st'.chunks, ∀ a ∈ ch.token_annotations,
        a.mouseSelected = false → lookupStyle styles a.style ≠ none) := by
  have hfinv : ∀ ch ∈ (flushStep styles st s).chunks, ∀ a ∈ ch.token_annotations,
      a.mouseSelected = false → lookupStyle styles a.style ≠ none := by
    unfold flushStep
    split_ifs with h1 h2
    · exact reverse_anns_styleInv styles st.uCD st.cluster st.chunks hinv
    · exact hinv
    · exact hinv
  have hfbad : s.mouseSelected = false → lookupStyle styles s.style = none →
      ∀ ch ∈ (flushStep styles st s).chunks, ¬(ch.cbegin < s.send ∧ s.sbegin < ch.cend) :=
    fun hm hsty => overlap_transfer s _ _ (flushStep_key styles st s) (hbad hm hsty)
  rcases chunkLoop_ok styles s (List.range (flushStep styles st s).chunks.length)
      { chunks := (flushStep styles st s).chunks
        cluster := (flushStep styles st s).cluster
        uCD := (flushStep styles st s).uCD
        newDepth := none
        newZIndex := none } hfinv hfbad with ⟨ls, hok, hinv'⟩
  refine ⟨{ chunks := ls.chunks, cluster := ls.cluster, uCD := ls.uCD,
            rMO := (flushStep styles st s).rMO }, ?_, hinv'⟩
  unfold processSpan
  rw [hok]
  rfl

/-- The span walk succeeds when every non-mouse-selected span either
resolves its style or overlaps no chunk. -/
theorem spanWalk_ok (styles : Styles) :
    ∀ (spans : List SpanData) (st : LayoutState),
      (∀ ch ∈ st.chunks, ∀ a ∈ ch.token_annotations,
        a.mouseSelected = false → lookupStyle styles a.style ≠ none) →
      (∀ s ∈ spans, s.mouseSelected = false → lookupStyle styles s.style = none →
        ∀ ch ∈ st.chunks, ¬(ch.cbegin < s.send ∧ s.sbegin < ch.cend)) →
      ∃ st', spans.foldlM (processSpan styles) st = Except.ok st' := by
  intro spans
  induction spans with
  | nil =>
    intro st _ _
    exact ⟨st, rfl⟩
  | cons s rest ih =>
    intro st hinv hbad
    rcases processSpan_ok styles st s hinv (hbad s (List.mem_cons_self _ _)) with ⟨st1, hok, hinv1⟩
    have hkey : st1.chunks.map (fun c => (c.cbegin, c.cend, c.tokens))
        = st.chunks.map (fun c => (c.cbegin, c.cend, c.tokens)) :=
      processSpan_shape styles st s st1 hok
    have hbad1 : ∀ t ∈ rest, t.mouseSelected = false → lookupStyle styles t.style = none →
        ∀ ch ∈ st1.chunks, ¬(ch.cbegin < t.send ∧ t.sbegin < ch.cend) :=
      fun t ht hm hsty => overlap_transfer t _ _ hkey
        (hbad t (List.mem_cons_of_mem _ ht) hm hsty)
    rcases ih st1 hinv1 hbad1 with ⟨st', hok'⟩
    refine ⟨st', ?_⟩
    rw [List.foldlM_cons, hok]
    exact hok'

/-- The chunk loop throws for a non-mouse-selected span with a missing
style as soon as some listed index holds an overlapping chunk. -/
theorem chunkLoop_err (styles : Styles) (s : SpanData)
    (hm : s.mouseSelected = false) (hsty : lookupStyle styles s.style = none) :
    ∀ (l : List Nat) (st : SpanLoopState), st.newDepth = none →
      (∃ i ∈ l, ∃ ch, st.chunks[i]? = some ch ∧ ch.cbegin < s.send ∧ s.sbegin < ch.cend) →
      l.foldlM (processChunk styles s) st = Except.error () := by
  intro l
  induction l with
  | nil =>
    intro st _ hex
    rcases hex with ⟨i, hi, _⟩
    simp at hi
  | cons j rest ih =>
    intro st hnd hex
    rcases hch : st.chunks[j]? with _ | ch
    · rw [List.foldlM_cons, processChunk_none styles s st j hch]
      refine ih st hnd ?_
      rcases hex with ⟨i, hi, ch', hch', hov⟩
      rcases List.mem_cons.mp hi with rfl | hirest
      · rw [hch] at hch'
        cases hch'
      · exact ⟨i, hirest, ch', hch', hov⟩
    · by_cases hov : ch.cbegin < s.send ∧ s.sbegin < ch.cend
      · rw [List.foldlM_cons]
        have hstep : processChunk styles s st j = Except.error () := by
          rw [processChunk_overlap_step styles s st j ch hch hov]
          have hcond : st.newDepth = none ∧ s.mouseSelected = false ∧
              autoNestingOff styles s.style = false := by
            refine ⟨hnd, hm, ?_⟩
            unfold autoNestingOff
            rw [hsty]
          rw [if_pos hcond, computeDepthZ_missing styles ch.token_annotations s.style hsty]
          rfl
        rw [hstep]
        rfl
      · rw [List.foldlM_cons, processChunk_no_overlap styles s st j ch hch hov]
        refine ih st hnd ?_
        rcases hex with ⟨i, hi, ch', hch', hov'⟩
        rcases List.mem_cons.mp hi with rfl | hirest
        · rw [hch] at hch'
          have := Option.some.inj hch'
          subst this
          exact absurd hov' hov
        · exact ⟨i, hirest, ch', hch', hov'⟩

/-- Processing a non-mouse-selected span with a missing style throws when
the span overlaps at least one chunk. -/
theorem processSpan_err (styles : Styles) (st : LayoutState) (s : SpanData)
    (hm : s.mouseSelected = false) (hsty : lookupStyle styles s.style = none)
    (hex : ∃ ch ∈ st.chunks, ch.cbegin < s.send ∧ s.sbegin < ch.cend) :
    processSpan styles st s = Except.error () := by
  rcases hex with ⟨ch, hch, hov⟩
  have hfl : ∃ ch' ∈ (flushStep styles st s).chunks,
      ch'.cbegin < s.send ∧ s.sbegin < ch'.cend := by
    have hk := (flushStep_key styles st s).symm
    have hmem : (ch.cbegin, ch.cend, ch.tokens)
        ∈ (flushStep styles st s).chunks.map (fun c => (c.cbegin, c.cend, c.tokens)) := by
      rw [flushStep_key]
      exact List.mem_map_of_mem _ hch
    rcases List.mem_map.mp hmem with ⟨ch', hch', heq⟩
    simp only [Prod.ext_iff] at heq
    exact ⟨ch', hch', by rw [heq.1, heq.2.1]; exact hov⟩
  rcases hfl with ⟨ch', hch', hov'⟩
  rcases List.getElem?_of_mem hch' with ⟨i, hi⟩
  have hilen : i < (flushStep styles st s).chunks.length := by
    by_contra hge
    rw [List.getElem?_eq_none (Nat.le_of_not_lt hge)] at hi
    cases hi
  have herr := chunkLoop_err styles s hm hsty
    (List.range (flushStep styles st s).chunks.length)
    { chunks := (flushStep styles st s).chunks
      cluster := (flushStep styles st s).cluster
      uCD := (flushStep styles st s).uCD
      newDepth := none
      newZIndex := none } rfl ⟨i, List.mem_range.mpr hilen, ch', hi, hov'⟩
  unfold processSpan
  rw [herr]
  rfl

/-- The span walk throws when it contains a non-mouse-selected span with
a missing style overlapping at least one chunk. -/
theorem spanWalk_err (styles : Styles) :
    ∀ (spans : List SpanData) (st : LayoutState),
      (∃ s ∈ spans, s.mouseSelected = false ∧ lookupStyle styles s.style = none ∧
        ∃ ch ∈ st.chunks, ch.cbegin < s.send ∧ s.sbegin < ch.cend) →
      spans.foldlM (processSpan styles) st = Except.error () := by
  intro spans
  induction spans with
  | nil =>
    intro st hex
    rcases hex with ⟨s, hs, _⟩
    simp at hs
  | cons t rest ih =>
    intro st hex
    rcases hp : processSpan styles st t with e | st1
    · cases e
      rw [List.foldlM_cons, hp]
      rfl
    · rw [List.foldlM_cons, hp]
      show rest.foldlM (processSpan styles) st1 = Except.error ()
      rcases hex with ⟨s, hs, hm, hsty, hov⟩
      rcases List.mem_cons.mp hs with rfl | hsrest
      · exact absurd hp (by rw [processSpan_err styles st s hm hsty hov]; intro h; cases h)
      · refine ih st1 ⟨s, hsrest, hm, hsty, ?_⟩
        have hk := processSpan_shape styles st t st1 hp
        rcases hov with ⟨ch, hch, hovc⟩
        have hmem : (ch.cbegin, ch.cend, ch.tokens)
            ∈ st1.chunks.map (fun c => (c.cbegin, c.cend, c.tokens)) := by
          rw [hk]
          exact List.mem_map_of_mem _ hch
        rcases List.mem_map.mp hmem with ⟨ch', hch', heq⟩
        simp only [Prod.ext_iff] at heq
        exact ⟨ch', hch', by rw [heq.1, heq.2.1]; exact hovc⟩

/-- Sorting the spans and attaching text slices does not change the
boundary set. -/
theorem boundaryIndices_prepared (spans : List SpanData) (text : List Char) :
    boundaryIndices (preparedSpans spans text) text = boundaryIndices spans text := by
  haveI : IsTotal Nat (fun a b => a ≤ b) := ⟨Nat.le_total⟩
  haveI : IsTrans Nat (fun a b => a ≤ b) := ⟨fun a b c => Nat.le_trans⟩
  haveI : IsAntisymm Nat (fun a b => a ≤ b) := ⟨fun a b => Nat.le_antisymm⟩
  unfold boundaryIndices
  refine List.eq_of_perm_of_sorted ?_ (List.sorted_insertionSort _ _) (List.sorted_insertionSort _ _)
  refine (List.perm_insertionSort _ _).trans (List.Perm.trans ?_ (List.perm_insertionSort _ _).symm)
  refine (List.perm_ext_iff_of_nodup (List.nodup_dedup _) (List.nodup_dedup _)).mpr ?_
  intro x
  simp only [List.mem_dedup, List.mem_append, List.mem_flatMap]
  constructor
  · rintro (⟨s', hs', hx⟩ | hx)
    · unfold preparedSpans at hs'
      rcases List.mem_map.mp hs' with ⟨s, hs, rfl⟩
      exact Or.inl ⟨s, (List.perm_insertionSort _ _).mem_iff.mp hs, hx⟩
    · exact Or.inr hx
  · rintro (⟨s, hs, hx⟩ | hx)
    · refine Or.inl ⟨{ s with text := some (sliceChars text s.sbegin s.send) }, ?_, hx⟩
      unfold preparedSpans
      exact List.mem_map_of_mem _ ((List.perm_insertionSort _ _).mem_iff.mpr hs)
    · exact Or.inr hx

/-- `chunkText` is invariant under the orchestrator's sort-and-slice
preprocessing of the spans. -/
theorem chunkText_prepared (spans : List SpanData) (text : List Char) :
    chunkText (preparedSpans spans text) text = chunkText spans text := by
  unfold chunkText
  rw [boundaryIndices_prepared]

/-- Fresh chunks carry no annotations. -/
theorem chunkText_anns_nil (spans : List SpanData) (text : List Char) :
    ∀ ch ∈ chunkText spans text, ch.token_annotations = [] := by
  intro ch hch
  unfold chunkText at hch
  rcases List.mem_map.mp hch with ⟨p, _, rfl⟩
  rfl

/-- Membership in the prepared (sorted, text-attached) span list. -/
theorem mem_preparedSpans (spans : List SpanData) (text : List Char) (s' : SpanData) :
    s' ∈ preparedSpans spans text ↔
      ∃ s ∈ spans, s' = { s with text := some (sliceChars text s.sbegin s.send) } := by
  unfold preparedSpans
  constructor
  · intro h
    rcases List.mem_map.mp h with ⟨s, hs, rfl⟩
    exact ⟨s, (List.perm_insertionSort _ _).mem_iff.mp hs, rfl⟩
  · rintro ⟨s, hs, rfl⟩
    exact List.mem_map_of_mem _ ((List.perm_insertionSort _ _).mem_iff.mpr hs)

/-- Claim C7, amended: `tokenize` throws if and only if some
non-mouse-selected span references a style missing from the table AND
overlaps at least one chunk.  In particular mouse-selected spans with
unknown styles, and unknown-style spans overlapping no chunk, are
processed silently (no fail-fast), contrary to the original claim. -/
theorem spec_C7_amended (spans : List SpanData) (text : List Char) (styles : Styles) :
    tokenize spans text styles = Except.error () ↔
      ∃ s ∈ spans, s.mouseSelected = false ∧ lookupStyle styles s.style = none ∧
        ∃ ch ∈ chunkText spans text, ch.cbegin < s.send ∧ s.sbegin < ch.cend := by
  unfold tokenize
  rw [chunkText_prepared]
  constructor
  · -- error implies a bad overlapping span
    intro herr
    by_contra hno
    push_neg at hno
    have hgood : ∀ s' ∈ preparedSpans spans text,
        s'.mouseSelected = false → lookupStyle styles s'.style = none →
        ∀ ch ∈ chunkText spans text, ¬(ch.cbegin < s'.send ∧ s'.sbegin < ch.cend) := by
      intro s' hs' hm hsty ch hch hov
      rcases (mem_preparedSpans spans text s').mp hs' with ⟨s, hs, rfl⟩
      exact absurd hov.2 (Nat.not_lt.mpr (hno s hs hm hsty ch hch hov.1))
    rcases spanWalk_ok styles (preparedSpans spans text)
        { chunks := chunkText spans text, cluster := [], uCD := 0, rMO := 0 }
        (by
          intro ch hch a ha
          rw [chunkText_anns_nil spans text ch hch] at ha
          cases ha)
        hgood with ⟨st', hok⟩
    unfold styleTextChunks_ at herr
    rw [hok] at herr
    cases herr
  · rintro ⟨s, hs, hm, hsty, ch, hch, hov⟩
    have herr : (preparedSpans spans text).foldlM (processSpan styles)
        { chunks := chunkText spans text, cluster := [], uCD := 0, rMO := 0 }
          = Except.error () := by
      refine spanWalk_err styles (preparedSpans spans text) _
        ⟨{ s with text := some (sliceChars text s.sbegin s.send) },
          (mem_preparedSpans spans text _).mpr ⟨s, hs, rfl⟩, hm, hsty, ch, hch, hov⟩
    unfold styleTextChunks_
    rw [herr]
    rfl

/-- Both components of an adjacent pair are list members. -/
theorem adjPairs_mem : ∀ (l : List Nat) (a b : Nat), (a, b) ∈ adjPairs l → a ∈ l ∧ b ∈ l := by
  intro l
  match l with
  | [] => intro a b h; simp [adjPairs] at h
  | [x] => intro a b h; simp [adjPairs] at h
  | x :: y :: rest =>
    intro a b h
    simp only [adjPairs, List.mem_cons] at h
    rcases h with heq | hm
    · have h1 := (Prod.ext_iff.mp heq).1
      have h2 := (Prod.ext_iff.mp heq).2
      simp at h1 h2
      subst h1
      subst h2
      exact ⟨List.mem_cons_self _ _, List.mem_cons_of_mem _ (List.mem_cons_self _ _)⟩
    · have := adjPairs_mem (y :: rest) a b hm
      exact ⟨List.mem_cons_of_mem _ this.1, List.mem_cons_of_mem _ this.2⟩

/-- No member of a strictly ascending list lies strictly inside one of
its adjacent pairs. -/
theorem adjPairs_no_interior : ∀ (l : List Nat), List.Pairwise (fun x y => x < y) l →
    ∀ a b, (a, b) ∈ adjPairs l → ∀ p ∈ l, ¬(a < p ∧ p < b) := by
  intro l
  match l with
  | [] => intro _ a b h; simp [adjPairs] at h
  | [x] => intro _ a b h; simp [adjPairs] at h
  | x :: y :: rest =>
    intro hp a b h p hpl
    simp only [adjPairs, List.mem_cons] at h
    rcases h with heq | hm
    · have h1 := (Prod.ext_iff.mp heq).1
      have h2 := (Prod.ext_iff.mp heq).2
      simp at h1 h2
      subst h1
      subst h2
      rcases List.mem_cons.mp hpl with rfl | hpl'
      · omega
      · rcases List.mem_cons.mp hpl' with rfl | hpl''
        · omega
        · have : b < p := (List.pairwise_cons.mp (List.pairwise_cons.mp hp).2).1 p hpl''
          omega
    · rcases List.mem_cons.mp hpl with rfl | hpl'
      · have ha : a ∈ y :: rest := (adjPairs_mem (y :: rest) a b hm).1
        have : p < a := (List.pairwise_cons.mp hp).1 a ha
        omega
      · exact adjPairs_no_interior (y :: rest) (List.pairwise_cons.mp hp).2 a b hm p hpl'

/-- The boundary index list is strictly ascending. -/
theorem boundaryIndices_pairwise_lt (spans : List SpanData) (text : List Char) :
    List.Pairwise (fun x y => x < y) (boundaryIndices spans text) := by
  have hle := boundaryIndices_sorted spans text
  have hnd : (boundaryIndices spans text).Nodup := by
    unfold boundaryIndices
    exact (List.perm_insertionSort _ _).nodup_iff.mpr (List.nodup_dedup _)
  have := List.Pairwise.and hle hnd
  exact this.imp (fun h => Nat.lt_of_le_of_ne h.1 h.2)

/-- A zero-width span whose offset is a boundary overlaps no chunk. -/
theorem zero_width_no_overlap (spans : List SpanData) (text : List Char) (t : SpanData)
    (hmem : t.sbegin ∈ boundaryIndices spans text) (hzw : t.sbegin = t.send) :
    ∀ ch ∈ chunkText spans text, ¬(ch.cbegin < t.send ∧ t.sbegin < ch.cend) := by
  intro ch hch hov
  unfold chunkText at hch
  rcases List.mem_map.mp hch with ⟨p, hp, rfl⟩
  simp only at hov
  have hpair : (p.1, p.2) ∈ adjPairs (boundaryIndices spans text) := by
    simpa using hp
  exact adjPairs_no_interior (boundaryIndices spans text)
    (boundaryIndices_pairwise_lt spans text) p.1 p.2 hpair t.sbegin hmem
    ⟨by omega, hov.2⟩

/-- Provenance of annotations through a cluster flush. -/
theorem reverse_mem_anns (styles : Styles) (uCD : Int) (cluster : List Nat)
    (chunks : List TextChunk) :
    ∀ ch' ∈ reverseUnderlineClusterDepths styles uCD cluster chunks,
      ∀ a' ∈ ch'.token_annotations,
        ∃ ch ∈ chunks, ∃ a ∈ ch.token_annotations,
          a' = a ∨ a' = revAnn styles uCD a := by
  intro ch' hch' a' ha'
  rcases List.getElem?_of_mem hch' with ⟨i, hi⟩
  rw [reverse_chunks_getElem] at hi
  rcases hco : chunks[i]? with _ | ch0
  · rw [hco] at hi
    cases hi
  · rw [hco] at hi
    have hch0 : ch0 ∈ chunks := List.getElem?_mem hco
    simp only [Option.map_some'] at hi
    by_cases hmem : i ∈ cluster
    · rw [if_pos hmem] at hi
      have hi' := Option.some.inj hi
      subst hi'
      simp only [List.mem_map] at ha'
      rcases ha' with ⟨a0, ha0, rfl⟩
      exact ⟨ch0, hch0, a0, ha0, Or.inr rfl⟩
    · rw [if_neg hmem] at hi
      have hi' := Option.some.inj hi
      subst hi'
      exact ⟨ch0, hch0, a', ha', Or.inl rfl⟩

/-- An annotation predicate holding for every annotation the span could
create is preserved by the chunk loop. -/
theorem chunkLoop_pres_of_newid (styles : Styles) (s : SpanData) (P : TokenAnn → Prop)
    (hnew : ∀ dz : Option Int × Option Int, ∀ ch : TextChunk, P
      { depth := dz.1
        openleft := ch.cbegin != s.sbegin
        openright := ch.cend != s.send
        label := s.label
        isFirstTokenOfSpan := ch.cbegin == s.sbegin
        style := s.style
        zIndex := dz.2
        id := s.id
        selected := s.selected
        highlighted := s.highlighted
        mouseSelected := s.mouseSelected
        atext := s.text }) :
    ∀ (l : List Nat) (st st' : SpanLoopState),
      l.foldlM (processChunk styles s) st = Except.ok st' →
      (∀ ch ∈ st.chunks, ∀ a ∈ ch.token_annotations, P a) →
      ∀ ch ∈ st'.chunks, ∀ a ∈ ch.token_annotations, P a := by
  intro l
  induction l with
  | nil =>
    intro st st' h hinv
    cases h
    exact hinv
  | cons i rest ih =>
    intro st st' h hinv
    rw [List.foldlM_cons] at h
    rcases hp : processChunk styles s st i with e | st1
    · rw [hp] at h
      cases h
    · rw [hp] at h
      refine ih st1 st' h ?_
      rcases hch : st.chunks[i]? with _ | ch
      · rw [processChunk_none styles s st i hch] at hp
        cases hp
        exact hinv
      · by_cases hov : ch.cbegin < s.send ∧ s.sbegin < ch.cend
        · rw [processChunk_overlap_step styles s st i ch hch hov] at hp
          rcases hx : (if st.newDepth = none ∧ s.mouseSelected = false ∧
              autoNestingOff styles s.style = false
            then computeDepthZ styles ch.token_annotations s.style
            else Except.ok (st.newDepth, st.newZIndex)) with e | dz
          · rw [hx] at hp
            cases hp
          · rw [hx] at hp
            have hst1 := (Except.ok.inj hp).symm
            subst hst1
            intro c hc a ha
            rcases List.mem_or_eq_of_mem_set hc with hcm | hceq
            · exact hinv c hcm a ha
            · subst hceq
              simp only at ha
              rcases List.mem_cons.mp ha with haeq | ham
              · subst haeq
                exact hnew dz ch
              · exact hinv ch (List.getElem?_mem hch) a ham
        · rw [processChunk_no_overlap styles s st i ch hch hov] at hp
          cases hp
          exact hinv

/-- The chunk loop is the identity when the span overlaps no chunk. -/
theorem chunkLoop_noop (styles : Styles) (s : SpanData) :
    ∀ (l : List Nat) (st : SpanLoopState),
      (∀ ch ∈ st.chunks, ¬(ch.cbegin < s.send ∧ s.sbegin < ch.cend)) →
      l.foldlM (processChunk styles s) st = Except.ok st := by
  intro l
  induction l with
  | nil =>
    intro st _
    rfl
  | cons i rest ih =>
    intro st hno
    rw [List.foldlM_cons]
    rcases hch : st.chunks[i]? with _ | ch
    · rw [processChunk_none styles s st i hch]
      exact ih st hno
    · rw [processChunk_no_overlap styles s st i ch hch (hno ch (List.getElem?_mem hch))]
      exact ih st hno

/-- An annotation predicate stable under the flush rewrite, and holding
for every annotation the span could create (or vacuously when the span
overlaps nothing), is preserved by `processSpan`. -/
theorem processSpan_pres (styles : Styles) (st : LayoutState) (s : SpanData)
    (st' : LayoutState) (P : TokenAnn → Prop)
    (h : processSpan styles st s = Except.ok st')
    (hrev : ∀ (u : Int) (a : TokenAnn), P a → P (revAnn styles u a))
    (hnew : (∀ dz : Option Int × Option Int, ∀ ch : TextChunk, P
      { depth := dz.1
        openleft := ch.cbegin != s.sbegin
        openright := ch.cend != s.send
        label := s.label
        isFirstTokenOfSpan := ch.cbegin == s.sbegin
        style := s.style
        zIndex := dz.2
        id := s.id
        selected := s.selected
        highlighted := s.highlighted
        mouseSelected := s.mouseSelected
        atext := s.text }) ∨ (∀ ch ∈ st.chunks, ¬(ch.cbegin < s.send ∧ s.sbegin < ch.cend)))
    (hinv : ∀ ch ∈ st.chunks, ∀ a ∈ ch.token_annotations, P a) :
    ∀ ch ∈ st'.chunks, ∀ a ∈ ch.token_annotations, P a := by
  have hfinv : ∀ ch ∈ (flushStep styles st s).chunks, ∀ a ∈ ch.token_annotations, P a := by
    unfold flushStep
    split_ifs with h1 h2
    · intro ch' hch' a' ha'
      rcases reverse_mem_anns styles st.uCD st.cluster st.chunks ch' hch' a' ha'
        with ⟨ch, hch, a, ha, heq | heq⟩
      · rw [heq]
        exact hinv ch hch a ha
      · rw [heq]
        exact hrev st.uCD a (hinv ch hch a ha)
    · exact hinv
    · exact hinv
  unfold processSpan at h
  rcases hf : (List.range (flushStep styles st s).chunks.length).foldlM (processChunk styles s)
      { chunks := (flushStep styles st s).chunks
        cluster := (flushStep styles st s).cluster
        uCD := (flushStep styles st s).uCD
        newDepth := none
        newZIndex := none } with e | ls
  · rw [hf] at h
    cases h
  · rw [hf] at h
    have hst' := (Except.ok.inj h).symm
    subst hst'
    rcases hnew with hnew | hno
    · exact chunkLoop_pres_of_newid styles s P hnew _ _ _ hf hfinv
    · have hno' : ∀ ch ∈ (flushStep styles st s).chunks,
          ¬(ch.cbegin < s.send ∧ s.sbegin < ch.cend) :=
        overlap_transfer s _ _ (flushStep_key styles st s) hno
      rw [chunkLoop_noop styles s _ _ hno'] at hf
      have := (Except.ok.inj hf).symm
      subst this
      exact hfinv

/-- No annotation with the given id ever appears when every span carrying
that id overlaps no chunk. -/
theorem spanWalk_pres_noid (styles : Styles) (sid : Option String) :
    ∀ (spans : List SpanData) (st st' : LayoutState),
      spans.foldlM (processSpan styles) st = Except.ok st' →
      (∀ t ∈ spans, t.id = sid →
        ∀ ch ∈ st.chunks, ¬(ch.cbegin < t.send ∧ t.sbegin < ch.cend)) →
      (∀ ch ∈ st.chunks, ∀ a ∈ ch.token_annotations, a.id ≠ sid) →
      ∀ ch ∈ st'.chunks, ∀ a ∈ ch.token_annotations, a.id ≠ sid := by
  intro spans
  induction spans with
  | nil =>
    intro st st' h _ hinv
    cases h
    exact hinv
  | cons t rest ih =>
    intro st st' h hzw hinv
    rw [List.foldlM_cons] at h
    rcases hp : processSpan styles st t with e | st1
    · rw [hp] at h
      cases h
    · rw [hp] at h
      have hinv1 : ∀ ch ∈ st1.chunks, ∀ a ∈ ch.token_annotations, a.id ≠ sid := by
        refine processSpan_pres styles st t st1 (fun a => a.id ≠ sid) hp ?_ ?_ hinv
        · intro u a haP
          have := (revAnn_fields styles u a).2.2.2
          rw [this]
          exact haP
        · by_cases hid : t.id = sid
          · exact Or.inr (hzw t (List.mem_cons_self _ _) hid)
          · exact Or.inl (fun dz ch => hid)
      have hkey := processSpan_shape styles st t st1 hp
      refine ih st1 st' h ?_ hinv1
      intro u hu hid
      exact overlap_transfer u _ _ hkey (hzw u (List.mem_cons_of_mem _ hu) hid)

/-- The line splitter only creates `TokenData` carrying the current
chunk's annotation list. -/
theorem lineStep_fold_pres (Q : TokenData → Prop) (cb : Nat) (anns : List TokenAnn) (n : Nat)
    (hq : ∀ td : TokenData, td.token_annotations = anns → Q td) :
    ∀ (toks : List (Nat × List Char)) (cl : List TokenData) (al : List (List TokenData)) (o : Nat),
      (∀ td ∈ cl, Q td) → (∀ line ∈ al, ∀ td ∈ line, Q td) →
      (∀ td ∈ (toks.foldl (lineStep cb anns n) (cl, al, o)).1, Q td) ∧
      (∀ line ∈ (toks.foldl (lineStep cb anns n) (cl, al, o)).2.1, ∀ td ∈ line, Q td) := by
  intro toks
  induction toks with
  | nil =>
    intro cl al o hcl hal
    exact ⟨hcl, hal⟩
  | cons p rest ih =>
    intro cl al o hcl hal
    simp only [List.foldl_cons]
    by_cases hp : p.2 = ['\n']
    · have hstep : lineStep cb anns n (cl, al, o) p = ([], al ++ [cl], o + p.2.length) := by
        simp [lineStep, hp]
      rw [hstep]
      refine ih [] (al ++ [cl]) (o + p.2.length) (by simp) ?_
      intro line hline
      rcases List.mem_append.mp hline with hl | hl
      · exact hal line hl
      · simp at hl
        subst hl
        exact hcl
    · have hstep : lineStep cb anns n (cl, al, o)
          p = (cl ++ [{ text := p.2
                        key := toString (cb + o) ++ "-" ++ toString (cb + o + p.2.length)
                        tbegin := cb + o
                        tend := cb + o + p.2.length
                        token_annotations := anns
                        isFirstTokenOfChunk := p.1 == 0
                        isLastTokenOfChunk := p.1 == n - 1 }], al, o + p.2.length) := by
        simp [lineStep, hp]
      rw [hstep]
      refine ih _ al (o + p.2.length) ?_ hal
      intro td htd
      rcases List.mem_append.mp htd with hl | hl
      · exact hcl td hl
      · simp at hl
        subst hl
        exact hq _ rfl

/-- Every `TokenData`'s annotation list is shared from one of the input
chunks. -/
theorem tokenizeTextChunks_anns (CH : List TextChunk) :
    ∀ line ∈ tokenizeTextChunks CH, ∀ td ∈ line,
      ∃ ch ∈ CH, td.token_annotations = ch.token_annotations := by
  have main : ∀ (l : List TextChunk), (∀ ch ∈ l, ch ∈ CH) →
      ∀ (cl : List TokenData) (al : List (List TokenData)),
      (∀ td ∈ cl, ∃ ch ∈ CH, td.token_annotations = ch.token_annotations) →
      (∀ line ∈ al, ∀ td ∈ line, ∃ ch ∈ CH, td.token_annotations = ch.token_annotations) →
      (∀ td ∈ (l.foldl (fun (acc : List TokenData × List (List TokenData)) ch =>
          let r := ch.tokens.enum.foldl
            (lineStep ch.cbegin ch.token_annotations ch.tokens.length) (acc.1, acc.2, 0)
          (r.1, r.2.1)) (cl, al)).1,
        ∃ ch ∈ CH, td.token_annotations = ch.token_annotations) ∧
      (∀ line ∈ (l.foldl (fun (acc : List TokenData × List (List TokenData)) ch =>
          let r := ch.tokens.enum.foldl
            (lineStep ch.cbegin ch.token_annotations ch.tokens.length) (acc.1, acc.2, 0)
          (r.1, r.2.1)) (cl, al)).2, ∀ td ∈ line,
        ∃ ch ∈ CH, td.token_annotations = ch.token_annotations) := by
    intro l
    induction l with
    | nil =>
      intro _ cl al hcl hal
      exact ⟨hcl, hal⟩
    | cons c rest ih =>
      intro hmem cl al hcl hal
      simp only [List.foldl_cons]
      have hc : c ∈ CH := hmem c (List.mem_cons_self _ _)
      have hstep := lineStep_fold_pres
        (fun td => ∃ ch ∈ CH, td.token_annotations = ch.token_annotations)
        c.cbegin c.token_annotations c.tokens.length
        (fun td htd => ⟨c, hc, htd⟩) c.tokens.enum cl al 0 hcl hal
      exact ih (fun ch hch => hmem ch (List.mem_cons_of_mem _ hch)) _ _ hstep.1 hstep.2
  intro line hline td htd
  unfold tokenizeTextChunks at hline
  simp only [gt_iff_lt] at hline
  have hm := main CH (fun ch hch => hch) [] [] (by simp) (by simp)
  split_ifs at hline with hcond
  · rcases List.mem_append.mp hline with hl | hl
    · exact hm.2 line hl td htd
    · simp at hl
      subst hl
      exact hm.1 td htd
  · exact hm.2 line hline td htd

/-- The full layout pass creates no annotation with an id whose spans all
overlap nothing. -/
theorem styleTextChunks_pres_noid (tc : List TextChunk) (spans : List SpanData)
    (styles : Styles) (out : List TextChunk) (sid : Option String)
    (h : styleTextChunks_ tc spans styles = Except.ok out)
    (hspans : ∀ t ∈ spans, t.id = sid → ∀ ch ∈ tc, ¬(ch.cbegin < t.send ∧ t.sbegin < ch.cend))
    (hinv : ∀ ch ∈ tc, ∀ a ∈ ch.token_annotations, a.id ≠ sid) :
    ∀ ch ∈ out, ∀ a ∈ ch.token_annotations, a.id ≠ sid := by
  unfold styleTextChunks_ at h
  rcases hf : spans.foldlM (processSpan styles)
      { chunks := tc, cluster := [], uCD := 0, rMO := 0 } with e | st
  · rw [hf] at h
    cases h
  · rw [hf] at h
    have := (Except.ok.inj h).symm
    subst this
    have hstinv := spanWalk_pres_noid styles sid spans _ st hf hspans hinv
    intro ch' hch' a' ha'
    rcases reverse_mem_anns styles st.uCD st.cluster st.chunks ch' hch' a' ha'
      with ⟨ch, hch, a, ha, heq | heq⟩
    · rw [heq]
      exact hstinv ch hch a ha
    · rw [heq]
      have := (revAnn_fields styles st.uCD a).2.2.2
      rw [this]
      exact hstinv ch hch a ha

/-- Claim C10: a zero-width in-range span never causes `tokenize` to
fail, receives no `TokenAnnotation` on any chunk (its `begin = end`
offset is a deduplicated boundary, so no chunk satisfies the strict
overlap test), and its id still appears in the returned `ids` at its
sorted position.  The style-resolution hypothesis makes the call as a
whole succeed; spans sharing the id are required to be zero-width too so
that the id pins down this span's annotations. -/
theorem spec_C10 (spans : List SpanData) (text : List Char) (styles : Styles) (s : SpanData)
    (hs : s ∈ spans) (_hzw : s.sbegin = s.send) (_hrange : s.send ≤ text.length)
    (hpres : ∀ t ∈ spans, t.mouseSelected = false → lookupStyle styles t.style ≠ none)
    (hid : ∀ t ∈ spans, t.id = s.id → t.sbegin = t.send) :
    ∃ r, tokenize spans text styles = Except.ok r ∧
      (∀ line ∈ r.lines, ∀ td ∈ line, ∀ a ∈ td.token_annotations, a.id ≠ s.id) ∧
      r.ids = (sortSpans spans).map (·.id) ∧ s.id ∈ r.ids := by
  have hinv0 : ∀ ch ∈ chunkText spans text, ∀ a ∈ ch.token_annotations, a.id ≠ s.id := by
    intro ch hch a ha
    rw [chunkText_anns_nil spans text ch hch] at ha
    cases ha
  have hgood : ∀ t' ∈ preparedSpans spans text, t'.mouseSelected = false →
      lookupStyle styles t'.style = none →
      ∀ ch ∈ chunkText spans text, ¬(ch.cbegin < t'.send ∧ t'.sbegin < ch.cend) := by
    intro t' ht' hm hsty
    rcases (mem_preparedSpans spans text t').mp ht' with ⟨t, ht, rfl⟩
    exact absurd hsty (hpres t ht hm)
  rcases spanWalk_ok styles (preparedSpans spans text)
      { chunks := chunkText spans text, cluster := [], uCD := 0, rMO := 0 }
      (by
        intro ch hch a ha
        rw [chunkText_anns_nil spans text ch hch] at ha
        cases ha)
      hgood with ⟨st', hok⟩
  have hstyled : styleTextChunks_ (chunkText spans text) (preparedSpans spans text) styles
      = Except.ok (reverseUnderlineClusterDepths styles st'.uCD st'.cluster st'.chunks) := by
    unfold styleTextChunks_
    rw [hok]
    rfl
  have hzwall : ∀ t' ∈ preparedSpans spans text, t'.id = s.id →
      ∀ ch ∈ chunkText spans text, ¬(ch.cbegin < t'.send ∧ t'.sbegin < ch.cend) := by
    intro t' ht' hidt
    rcases (mem_preparedSpans spans text t').mp ht' with ⟨t, ht, rfl⟩
    have hzwt : t.sbegin = t.send := hid t ht hidt
    have hbd : t.sbegin ∈ boundaryIndices spans text := by
      rw [mem_boundaryIndices_iff]
      refine List.mem_append.mpr (Or.inl ?_)
      exact List.mem_flatMap.mpr ⟨t, ht, by simp⟩
    exact zero_width_no_overlap spans text t hbd hzwt
  have hnoid := styleTextChunks_pres_noid (chunkText spans text) (preparedSpans spans text)
    styles _ s.id hstyled hzwall hinv0
  refine ⟨{ lines := tokenizeTextChunks
              (reverseUnderlineClusterDepths styles st'.uCD st'.cluster st'.chunks)
            ids := (preparedSpans spans text).map (·.id) }, ?_, ?_, ?_, ?_⟩
  · unfold tokenize
    rw [chunkText_prepared, hstyled]
    rfl
  · intro line hline td htd a ha
    rcases tokenizeTextChunks_anns _ line hline td htd with ⟨ch, hch, heq⟩
    rw [heq] at ha
    exact hnoid ch hch a ha
  · show (preparedSpans spans text).map (·.id) = (sortSpans spans).map (·.id)
    unfold preparedSpans
    rw [List.map_map]
    rfl
  · show s.id ∈ (preparedSpans spans text).map (·.id)
    have hmem : ({ s with text := some (sliceChars text s.sbegin s.send) } : SpanData)
        ∈ preparedSpans spans text :=
      (mem_preparedSpans spans text _).mpr ⟨s, hs, rfl⟩
    exact List.mem_map.mpr ⟨_, hmem, rfl⟩

/-- Witness for claim C10: a zero-width span at offset 2 of `"ab"`
alongside a regular box span. -/
theorem spec_C10_witness :
    ((mkSp 2 2 "b" false "Z") ∈ [mkSp 2 2 "b" false "Z", mkSp 0 2 "b" false "A"] ∧
     (mkSp 2 2 "b" false "Z").sbegin = (mkSp 2 2 "b" false "Z").send ∧
     (mkSp 2 2 "b" false "Z").send ≤ "ab".toList.length ∧
     (∀ t ∈ [mkSp 2 2 "b" false "Z", mkSp 0 2 "b" false "A"],
       t.mouseSelected = false → lookupStyle exStyles t.style ≠ none) ∧
     (∀ t ∈ [mkSp 2 2 "b" false "Z", mkSp 0 2 "b" false "A"],
       t.id = (mkSp 2 2 "b" false "Z").id → t.sbegin = t.send)) ∧
    (∃ r, tokenize [mkSp 2 2 "b" false "Z", mkSp 0 2 "b" false "A"] "ab".toList exStyles
        = Except.ok r ∧
      (∀ line ∈ r.lines, ∀ td ∈ line, ∀ a ∈ td.token_annotations,
        a.id ≠ (mkSp 2 2 "b" false "Z").id) ∧
      r.ids = (sortSpans [mkSp 2 2 "b" false "Z", mkSp 0 2 "b" false "A"]).map (·.id) ∧
      (mkSp 2 2 "b" false "Z").id ∈ r.ids) :=
  ⟨⟨by decide, by decide, by decide, by decide, by decide⟩,
   spec_C10 _ _ _ _ (by decide) (by decide) (by decide) (by decide) (by decide)⟩

/-- For a mouse-selected or opted-out span the chunk loop never computes
a depth: `newDepth`/`newZIndex` stay `null` and every annotation it
creates carries `null` for both. -/
theorem chunkLoop_opted_pres (styles : Styles) (s : SpanData)
    (hopt : s.mouseSelected = true ∨ autoNestingOff styles s.style = true)
    (P : TokenAnn → Prop)
    (hnew : ∀ ch : TextChunk, P
      { depth := none
        openleft := ch.cbegin != s.sbegin
        openright := ch.cend != s.send
        label := s.label
        isFirstTokenOfSpan := ch.cbegin == s.sbegin
        style := s.style
        zIndex := none
        id := s.id
        selected := s.selected
        highlighted := s.highlighted
        mouseSelected := s.mouseSelected
        atext := s.text }) :
    ∀ (l : List Nat) (st st' : SpanLoopState),
      l.foldlM (processChunk styles s) st = Except.ok st' →
      st.newDepth = none → st.newZIndex = none →
      (∀ ch ∈ st.chunks, ∀ a ∈ ch.token_annotations, P a) →
      ∀ ch ∈ st'.chunks, ∀ a ∈ ch.token_annotations, P a := by
  intro l
  induction l with
  | nil =>
    intro st st' h _ _ hinv
    cases h
    exact hinv
  | cons i rest ih =>
    intro st st' h hnd hnz hinv
    rw [List.foldlM_cons] at h
    rcases hch : st.chunks[i]? with _ | ch
    · rw [processChunk_none styles s st i hch] at h
      exact ih st st' h hnd hnz hinv
    · by_cases hov : ch.cbegin < s.send ∧ s.sbegin < ch.cend
      · rw [processChunk_overlap_step styles s st i ch hch hov] at h
        have hcond : ¬(st.newDepth = none ∧ s.mouseSelected = false ∧
            autoNestingOff styles s.style = false) := by
          rcases hopt with hm | ha
          · intro hc
            rw [hm] at hc
            cases hc.2.1
          · intro hc
            rw [ha] at hc
            cases hc.2.2
        rw [if_neg hcond] at h
        simp only [Except.bind] at h
        refine ih _ st' h (by simp [hnd]) (by simp [hnz]) ?_
        intro c hc a ha
        rcases List.mem_or_eq_of_mem_set hc with hcm | hceq
        · exact hinv c hcm a ha
        · subst hceq
          simp only at ha
          rcases List.mem_cons.mp ha with haeq | ham
          · subst haeq
            have := hnew ch
            simpa [hnd, hnz] using this
          · exact hinv ch (List.getElem?_mem hch) a ham
      · rw [processChunk_no_overlap styles s st i ch hch hov] at h
        exact ih st st' h hnd hnz hinv

/-- `processSpan` preserves an annotation predicate that is stable under
the flush rewrite and holds for the `null`-depth annotations an opted-out
span creates. -/
theorem processSpan_opted_pres (styles : Styles) (st : LayoutState) (s : SpanData)
    (st' : LayoutState) (P : TokenAnn → Prop)
    (h : processSpan styles st s = Except.ok st')
    (hopt : s.mouseSelected = true ∨ autoNestingOff styles s.style = true)
    (hrev : ∀ (u : Int) (a : TokenAnn), P a → P (revAnn styles u a))
    (hnew : ∀ ch : TextChunk, P
      { depth := none
        openleft := ch.cbegin != s.sbegin
        openright := ch.cend != s.send
        label := s.label
        isFirstTokenOfSpan := ch.cbegin == s.sbegin
        style := s.style
        zIndex := none
        id := s.id
        selected := s.selected
        highlighted := s.highlighted
        mouseSelected := s.mouseSelected
        atext := s.text })
    (hinv : ∀ ch ∈ st.chunks, ∀ a ∈ ch.token_annotations, P a) :
    ∀ ch ∈ st'.chunks, ∀ a ∈ ch.token_annotations, P a := by
  have hfinv : ∀ ch ∈ (flushStep styles st s).chunks, ∀ a ∈ ch.token_annotations, P a := by
    unfold flushStep
    split_ifs with h1 h2
    · intro ch' hch' a' ha'
      rcases reverse_mem_anns styles st.uCD st.cluster st.chunks ch' hch' a' ha'
        with ⟨ch, hch, a, ha, heq | heq⟩
      · rw [heq]
        exact hinv ch hch a ha
      · rw [heq]
        exact hrev st.uCD a (hinv ch hch a ha)
    · exact hinv
    · exact hinv
  unfold processSpan at h
  rcases hf : (List.range (flushStep styles st s).chunks.length).foldlM (processChunk styles s)
      { chunks := (flushStep styles st s).chunks
        cluster := (flushStep styles st s).cluster
        uCD := (flushStep styles st s).uCD
        newDepth := none
        newZIndex := none } with e | ls
  · rw [hf] at h
    cases h
  · rw [hf] at h
    have hst' := (Except.ok.inj h).symm
    subst hst'
    exact chunkLoop_opted_pres styles s hopt P hnew _ _ _ hf rfl rfl hfinv

/-- Through the span walk, every annotation whose id belongs only to
mouse-selected or opted-out spans keeps `zIndex = null`, and keeps
`depth = null` unless its style is underline-shaped. -/
theorem spanWalk_optedId_pres (styles : Styles) (sid : Option String) :
    ∀ (spans : List SpanData) (st st' : LayoutState),
      spans.foldlM (processSpan styles) st = Except.ok st' →
      (∀ t ∈ spans, t.id = sid →
        (t.mouseSelected = true ∨ autoNestingOff styles t.style = true)) →
      (∀ ch ∈ st.chunks, ∀ a ∈ ch.token_annotations, a.id = sid →
        a.zIndex = none ∧ (shapeOf styles a.style ≠ some "underline" → a.depth = none)) →
      ∀ ch ∈ st'.chunks, ∀ a ∈ ch.token_annotations, a.id = sid →
        a.zIndex = none ∧ (shapeOf styles a.style ≠ some "underline" → a.depth = none) := by
  intro spans
  induction spans with
  | nil =>
    intro st st' h _ hinv
    cases h
    exact hinv
  | cons t rest ih =>
    intro st st' h hall hinv
    rw [List.foldlM_cons] at h
    rcases hp : processSpan styles st t with e | st1
    · rw [hp] at h
      cases h
    · rw [hp] at h
      have hrev : ∀ (u : Int) (a : TokenAnn),
          (a.id = sid → a.zIndex = none ∧
            (shapeOf styles a.style ≠ some "underline" → a.depth = none)) →
          ((revAnn styles u a).id = sid → (revAnn styles u a).zIndex = none ∧
            (shapeOf styles (revAnn styles u a).style ≠ some "underline" →
              (revAnn styles u a).depth = none)) := by
        intro u a hP hid
        have hf := revAnn_fields styles u a
        rw [hf.2.2.2] at hid
        have hPa := hP hid
        refine ⟨by rw [hf.2.2.1]; exact hPa.1, ?_⟩
        intro hsh
        rw [hf.1] at hsh
        unfold revAnn
        rw [if_neg hsh]
        exact hPa.2 hsh
      have hinv1 : ∀ ch ∈ st1.chunks, ∀ a ∈ ch.token_annotations, a.id = sid →
          a.zIndex = none ∧ (shapeOf styles a.style ≠ some "underline" → a.depth = none) := by
        by_cases hid : t.id = sid
        · refine processSpan_opted_pres styles st t st1 _ hp
            (hall t (List.mem_cons_self _ _) hid) hrev ?_ hinv
          intro ch _
          exact ⟨rfl, fun _ => rfl⟩
        · refine processSpan_pres styles st t st1 _ hp hrev (Or.inl ?_) hinv
          intro dz ch hid'
          exact absurd hid' hid
      exact ih st1 st' h (fun u hu => hall u (List.mem_cons_of_mem _ hu)) hinv1

/-- The full layout pass (final flush included) keeps `zIndex = null`
and non-underline `depth = null` for annotations of opted-out ids. -/
theorem styleTextChunks_optedId (tc : List TextChunk) (spans : List SpanData)
    (styles : Styles) (out : List TextChunk) (sid : Option String)
    (h : styleTextChunks_ tc spans styles = Except.ok out)
    (hall : ∀ t ∈ spans, t.id = sid →
      (t.mouseSelected = true ∨ autoNestingOff styles t.style = true))
    (hinv : ∀ ch ∈ tc, ∀ a ∈ ch.token_annotations, a.id = sid →
      a.zIndex = none ∧ (shapeOf styles a.style ≠ some "underline" → a.depth = none)) :
    ∀ ch ∈ out, ∀ a ∈ ch.token_annotations, a.id = sid →
      a.zIndex = none ∧ (shapeOf styles a.style ≠ some "underline" → a.depth = none) := by
  unfold styleTextChunks_ at h
  rcases hf : spans.foldlM (processSpan styles)
      { chunks := tc, cluster := [], uCD := 0, rMO := 0 } with e | st
  · rw [hf] at h
    cases h
  · rw [hf] at h
    have := (Except.ok.inj h).symm
    subst this
    have hstinv := spanWalk_optedId_pres styles sid spans _ st hf hall hinv
    intro ch' hch' a' ha' hid
    rcases reverse_mem_anns styles st.uCD st.cluster st.chunks ch' hch' a' ha'
      with ⟨ch, hch, a, ha, heq | heq⟩
    · rw [heq] at hid ⊢
      exact hstinv ch hch a ha hid
    · have hfς := revAnn_fields styles st.uCD a
      rw [heq, hfς.2.2.2] at hid
      have hPa := hstinv ch hch a ha hid
      rw [heq]
      refine ⟨by rw [hfς.2.2.1]; exact hPa.1, ?_⟩
      intro hsh
      rw [hfς.1] at hsh
      unfold revAnn
      rw [if_neg hsh]
      exact hPa.2 hsh

/-- Claim C2, amended: for every span that is mouse-selected or has
`autoNestingLayout: false` (and whose id is carried only by such spans),
every returned annotation with that id has `zIndex = null`, and
`depth = null` UNLESS its style is underline-shaped — underline-shaped
opted-out annotations get a numeric depth from the cluster reversal's
null-to-0 coercion (see the counterexample). -/
theorem spec_C2_amended (spans : List SpanData) (text : List Char) (styles : Styles)
    (s : SpanData) (_hs : s ∈ spans)
    (_hopt : s.mouseSelected = true ∨ autoNestingOff styles s.style = true)
    (hall : ∀ t ∈ spans, t.id = s.id →
      (t.mouseSelected = true ∨ autoNestingOff styles t.style = true)) :
    ∀ line ∈ resLines (tokenize spans text styles), ∀ td ∈ line,
      ∀ a ∈ td.token_annotations, a.id = s.id →
        a.zIndex = none ∧ (shapeOf styles a.style ≠ some "underline" → a.depth = none) := by
  rcases hsty : styleTextChunks_ (chunkText (preparedSpans spans text) text)
      (preparedSpans spans text) styles with e | out
  · have : tokenize spans text styles = Except.error e := by
      unfold tokenize
      rw [hsty]
      rfl
    intro line hline
    unfold resLines at hline
    rw [this] at hline
    cases hline
  · have hr : tokenize spans text styles = Except.ok
        { lines := tokenizeTextChunks out
          ids := (preparedSpans spans text).map (·.id) } := by
      unfold tokenize
      rw [hsty]
      rfl
    have hinv0 : ∀ ch ∈ chunkText (preparedSpans spans text) text,
        ∀ a ∈ ch.token_annotations, a.id = s.id →
        a.zIndex = none ∧ (shapeOf styles a.style ≠ some "underline" → a.depth = none) := by
      intro ch hch a ha
      rw [chunkText_anns_nil _ text ch hch] at ha
      cases ha
    have hall' : ∀ t ∈ preparedSpans spans text, t.id = s.id →
        (t.mouseSelected = true ∨ autoNestingOff styles t.style = true) := by
      intro t' ht' hid
      rcases (mem_preparedSpans spans text t').mp ht' with ⟨t, ht, rfl⟩
      exact hall t ht hid
    have hout := styleTextChunks_optedId _ _ styles out s.id hsty hall' hinv0
    intro line hline td htd a ha hid
    unfold resLines at hline
    rw [hr] at hline
    rcases tokenizeTextChunks_anns out line hline td htd with ⟨ch, hch, heq⟩
    rw [heq] at ha
    exact hout ch hch a ha hid

/-- Witness for the amended claim C2 on a mouse-selected underline
span. -/
theorem spec_C2_amended_witness :
    ((mkSp 0 2 "u" true "M") ∈ [mkSp 0 2 "u" true "M"] ∧
     ((mkSp 0 2 "u" true "M").mouseSelected = true ∨
       autoNestingOff exStyles (mkSp 0 2 "u" true "M").style = true) ∧
     (∀ t ∈ [mkSp 0 2 "u" true "M"], t.id = (mkSp 0 2 "u" true "M").id →
       (t.mouseSelected = true ∨ autoNestingOff exStyles t.style = true))) ∧
    (∀ line ∈ resLines (tokenize [mkSp 0 2 "u" true "M"] "ab".toList exStyles), ∀ td ∈ line,
      ∀ a ∈ td.token_annotations, a.id = (mkSp 0 2 "u" true "M").id →
        a.zIndex = none ∧ (shapeOf exStyles a.style ≠ some "underline" → a.depth = none)) :=
  ⟨⟨by decide, by decide, by decide⟩,
   spec_C2_amended _ _ _ _ (by decide) (by decide) (by decide)⟩

/-- `underlineClusterDepth` never decreases during the chunk loop. -/
theorem chunkLoop_uCD_mono (styles : Styles) (s : SpanData) :
    ∀ (l : List Nat) (st st' : SpanLoopState),
      l.foldlM (processChunk styles s) st = Except.ok st' → st.uCD ≤ st'.uCD := by
  intro l
  induction l with
  | nil =>
    intro st st' h
    cases h
    exact le_refl _
  | cons i rest ih =>
    intro st st' h
    rw [List.foldlM_cons] at h
    rcases hch : st.chunks[i]? with _ | ch
    · rw [processChunk_none styles s st i hch] at h
      exact ih st st' h
    · by_cases hov : ch.cbegin < s.send ∧ s.sbegin < ch.cend
      · rw [processChunk_overlap_step styles s st i ch hch hov] at h
        rcases hx : (if st.newDepth = none ∧ s.mouseSelected = false ∧
            autoNestingOff styles s.style = false
          then computeDepthZ styles ch.token_annotations s.style
          else Except.ok (st.newDepth, st.newZIndex)) with e | dz
        · rw [hx] at h
          cases h
        · rw [hx] at h
          have h1 := ih _ st' h
          refine le_trans ?_ h1
          simp only
          split_ifs with hc
          · exact le_of_lt hc.2
          · exact le_refl _
      · rw [processChunk_no_overlap styles s st i ch hch hov] at h
        exact ih st st' h

/-- Claim C1, amended.  First conjunct: at every flush, each
underline-shaped annotation depth `x` on the cluster's chunks is
rewritten to `(x, null read as 0) - underlineClusterDepth - 1` and other
chunks are untouched.  Second conjunct: processing a span never decreases
`underlineClusterDepth` — in particular the flush branch does NOT reset
it, so the subtracted value is governed by the maximum underline depth
assigned since the walk began, not by the open cluster alone (see the
counterexample, where the second cluster's depth `0` becomes `-2`). -/
theorem spec_C1_amended :
    (∀ (styles : Styles) (uCD : Int) (cluster : List Nat) (chunks : List TextChunk)
       (i : Nat) (ch ch' : TextChunk), chunks[i]? = some ch →
       (reverseUnderlineClusterDepths styles uCD cluster chunks)[i]? = some ch' →
       (i ∈ cluster →
         ch'.token_annotations = ch.token_annotations.map (fun a =>
           if shapeOf styles a.style = some "underline" then
             { a with depth := some (a.depth.getD 0 - uCD - 1) }
           else a)) ∧
       (i ∉ cluster → ch' = ch)) ∧
    (∀ (styles : Styles) (st st' : LayoutState) (s : SpanData),
       processSpan styles st s = Except.ok st' → st.uCD ≤ st'.uCD) := by
  constructor
  · intro styles uCD cluster chunks i ch ch' hch hch'
    rw [reverse_chunks_getElem, hch] at hch'
    simp only [Option.map_some'] at hch'
    have hch'' := Option.some.inj hch'
    constructor
    · intro hmem
      rw [if_pos hmem] at hch''
      rw [← hch'']
      rfl
    · intro hmem
      rw [if_neg hmem] at hch''
      exact hch''.symm
  · intro styles st st' s h
    unfold processSpan at h
    rcases hf : (List.range (flushStep styles st s).chunks.length).foldlM (processChunk styles s)
        { chunks := (flushStep styles st s).chunks
          cluster := (flushStep styles st s).cluster
          uCD := (flushStep styles st s).uCD
          newDepth := none
          newZIndex := none } with e | ls
    · rw [hf] at h
      cases h
    · rw [hf] at h
      have hst' := (Except.ok.inj h).symm
      subst hst'
      have h1 := chunkLoop_uCD_mono styles s _ _ _ hf
      simp only at h1
      rw [flushStep_uCD styles st s] at h1
      exact h1

/-- Witness for the amended claim C1: a singleton cluster at
`underlineClusterDepth = 1` rewrites depth `0` to `-2`, and a concrete
`processSpan` call preserves `underlineClusterDepth`. -/
theorem spec_C1_amended_witness :
    (([exChunk (some 0)] : List TextChunk)[0]? = some (exChunk (some 0)) ∧
     (reverseUnderlineClusterDepths exStyles 1 [0] [exChunk (some 0)])[0]?
        = some (exChunk (some (-2))) ∧
     ((0 : Nat) ∈ ([0] : List Nat) →
       (exChunk (some (-2))).token_annotations
         = (exChunk (some 0)).token_annotations.map (fun a =>
           if shapeOf exStyles a.style = some "underline" then
             { a with depth := some (a.depth.getD 0 - 1 - 1) }
           else a))) ∧
    (processSpan exStyles { chunks := [], cluster := [], uCD := 0, rMO := 0 }
        (mkSp 0 1 "u" false "A")
        = Except.ok { chunks := [], cluster := [], uCD := 0, rMO := 1 } ∧
     ({ chunks := [], cluster := [], uCD := 0, rMO := 0 } : LayoutState).uCD
        ≤ ({ chunks := [], cluster := [], uCD := 0, rMO := 1 } : LayoutState).uCD) :=
  ⟨⟨by decide, by decide,
    (spec_C1_amended.1 exStyles 1 [0] [exChunk (some 0)] 0 (exChunk (some 0))
      (exChunk (some (-2))) (by decide) (by decide)).1⟩,
   ⟨by rfl, spec_C1_amended.2 exStyles
      { chunks := [], cluster := [], uCD := 0, rMO := 0 }
      { chunks := [], cluster := [], uCD := 0, rMO := 1 }
      (mkSp 0 1 "u" false "A") (by rfl)⟩⟩

/-- `reverseUnderlineClusterDepths` makes every underline-shaped depth on
its output strictly negative, provided the input satisfies the sign
invariant: underline annotations on in-cluster chunks have depth `null`
or at most `underlineClusterDepth` (or are already negative), off-cluster
underline depths are already negative, non-underline depths are `null` or
non-negative, and `underlineClusterDepth` is non-negative. -/
theorem reverse_sign (styles : Styles) (uCD : Int) (cluster : List Nat)
    (chunks : List TextChunk) (huCD : 0 ≤ uCD)
    (hinv : ∀ (i : Nat) (ch : TextChunk), chunks[i]? = some ch →
      ∀ a ∈ ch.token_annotations,
      (shapeOf styles a.style = some "underline" →
        ((i ∈ cluster ∧ (a.depth = none ∨ ∃ d, a.depth = some d ∧ d ≤ uCD))
         ∨ (∃ d, a.depth = some d ∧ d < 0))) ∧
      (shapeOf styles a.style ≠ some "underline" →
        (a.depth = none ∨ ∃ d, a.depth = some d ∧ 0 ≤ d))) :
    ∀ (i : Nat) (ch : TextChunk),
      (reverseUnderlineClusterDepths styles uCD cluster chunks)[i]? = some ch →
      ∀ a ∈ ch.token_annotations,
      (shapeOf styles a.style = some "underline" → ∃ d, a.depth = some d ∧ d < 0) ∧
      (shapeOf styles a.style ≠ some "underline" →
        (a.depth = none ∨ ∃ d, a.depth = some d ∧ 0 ≤ d)) := by
  intro i ch hch a ha
  rw [reverse_chunks_getElem] at hch
  rcases hco : chunks[i]? with _ | ch0
  · rw [hco] at hch
    cases hch
  · rw [hco] at hch
    simp only [Option.map_some'] at hch
    have hch' := Option.some.inj hch
    by_cases hmem : i ∈ cluster
    · rw [if_pos hmem] at hch'
      subst hch'
      simp only [List.mem_map] at ha
      rcases ha with ⟨a0, ha0, rfl⟩
      have h0 := hinv i ch0 hco a0 ha0
      have hfa := revAnn_fields styles uCD a0
      constructor
      · intro hsh
        rw [hfa.1] at hsh
        unfold revAnn
        rw [if_pos hsh]
        refine ⟨a0.depth.getD 0 - uCD - 1, rfl, ?_⟩
        rcases (h0.1 hsh) with ⟨_, hd⟩ | ⟨d, hd, hneg⟩
        · rcases hd with hnone | ⟨d, hd, hle⟩
          · rw [hnone]
            simp
            omega
          · rw [hd]
            simp
            omega
        · rw [hd]
          simp
          omega
      · intro hsh
        rw [hfa.1] at hsh
        unfold revAnn
        rw [if_neg hsh]
        exact h0.2 hsh
    · rw [if_neg hmem] at hch'
      subst hch'
      have h0 := hinv i ch0 hco a ha
      constructor
      · intro hsh
        rcases h0.1 hsh with ⟨hin, _⟩ | hneg
        · exact absurd hin hmem
        · exact hneg
      · exact h0.2

/-- The per-annotation sign invariant is monotone in the cluster and in
`underlineClusterDepth`. -/
theorem signAnn_mono (styles : Styles) (cluster cluster' : List Nat) (uCD uCD' : Int)
    (hsub : ∀ x ∈ cluster, x ∈ cluster') (hle : uCD ≤ uCD') (i : Nat) (a : TokenAnn)
    (h : (shapeOf styles a.style = some "underline" →
        ((i ∈ cluster ∧ (a.depth = none ∨ ∃ d, a.depth = some d ∧ d ≤ uCD))
         ∨ (∃ d, a.depth = some d ∧ d < 0))) ∧
      (shapeOf styles a.style ≠ some "underline" →
        (a.depth = none ∨ ∃ d, a.depth = some d ∧ 0 ≤ d))) :
    (shapeOf styles a.style = some "underline" →
        ((i ∈ cluster' ∧ (a.depth = none ∨ ∃ d, a.depth = some d ∧ d ≤ uCD'))
         ∨ (∃ d, a.depth = some d ∧ d < 0))) ∧
      (shapeOf styles a.style ≠ some "underline" →
        (a.depth = none ∨ ∃ d, a.depth = some d ∧ 0 ≤ d)) := by
  refine ⟨?_, h.2⟩
  intro hsh
  rcases h.1 hsh with ⟨hin, hd⟩ | hneg
  · left
    refine ⟨hsub i hin, ?_⟩
    rcases hd with hnone | ⟨d, hd, hdle⟩
    · exact Or.inl hnone
    · exact Or.inr ⟨d, hd, le_trans hdle hle⟩
  · exact Or.inr hneg

/-- The chunk loop of one span preserves the sign invariant: every
annotation it prepends carries `newDepth`, which is `null` or a
non-negative number bounded by the updated `underlineClusterDepth` when
the span is underline-shaped, and overlapped chunk indices always join
the cluster. -/
theorem chunkLoop_sign (styles : Styles) (s : SpanData) :
    ∀ (l : List Nat) (st st' : SpanLoopState),
      l.foldlM (processChunk styles s) st = Except.ok st' →
      0 ≤ st.uCD →
      (st.newDepth = none ∨ ∃ dn : Int, st.newDepth = some dn ∧ 0 ≤ dn ∧
        (shapeOf styles s.style = some "underline" → dn ≤ st.uCD)) →
      (∀ (i : Nat) (ch : TextChunk), st.chunks[i]? = some ch →
        ∀ a ∈ ch.token_annotations,
        (shapeOf styles a.style = some "underline" →
          ((i ∈ st.cluster ∧ (a.depth = none ∨ ∃ d, a.depth = some d ∧ d ≤ st.uCD))
           ∨ (∃ d, a.depth = some d ∧ d < 0))) ∧
        (shapeOf styles a.style ≠ some "underline" →
          (a.depth = none ∨ ∃ d, a.depth = some d ∧ 0 ≤ d))) →
      0 ≤ st'.uCD ∧
      (∀ (i : Nat) (ch : TextChunk), st'.chunks[i]? = some ch →
        ∀ a ∈ ch.token_annotations,
        (shapeOf styles a.style = some "underline" →
          ((i ∈ st'.cluster ∧ (a.depth = none ∨ ∃ d, a.depth = some d ∧ d ≤ st'.uCD))
           ∨ (∃ d, a.depth = some d ∧ d < 0))) ∧
        (shapeOf styles a.style ≠ some "underline" →
          (a.depth = none ∨ ∃ d, a.depth = some d ∧ 0 ≤ d))) := by
  intro l
  induction l with
  | nil =>
    intro st st' h hu _ hinv
    cases h
    exact ⟨hu, hinv⟩
  | cons j rest ih =>
    intro st st' h hu hnd hinv
    rw [List.foldlM_cons] at h
    rcases hch : st.chunks[j]? with _ | ch
    · rw [processChunk_none styles s st j hch] at h
      exact ih st st' h hu hnd hinv
    · by_cases hov : ch.cbegin < s.send ∧ s.sbegin < ch.cend
      · rw [processChunk_overlap_step styles s st j ch hch hov] at h
        rcases hx : (if st.newDepth = none ∧ s.mouseSelected = false ∧
            autoNestingOff styles s.style = false
          then computeDepthZ styles ch.token_annotations s.style
          else Except.ok (st.newDepth, st.newZIndex)) with e | dz
        · rw [hx] at h
          cases h
        · rw [hx] at h
          have hD0 : ∀ dn : Int, dz.1 = some dn → 0 ≤ dn := by
            intro dn hdn
            split_ifs at hx with hc
            · rcases computeDepthZ_ok_nonneg styles ch.token_annotations s.style dz hx
                with ⟨dn2, zn2, he⟩
              rw [he] at hdn
              have h2 : (dn2 : Int) = dn := Option.some.inj hdn
              omega
            · have hpair := Except.ok.inj hx
              have h1 : dz.1 = st.newDepth := (congrArg Prod.fst hpair).symm
              rw [h1] at hdn
              rcases hnd with hnone | ⟨dn0, hdn0, hdn00, _⟩
              · rw [hnone] at hdn
                cases hdn
              · rw [hdn0] at hdn
                have := Option.some.inj hdn
                omega
          have hgetD : 0 ≤ (dz.1).getD 0 := by
            rcases hdz1 : dz.1 with _ | dn
            · simp
            · simpa using hD0 dn hdz1
          have hDle : shapeOf styles s.style = some "underline" → ∀ dn : Int,
              dz.1 = some dn →
              dn ≤ (if shapeOf styles s.style = some "underline" ∧ st.uCD < (dz.1).getD 0
                    then (dz.1).getD 0 else st.uCD) := by
            intro hsh dn hdn
            rw [hdn]
            simp only [Option.getD_some]
            split_ifs with hc
            · exact le_refl dn
            · rw [not_and] at hc
              exact Int.not_lt.mp (hc hsh)
          have hUle : st.uCD ≤ (if shapeOf styles s.style = some "underline" ∧
              st.uCD < (dz.1).getD 0 then (dz.1).getD 0 else st.uCD) := by
            split_ifs with hc
            · exact le_of_lt hc.2
            · exact le_refl _
          have hsub : ∀ x ∈ st.cluster,
              x ∈ (if j ∈ st.cluster then st.cluster else st.cluster ++ [j]) := by
            intro x hx2
            split_ifs
            · exact hx2
            · exact List.mem_append_left _ hx2
          have hjmem : j ∈ (if j ∈ st.cluster then st.cluster else st.cluster ++ [j]) := by
            split_ifs with hj
            · exact hj
            · exact List.mem_append_right _ (by simp)
          have hjlt : j < st.chunks.length := by
            rcases List.getElem?_eq_some.mp hch with ⟨hlt, _⟩
            exact hlt
          refine ih _ st' h ?_ ?_ ?_
          · exact le_trans hu hUle
          · rcases hdz1 : dz.1 with _ | dn
            · exact Or.inl rfl
            · refine Or.inr ⟨dn, rfl, hD0 dn hdz1, fun hsh => ?_⟩
              show dn ≤ (if shapeOf styles s.style = some "underline" ∧
                  st.uCD < (some dn : Option Int).getD 0
                then ((some dn : Option Int)).getD 0 else st.uCD)
              simp only [Option.getD_some]
              split_ifs with hc
              · exact le_refl dn
              · rw [not_and] at hc
                exact Int.not_lt.mp (hc hsh)
          · intro i ch2 hch2 a ha
            by_cases hij : j = i
            · subst hij
              rw [List.getElem?_set_self hjlt] at hch2
              have hcheq := Option.some.inj hch2
              rw [← hcheq] at ha
              rcases List.mem_cons.mp ha with rfl | ha0
              · constructor
                · intro hsh
                  left
                  refine ⟨hjmem, ?_⟩
                  rcases hdz1 : dz.1 with _ | dn
                  · exact Or.inl rfl
                  · refine Or.inr ⟨dn, rfl, ?_⟩
                    show dn ≤ (if shapeOf styles s.style = some "underline" ∧
                        st.uCD < (some dn : Option Int).getD 0
                      then ((some dn : Option Int)).getD 0 else st.uCD)
                    simp only [Option.getD_some]
                    split_ifs with hc
                    · exact le_refl dn
                    · rw [not_and] at hc
                      exact Int.not_lt.mp (hc hsh)
                · intro hsh
                  rcases hdz1 : dz.1 with _ | dn
                  · exact Or.inl rfl
                  · exact Or.inr ⟨dn, rfl, hD0 dn hdz1⟩
              · exact signAnn_mono styles st.cluster _ st.uCD _ hsub hUle j a
                  (hinv j ch hch a ha0)
            · rw [List.getElem?_set_ne hij] at hch2
              exact signAnn_mono styles st.cluster _ st.uCD _ hsub hUle i a
                (hinv i ch2 hch2 a ha)
      · rw [processChunk_no_overlap styles s st j ch hch hov] at h
        exact ih st st' h hu hnd hinv

/-- Processing one span preserves the sign invariant: a cluster flush
rewrites the open cluster's underline depths to strictly negative numbers
(`reverse_sign`), after which the chunk loop preserves the invariant. -/
theorem processSpan_sign (styles : Styles) (st : LayoutState) (s : SpanData)
    (st' : LayoutState) (h : processSpan styles st s = Except.ok st')
    (hu : 0 ≤ st.uCD)
    (hinv : ∀ (i : Nat) (ch : TextChunk), st.chunks[i]? = some ch →
      ∀ a ∈ ch.token_annotations,
      (shapeOf styles a.style = some "underline" →
        ((i ∈ st.cluster ∧ (a.depth = none ∨ ∃ d, a.depth = some d ∧ d ≤ st.uCD))
         ∨ (∃ d, a.depth = some d ∧ d < 0))) ∧
      (shapeOf styles a.style ≠ some "underline" →
        (a.depth = none ∨ ∃ d, a.depth = some d ∧ 0 ≤ d))) :
    0 ≤ st'.uCD ∧
    (∀ (i : Nat) (ch : TextChunk), st'.chunks[i]? = some ch →
      ∀ a ∈ ch.token_annotations,
      (shapeOf styles a.style = some "underline" →
        ((i ∈ st'.cluster ∧ (a.depth = none ∨ ∃ d, a.depth = some d ∧ d ≤ st'.uCD))
         ∨ (∃ d, a.depth = some d ∧ d < 0))) ∧
      (shapeOf styles a.style ≠ some "underline" →
        (a.depth = none ∨ ∃ d, a.depth = some d ∧ 0 ≤ d))) := by
  have hf : 0 ≤ (flushStep styles st s).uCD ∧
      (∀ (i : Nat) (ch : TextChunk), (flushStep styles st s).chunks[i]? = some ch →
        ∀ a ∈ ch.token_annotations,
        (shapeOf styles a.style = some "underline" →
          ((i ∈ (flushStep styles st s).cluster ∧
            (a.depth = none ∨ ∃ d, a.depth = some d ∧ d ≤ (flushStep styles st s).uCD))
           ∨ (∃ d, a.depth = some d ∧ d < 0))) ∧
        (shapeOf styles a.style ≠ some "underline" →
          (a.depth = none ∨ ∃ d, a.depth = some d ∧ 0 ≤ d))) := by
    unfold flushStep
    split_ifs with h1 h2
    · refine ⟨hu, ?_⟩
      intro i ch hch a ha
      have hr := reverse_sign styles st.uCD st.cluster st.chunks hu hinv i ch hch a ha
      exact ⟨fun hsh => Or.inr (hr.1 hsh), hr.2⟩
    · exact ⟨hu, hinv⟩
    · exact ⟨hu, hinv⟩
  unfold processSpan at h
  rcases hfold : (List.range (flushStep styles st s).chunks.length).foldlM
      (processChunk styles s)
      { chunks := (flushStep styles st s).chunks
        cluster := (flushStep styles st s).cluster
        uCD := (flushStep styles st s).uCD
        newDepth := none
        newZIndex := none } with e | ls
  · rw [hfold] at h
    cases h
  · rw [hfold] at h
    have hls := chunkLoop_sign styles s (List.range (flushStep styles st s).chunks.length)
      { chunks := (flushStep styles st s).chunks
        cluster := (flushStep styles st s).cluster
        uCD := (flushStep styles st s).uCD
        newDepth := none
        newZIndex := none } ls hfold hf.1 (Or.inl rfl) hf.2
    have h2 : Except.ok ({ chunks := ls.chunks, cluster := ls.cluster, uCD := ls.uCD, rMO := (flushStep styles st s).rMO } : LayoutState) = Except.ok st' := h
    have h3 := Except.ok.inj h2
    rw [← h3]
    exact hls

/-- The span walk of `styleTextChunks_` preserves the sign invariant. -/
theorem spanWalk_sign (styles : Styles) :
    ∀ (spans : List SpanData) (st st' : LayoutState),
      spans.foldlM (processSpan styles) st = Except.ok st' →
      0 ≤ st.uCD →
      (∀ (i : Nat) (ch : TextChunk), st.chunks[i]? = some ch →
        ∀ a ∈ ch.token_annotations,
        (shapeOf styles a.style = some "underline" →
          ((i ∈ st.cluster ∧ (a.depth = none ∨ ∃ d, a.depth = some d ∧ d ≤ st.uCD))
           ∨ (∃ d, a.depth = some d ∧ d < 0))) ∧
        (shapeOf styles a.style ≠ some "underline" →
          (a.depth = none ∨ ∃ d, a.depth = some d ∧ 0 ≤ d))) →
      0 ≤ st'.uCD ∧
      (∀ (i : Nat) (ch : TextChunk), st'.chunks[i]? = some ch →
        ∀ a ∈ ch.token_annotations,
        (shapeOf styles a.style = some "underline" →
          ((i ∈ st'.cluster ∧ (a.depth = none ∨ ∃ d, a.depth = some d ∧ d ≤ st'.uCD))
           ∨ (∃ d, a.depth = some d ∧ d < 0))) ∧
        (shapeOf styles a.style ≠ some "underline" →
          (a.depth = none ∨ ∃ d, a.depth = some d ∧ 0 ≤ d))) := by
  intro spans
  induction spans with
  | nil =>
    intro st st' h hu hinv
    cases h
    exact ⟨hu, hinv⟩
  | cons s rest ih =>
    intro st st' h hu hinv
    rw [List.foldlM_cons] at h
    rcases hps : processSpan styles st s with e | st1
    · rw [hps] at h
      cases h
    · rw [hps] at h
      have h1 := processSpan_sign styles st s st1 hps hu hinv
      exact ih st1 st' h h1.1 h1.2

/-- On annotation-free input chunks, a successful `styleTextChunks_` run
(final flush included) yields only strictly negative underline-shaped
depths, and `null`-or-non-negative depths on non-underline annotations. -/
theorem styleTextChunks_sign (CH : List TextChunk) (spans : List SpanData)
    (styles : Styles) (out : List TextChunk)
    (h : styleTextChunks_ CH spans styles = Except.ok out)
    (hinit : ∀ ch ∈ CH, ch.token_annotations = []) :
    ∀ ch ∈ out, ∀ a ∈ ch.token_annotations,
      (shapeOf styles a.style = some "underline" → ∃ d, a.depth = some d ∧ d < 0) ∧
      (shapeOf styles a.style ≠ some "underline" →
        (a.depth = none ∨ ∃ d, a.depth = some d ∧ 0 ≤ d)) := by
  have hinv0 : ∀ (i : Nat) (ch : TextChunk), CH[i]? = some ch →
      ∀ a ∈ ch.token_annotations,
      (shapeOf styles a.style = some "underline" →
        ((i ∈ ([] : List Nat) ∧ (a.depth = none ∨ ∃ d, a.depth = some d ∧ d ≤ (0 : Int)))
         ∨ (∃ d, a.depth = some d ∧ d < 0))) ∧
      (shapeOf styles a.style ≠ some "underline" →
        (a.depth = none ∨ ∃ d, a.depth = some d ∧ 0 ≤ d)) := by
    intro i ch hch a ha
    rw [hinit ch (List.getElem?_mem hch)] at ha
    cases ha
  unfold styleTextChunks_ at h
  rcases hw : spans.foldlM (processSpan styles)
      { chunks := CH, cluster := [], uCD := 0, rMO := 0 } with e | st
  · rw [hw] at h
    cases h
  · rw [hw] at h
    have hst := spanWalk_sign styles spans
      { chunks := CH, cluster := [], uCD := 0, rMO := 0 } st hw (le_refl 0) hinv0
    have hout : reverseUnderlineClusterDepths styles st.uCD st.cluster st.chunks = out :=
      Except.ok.inj h
    intro ch hch a ha
    rw [← hout] at hch
    rcases List.mem_iff_getElem?.mp hch with ⟨i, hi⟩
    exact reverse_sign styles st.uCD st.cluster st.chunks hst.1 hst.2 i ch hi a ha

/-- C5: after `tokenize` returns, every `TokenAnnotation` in the result
with a non-null `depth` whose style resolves in the style table has a
strictly negative depth when the style's shape is `"underline"` and a
non-negative depth when the shape is anything else. -/
theorem spec_C5 (spans : List SpanData) (text : List Char) (styles : Styles) :
    ∀ line ∈ resLines (tokenize spans text styles), ∀ td ∈ line,
      ∀ a ∈ td.token_annotations, ∀ d : Int, a.depth = some d →
      ∀ stl, lookupStyle styles a.style = some stl →
      (stl.shape = "underline" → d < 0) ∧ (stl.shape ≠ "underline" → 0 ≤ d) := by
  rcases hsty : styleTextChunks_ (chunkText (preparedSpans spans text) text)
      (preparedSpans spans text) styles with e | out
  · have herr : tokenize spans text styles = Except.error e := by
      unfold tokenize
      rw [hsty]
      rfl
    intro line hline
    unfold resLines at hline
    rw [herr] at hline
    cases hline
  · have hr : tokenize spans text styles = Except.ok
        { lines := tokenizeTextChunks out
          ids := (preparedSpans spans text).map (·.id) } := by
      unfold tokenize
      rw [hsty]
      rfl
    intro line hline td htd a ha d hd stl hstl
    rw [hr] at hline
    rcases tokenizeTextChunks_anns out line hline td htd with ⟨ch, hch, heq⟩
    rw [heq] at ha
    have hsign := styleTextChunks_sign (chunkText (preparedSpans spans text) text)
      (preparedSpans spans text) styles out hsty
      (chunkText_anns_nil (preparedSpans spans text) text) ch hch a ha
    have hshape : shapeOf styles a.style = some stl.shape := by
      unfold shapeOf
      rw [hstl]
      rfl
    by_cases hu : stl.shape = "underline"
    · refine ⟨fun _ => ?_, fun hne => absurd hu hne⟩
      rcases hsign.1 (by rw [hshape, hu]) with ⟨d2, hd2, hneg⟩
      rw [hd] at hd2
      have := Option.some.inj hd2
      omega
    · refine ⟨fun heq2 => absurd heq2 hu, fun _ => ?_⟩
      have hne : shapeOf styles a.style ≠ some "underline" := by
        rw [hshape]
        intro hc
        exact hu (Option.some.inj hc)
      rcases hsign.2 hne with hnone | ⟨d2, hd2, hge⟩
      · rw [hd] at hnone
        cases hnone
      · rw [hd] at hd2
        have := Option.some.inj hd2
        omega

/-- Witness for C5 on two spans `[0,2)` (underline style `"u"`, box style
`"b"`) over `"ab"`: the underline annotation ends with depth `-1 < 0` and
the box annotation with depth `0`, which is non-negative. -/
theorem spec_C5_witness :
    ([c5td] ∈ resLines (tokenize [mkSp 0 2 "u" false "A", mkSp 0 2 "b" false "B"]
        "ab".toList exStyles) ∧
     c5td ∈ [c5td] ∧ c5uAnn ∈ c5td.token_annotations ∧ c5uAnn.depth = some (-1) ∧
     lookupStyle exStyles c5uAnn.style
       = some { autoNestingLayout := true, shape := "underline" } ∧
     c5bAnn ∈ c5td.token_annotations ∧ c5bAnn.depth = some 0 ∧
     lookupStyle exStyles c5bAnn.style
       = some { autoNestingLayout := true, shape := "box" }) ∧
    ((-1 : Int) < 0 ∧ (0 : Int) ≤ 0) :=
  ⟨⟨by decide, by decide, by decide, by decide, by decide, by decide, by decide, by decide⟩,
   (spec_C5 [mkSp 0 2 "u" false "A", mkSp 0 2 "b" false "B"] "ab".toList exStyles
      [c5td] (by decide) c5td (by decide) c5uAnn (by decide) (-1) (by decide)
      { autoNestingLayout := true, shape := "underline" } (by decide)).1 (by decide),
   (spec_C5 [mkSp 0 2 "u" false "A", mkSp 0 2 "b" false "B"] "ab".toList exStyles
      [c5td] (by decide) c5td (by decide) c5bAnn (by decide) 0 (by decide)
      { autoNestingLayout := true, shape := "box" } (by decide)).2 (by decide)⟩

/-- After cluster boundary detection, `rightMostOffset` is at least the
current span's `end`. -/
theorem flushStep_rMO (styles : Styles) (st : LayoutState) (s : SpanData) :
    s.send ≤ (flushStep styles st s).rMO := by
  unfold flushStep
  split_ifs with h1 h2
  · exact le_refl _
  · exact le_refl _
  · omega

/-- The chunk loop only ever adds indices to the open cluster. -/
theorem chunkLoop_cluster_mono (styles : Styles) (s : SpanData) :
    ∀ (l : List Nat) (st st' : SpanLoopState),
      l.foldlM (processChunk styles s) st = Except.ok st' →
      ∀ x ∈ st.cluster, x ∈ st'.cluster := by
  intro l
  induction l with
  | nil =>
    intro st st' h
    cases h
    exact fun x hx => hx
  | cons j rest ih =>
    intro st st' h x hx
    rw [List.foldlM_cons] at h
    rcases hch : st.chunks[j]? with _ | ch
    · rw [processChunk_none styles s st j hch] at h
      exact ih st st' h x hx
    · by_cases hov : ch.cbegin < s.send ∧ s.sbegin < ch.cend
      · rw [processChunk_overlap_step styles s st j ch hch hov] at h
        rcases hx2 : (if st.newDepth = none ∧ s.mouseSelected = false ∧
            autoNestingOff styles s.style = false
          then computeDepthZ styles ch.token_annotations s.style
          else Except.ok (st.newDepth, st.newZIndex)) with e | dz
        · rw [hx2] at h
          cases h
        · rw [hx2] at h
          refine ih _ st' h x ?_
          show x ∈ (if j ∈ st.cluster then st.cluster else st.cluster ++ [j])
          split_ifs
          · exact hx
          · exact List.mem_append_left _ hx
      · rw [processChunk_no_overlap styles s st j ch hch hov] at h
        exact ih st st' h x hx

/-- No chunk contains a boundary value strictly inside itself. -/
theorem chunkText_boundary_no_straddle (spans : List SpanData) (text : List Char)
    (x : Nat) (hx : x ∈ boundaryIndices spans text) :
    ∀ ch ∈ chunkText spans text, ¬(ch.cbegin < x ∧ x < ch.cend) := by
  intro ch hch hov
  unfold chunkText at hch
  rcases List.mem_map.mp hch with ⟨p, hp, rfl⟩
  simp only at hov
  have hpair : (p.1, p.2) ∈ adjPairs (boundaryIndices spans text) := by
    simpa using hp
  exact adjPairs_no_interior (boundaryIndices spans text)
    (boundaryIndices_pairwise_lt spans text) p.1 p.2 hpair x hx hov

/-- In the priority order, everything at or after a non-mouse-selected
span is non-mouse-selected, with `begin` ascending. -/
theorem spanLE_nonmouse (a b : SpanData) (hab : spanLE a b = true)
    (ha : a.mouseSelected = false) : b.mouseSelected = false ∧ a.sbegin ≤ b.sbegin := by
  unfold spanLE at hab
  rcases hbm : b.mouseSelected
  · refine ⟨rfl, ?_⟩
    rw [ha, hbm] at hab
    simp at hab
    split_ifs at hab <;> omega
  · rw [ha, hbm] at hab
    simp at hab

/-- The chunk loop of a span `s` (with no prior `s`-annotations anywhere)
keeps all of `s`'s annotations identical: they carry the running
`newDepth`/`newZIndex` pair and `s`'s style, sit on in-cluster chunks that
end at or before `s.end`, and `newDepth` can only be `null` for
mouse-selected or opted-out spans (for which it stays `null`). -/
theorem chunkLoop_c4self (styles : Styles) (s : SpanData) :
    ∀ (l : List Nat) (st st' : SpanLoopState),
      l.foldlM (processChunk styles s) st = Except.ok st' →
      (∀ (i : Nat) (ch : TextChunk), st.chunks[i]? = some ch →
        ch.cbegin < s.send → ch.cend ≤ s.send) →
      ((st.newDepth = none ∧ st.newZIndex = none ∧
        (∀ (i : Nat) (ch : TextChunk), st.chunks[i]? = some ch →
          ∀ a ∈ ch.token_annotations, a.id ≠ s.id))
       ∨ ((st.newDepth = none →
            s.mouseSelected = true ∨ autoNestingOff styles s.style = true) ∧
          (∀ (i : Nat) (ch : TextChunk), st.chunks[i]? = some ch →
            ∀ a ∈ ch.token_annotations, a.id = s.id →
              a.style = s.style ∧ a.zIndex = st.newZIndex ∧ a.depth = st.newDepth ∧
              i ∈ st.cluster ∧ ch.cend ≤ s.send))) →
      ((st'.newDepth = none ∧ st'.newZIndex = none ∧
        (∀ (i : Nat) (ch : TextChunk), st'.chunks[i]? = some ch →
          ∀ a ∈ ch.token_annotations, a.id ≠ s.id))
       ∨ ((st'.newDepth = none →
            s.mouseSelected = true ∨ autoNestingOff styles s.style = true) ∧
          (∀ (i : Nat) (ch : TextChunk), st'.chunks[i]? = some ch →
            ∀ a ∈ ch.token_annotations, a.id = s.id →
              a.style = s.style ∧ a.zIndex = st'.newZIndex ∧ a.depth = st'.newDepth ∧
              i ∈ st'.cluster ∧ ch.cend ≤ s.send))) := by
  intro l
  induction l with
  | nil =>
    intro st st' h _ hinv
    cases h
    exact hinv
  | cons j rest ih =>
    intro st st' h hstrad hinv
    rw [List.foldlM_cons] at h
    rcases hch : st.chunks[j]? with _ | ch
    · rw [processChunk_none styles s st j hch] at h
      exact ih st st' h hstrad hinv
    · by_cases hov : ch.cbegin < s.send ∧ s.sbegin < ch.cend
      · rw [processChunk_overlap_step styles s st j ch hch hov] at h
        rcases hx : (if st.newDepth = none ∧ s.mouseSelected = false ∧
            autoNestingOff styles s.style = false
          then computeDepthZ styles ch.token_annotations s.style
          else Except.ok (st.newDepth, st.newZIndex)) with e | dz
        · rw [hx] at h
          cases h
        · rw [hx] at h
          have hjlt : j < st.chunks.length := by
            rcases List.getElem?_eq_some.mp hch with ⟨hlt, _⟩
            exact hlt
          have hjmem : j ∈ (if j ∈ st.cluster then st.cluster else st.cluster ++ [j]) := by
            split_ifs with hj
            · exact hj
            · exact List.mem_append_right _ (by simp)
          have hclsub : ∀ x ∈ st.cluster,
              x ∈ (if j ∈ st.cluster then st.cluster else st.cluster ++ [j]) := by
            intro x hx2
            split_ifs
            · exact hx2
            · exact List.mem_append_left _ hx2
          have hcend : ch.cend ≤ s.send := hstrad j ch hch hov.1
          refine ih _ st' h ?_ (Or.inr ⟨?_, ?_⟩)
          · intro i ch2 hch2 hlt
            by_cases hij : j = i
            · subst hij
              rw [List.getElem?_set_self hjlt] at hch2
              have hcheq := Option.some.inj hch2
              rw [← hcheq] at hlt ⊢
              exact hstrad j ch hch hlt
            · rw [List.getElem?_set_ne hij] at hch2
              exact hstrad i ch2 hch2 hlt
          · rcases hinv with ⟨hnd1, _, _⟩ | ⟨himpl, _⟩
            · split_ifs at hx with hc
              · rcases computeDepthZ_ok_nonneg styles ch.token_annotations s.style dz hx
                  with ⟨dn, zn, he⟩
                intro hdz
                rw [he] at hdz
                cases hdz
              · intro _
                rw [not_and] at hc
                have h3 := hc hnd1
                revert h3
                rcases s.mouseSelected <;> rcases autoNestingOff styles s.style <;> simp
            · split_ifs at hx with hc
              · exact absurd (himpl hc.1) (by
                  rw [hc.2.1, hc.2.2]
                  simp)
              · have h1 : dz.1 = st.newDepth := (congrArg Prod.fst (Except.ok.inj hx)).symm
                intro hdz
                exact himpl (h1 ▸ hdz)
          · intro i ch2 hch2 a ha haid
            by_cases hij : j = i
            · subst hij
              rw [List.getElem?_set_self hjlt] at hch2
              have hcheq := Option.some.inj hch2
              rw [← hcheq] at ha ⊢
              rcases List.mem_cons.mp ha with rfl | ha0
              · exact ⟨rfl, rfl, rfl, hjmem, hcend⟩
              · rcases hinv with ⟨_, _, hno⟩ | ⟨himpl, huni⟩
                · exact absurd haid (hno j ch hch a ha0)
                · have hu := huni j ch hch a ha0 haid
                  split_ifs at hx with hc
                  · exact absurd (himpl hc.1) (by
                      rw [hc.2.1, hc.2.2]
                      simp)
                  · have h1 : dz.1 = st.newDepth :=
                      (congrArg Prod.fst (Except.ok.inj hx)).symm
                    have h2 : dz.2 = st.newZIndex :=
                      (congrArg Prod.snd (Except.ok.inj hx)).symm
                    exact ⟨hu.1, h2 ▸ hu.2.1, h1 ▸ hu.2.2.1, hclsub j hu.2.2.2.1,
                      hu.2.2.2.2⟩
            · rw [List.getElem?_set_ne hij] at hch2
              rcases hinv with ⟨_, _, hno⟩ | ⟨himpl, huni⟩
              · exact absurd haid (hno i ch2 hch2 a ha)
              · have hu := huni i ch2 hch2 a ha haid
                split_ifs at hx with hc
                · exact absurd (himpl hc.1) (by
                    rw [hc.2.1, hc.2.2]
                    simp)
                · have h1 : dz.1 = st.newDepth :=
                    (congrArg Prod.fst (Except.ok.inj hx)).symm
                  have h2 : dz.2 = st.newZIndex :=
                    (congrArg Prod.snd (Except.ok.inj hx)).symm
                  exact ⟨hu.1, h2 ▸ hu.2.1, h1 ▸ hu.2.2.1, hclsub i hu.2.2.2.1,
                    hu.2.2.2.2⟩
      · rw [processChunk_no_overlap styles s st j ch hch hov] at h
        exact ih st st' h hstrad hinv

/-- Processing span `s` itself from a state with no `s`-annotations
yields a state where all of `s`'s annotations share one depth and one
z-index, carry `s`'s style, and sit on in-cluster chunks ending at or
before `s.end`; `rightMostOffset` ends at or above `s.end`. -/
theorem processSpan_c4self (styles : Styles) (st : LayoutState) (s : SpanData)
    (st' : LayoutState) (h : processSpan styles st s = Except.ok st')
    (hstrad : ∀ (i : Nat) (ch : TextChunk), st.chunks[i]? = some ch →
      ch.cbegin < s.send → ch.cend ≤ s.send)
    (hno : ∀ (i : Nat) (ch : TextChunk), st.chunks[i]? = some ch →
      ∀ a ∈ ch.token_annotations, a.id ≠ s.id) :
    (∃ D Z : Option Int,
      ∀ (i : Nat) (ch : TextChunk), st'.chunks[i]? = some ch →
        ∀ a ∈ ch.token_annotations, a.id = s.id →
          a.style = s.style ∧ a.zIndex = Z ∧ a.depth = D ∧
          i ∈ st'.cluster ∧ ch.cend ≤ s.send) ∧
    s.send ≤ st'.rMO := by
  have hstradf : ∀ (i : Nat) (ch : TextChunk), (flushStep styles st s).chunks[i]? = some ch →
      ch.cbegin < s.send → ch.cend ≤ s.send := by
    unfold flushStep
    split_ifs with h1 h2
    · intro i ch hch hlt
      rw [reverse_chunks_getElem] at hch
      rcases hc0 : st.chunks[i]? with _ | ch0
      · rw [hc0] at hch
        cases hch
      · rw [hc0] at hch
        simp only [Option.map_some'] at hch
        have hcheq := Option.some.inj hch
        by_cases hmem : i ∈ st.cluster
        · rw [if_pos hmem] at hcheq
          rw [← hcheq] at hlt ⊢
          exact hstrad i ch0 hc0 hlt
        · rw [if_neg hmem] at hcheq
          rw [← hcheq] at hlt ⊢
          exact hstrad i ch0 hc0 hlt
    · exact hstrad
    · exact hstrad
  have hnof : ∀ (i : Nat) (ch : TextChunk), (flushStep styles st s).chunks[i]? = some ch →
      ∀ a ∈ ch.token_annotations, a.id ≠ s.id := by
    unfold flushStep
    split_ifs with h1 h2
    · intro i ch hch a ha
      rw [reverse_chunks_getElem] at hch
      rcases hc0 : st.chunks[i]? with _ | ch0
      · rw [hc0] at hch
        cases hch
      · rw [hc0] at hch
        simp only [Option.map_some'] at hch
        have hcheq := Option.some.inj hch
        by_cases hmem : i ∈ st.cluster
        · rw [if_pos hmem] at hcheq
          rw [← hcheq] at ha
          rcases List.mem_map.mp ha with ⟨a0, ha0, rfl⟩
          rw [(revAnn_fields styles st.uCD a0).2.2.2]
          exact hno i ch0 hc0 a0 ha0
        · rw [if_neg hmem] at hcheq
          rw [← hcheq] at ha
          exact hno i ch0 hc0 a ha
    · exact hno
    · exact hno
  unfold processSpan at h
  rcases hfold : (List.range (flushStep styles st s).chunks.length).foldlM
      (processChunk styles s)
      { chunks := (flushStep styles st s).chunks
        cluster := (flushStep styles st s).cluster
        uCD := (flushStep styles st s).uCD
        newDepth := none
        newZIndex := none } with e | ls
  · rw [hfold] at h
    cases h
  · rw [hfold] at h
    have hloop := chunkLoop_c4self styles s
      (List.range (flushStep styles st s).chunks.length) _ ls hfold hstradf
      (Or.inl ⟨rfl, rfl, hnof⟩)
    have h2 : Except.ok ({ chunks := ls.chunks, cluster := ls.cluster, uCD := ls.uCD, rMO := (flushStep styles st s).rMO } : LayoutState) = Except.ok st' := h
    have h3 := Except.ok.inj h2
    rw [← h3]
    constructor
    · rcases hloop with ⟨_, _, hno'⟩ | ⟨_, huni⟩
      · exact ⟨none, none, fun i ch hch a ha haid => absurd haid (hno' i ch hch a ha)⟩
      · exact ⟨ls.newDepth, ls.newZIndex, huni⟩
    · exact flushStep_rMO styles st s

/-- The chunk loop of a span with a different id preserves the uniform
description of `s`'s annotations (it only prepends annotations with its
own id and never edits existing ones). -/
theorem chunkLoop_c4other (styles : Styles) (t : SpanData) (sid : Option String)
    (sstyle : String) (ssend : Nat) (D Z : Option Int) (hni : t.id ≠ sid) :
    ∀ (l : List Nat) (st st' : SpanLoopState),
      l.foldlM (processChunk styles t) st = Except.ok st' →
      (∀ (i : Nat) (ch : TextChunk), st.chunks[i]? = some ch →
        ∀ a ∈ ch.token_annotations, a.id = sid →
          a.style = sstyle ∧ a.zIndex = Z ∧ a.depth = D ∧ ch.cend ≤ ssend) →
      (∀ (i : Nat) (ch : TextChunk), st'.chunks[i]? = some ch →
        ∀ a ∈ ch.token_annotations, a.id = sid →
          a.style = sstyle ∧ a.zIndex = Z ∧ a.depth = D ∧ ch.cend ≤ ssend) := by
  intro l
  induction l with
  | nil =>
    intro st st' h hinv
    cases h
    exact hinv
  | cons j rest ih =>
    intro st st' h hinv
    rw [List.foldlM_cons] at h
    rcases hch : st.chunks[j]? with _ | ch
    · rw [processChunk_none styles t st j hch] at h
      exact ih st st' h hinv
    · by_cases hov : ch.cbegin < t.send ∧ t.sbegin < ch.cend
      · rw [processChunk_overlap_step styles t st j ch hch hov] at h
        rcases hx : (if st.newDepth = none ∧ t.mouseSelected = false ∧
            autoNestingOff styles t.style = false
          then computeDepthZ styles ch.token_annotations t.style
          else Except.ok (st.newDepth, st.newZIndex)) with e | dz
        · rw [hx] at h
          cases h
        · rw [hx] at h
          have hjlt : j < st.chunks.length := by
            rcases List.getElem?_eq_some.mp hch with ⟨hlt, _⟩
            exact hlt
          refine ih _ st' h ?_
          intro i ch2 hch2 a ha haid
          by_cases hij : j = i
          · subst hij
            rw [List.getElem?_set_self hjlt] at hch2
            have hcheq := Option.some.inj hch2
            rw [← hcheq] at ha ⊢
            rcases List.mem_cons.mp ha with rfl | ha0
            · exact absurd haid hni
            · exact hinv j ch hch a ha0 haid
          · rw [List.getElem?_set_ne hij] at hch2
            exact hinv i ch2 hch2 a ha haid
      · rw [processChunk_no_overlap styles t st j ch hch hov] at h
        exact ih st st' h hinv

/-- The chunk loop of a span with a different id keeps `s`-annotated
chunks inside the cluster (the cluster only grows). -/
theorem chunkLoop_c4inclu (styles : Styles) (t : SpanData) (sid : Option String)
    (hni : t.id ≠ sid) :
    ∀ (l : List Nat) (st st' : SpanLoopState),
      l.foldlM (processChunk styles t) st = Except.ok st' →
      (∀ (i : Nat) (ch : TextChunk), st.chunks[i]? = some ch →
        (∃ a ∈ ch.token_annotations, a.id = sid) → i ∈ st.cluster) →
      (∀ (i : Nat) (ch : TextChunk), st'.chunks[i]? = some ch →
        (∃ a ∈ ch.token_annotations, a.id = sid) → i ∈ st'.cluster) := by
  intro l
  induction l with
  | nil =>
    intro st st' h hinv
    cases h
    exact hinv
  | cons j rest ih =>
    intro st st' h hinv
    rw [List.foldlM_cons] at h
    rcases hch : st.chunks[j]? with _ | ch
    · rw [processChunk_none styles t st j hch] at h
      exact ih st st' h hinv
    · by_cases hov : ch.cbegin < t.send ∧ t.sbegin < ch.cend
      · rw [processChunk_overlap_step styles t st j ch hch hov] at h
        rcases hx : (if st.newDepth = none ∧ t.mouseSelected = false ∧
            autoNestingOff styles t.style = false
          then computeDepthZ styles ch.token_annotations t.style
          else Except.ok (st.newDepth, st.newZIndex)) with e | dz
        · rw [hx] at h
          cases h
        · rw [hx] at h
          have hjlt : j < st.chunks.length := by
            rcases List.getElem?_eq_some.mp hch with ⟨hlt, _⟩
            exact hlt
          have hclsub : ∀ x ∈ st.cluster,
              x ∈ (if j ∈ st.cluster then st.cluster else st.cluster ++ [j]) := by
            intro x hx2
            split_ifs
            · exact hx2
            · exact List.mem_append_left _ hx2
          refine ih _ st' h ?_
          intro i ch2 hch2 hex
          by_cases hij : j = i
          · subst hij
            rw [List.getElem?_set_self hjlt] at hch2
            have hcheq := Option.some.inj hch2
            rw [← hcheq] at hex
            rcases hex with ⟨a, ha, haid⟩
            rcases List.mem_cons.mp ha with rfl | ha0
            · exact absurd haid hni
            · exact hclsub j (hinv j ch hch ⟨a, ha0, haid⟩)
          · rw [List.getElem?_set_ne hij] at hch2
            exact hclsub i (hinv i ch2 hch2 hex)
      · rw [processChunk_no_overlap styles t st j ch hch hov] at h
        exact ih st st' h hinv

/-- The chunk loop of a span beginning at or after `s.end` keeps
`s`-annotated chunks (which end at or before `s.end`) out of the cluster:
it cannot overlap them, and only overlapped indices join the cluster. -/
theorem chunkLoop_c4outclu (styles : Styles) (t : SpanData) (sid : Option String)
    (ssend : Nat) (hni : t.id ≠ sid) (hts : ssend ≤ t.sbegin) :
    ∀ (l : List Nat) (st st' : SpanLoopState),
      l.foldlM (processChunk styles t) st = Except.ok st' →
      (∀ (i : Nat) (ch : TextChunk), st.chunks[i]? = some ch →
        (∃ a ∈ ch.token_annotations, a.id = sid) → i ∉ st.cluster ∧ ch.cend ≤ ssend) →
      (∀ (i : Nat) (ch : TextChunk), st'.chunks[i]? = some ch →
        (∃ a ∈ ch.token_annotations, a.id = sid) → i ∉ st'.cluster ∧ ch.cend ≤ ssend) := by
  intro l
  induction l with
  | nil =>
    intro st st' h hinv
    cases h
    exact hinv
  | cons j rest ih =>
    intro st st' h hinv
    rw [List.foldlM_cons] at h
    rcases hch : st.chunks[j]? with _ | ch
    · rw [processChunk_none styles t st j hch] at h
      exact ih st st' h hinv
    · by_cases hov : ch.cbegin < t.send ∧ t.sbegin < ch.cend
      · rw [processChunk_overlap_step styles t st j ch hch hov] at h
        rcases hx : (if st.newDepth = none ∧ t.mouseSelected = false ∧
            autoNestingOff styles t.style = false
          then computeDepthZ styles ch.token_annotations t.style
          else Except.ok (st.newDepth, st.newZIndex)) with e | dz
        · rw [hx] at h
          cases h
        · rw [hx] at h
          have hjlt : j < st.chunks.length := by
            rcases List.getElem?_eq_some.mp hch with ⟨hlt, _⟩
            exact hlt
          have hjno : ¬(∃ a ∈ ch.token_annotations, a.id = sid) := by
            intro hex
            have := (hinv j ch hch hex).2
            omega
          refine ih _ st' h ?_
          intro i ch2 hch2 hex
          by_cases hij : j = i
          · subst hij
            rw [List.getElem?_set_self hjlt] at hch2
            have hcheq := Option.some.inj hch2
            rw [← hcheq] at hex
            rcases hex with ⟨a, ha, haid⟩
            rcases List.mem_cons.mp ha with rfl | ha0
            · exact absurd haid hni
            · exact absurd ⟨a, ha0, haid⟩ hjno
          · rw [List.getElem?_set_ne hij] at hch2
            have hbase := hinv i ch2 hch2 hex
            refine ⟨?_, hbase.2⟩
            intro hmem
            show False
            by_cases hjc : j ∈ st.cluster
            · rw [if_pos hjc] at hmem
              exact hbase.1 hmem
            · rw [if_neg hjc] at hmem
              rcases List.mem_append.mp hmem with hm1 | hm2
              · exact hbase.1 hm1
              · exact hij (List.mem_singleton.mp hm2).symm
      · rw [processChunk_no_overlap styles t st j ch hch hov] at h
        exact ih st st' h hinv

/-- The flush rewrite of one annotation is determined by its style and
depth: style and z-index are kept, and the depth of an underline-shaped
annotation becomes `(depth, null as 0) - underlineClusterDepth - 1`. -/
theorem revAnn_uniform (styles : Styles) (u : Int) (a : TokenAnn) (sstyle : String)
    (D Z : Option Int) (hstyle : a.style = sstyle) (hz : a.zIndex = Z) (hd : a.depth = D) :
    (revAnn styles u a).style = sstyle ∧ (revAnn styles u a).zIndex = Z ∧
    (revAnn styles u a).depth =
      (if shapeOf styles sstyle = some "underline" then some (D.getD 0 - u - 1) else D) := by
  unfold revAnn
  rw [hstyle]
  split_ifs with hsh
  · exact ⟨rfl, hz, by rw [hd]⟩
  · exact ⟨hstyle, hz, hd⟩

/-- A cluster flush while all of `s`'s annotations are on in-cluster
chunks rewrites them all by the same amount: they stay uniform, at the
shifted depth for underline-shaped styles. -/
theorem reverse_c4A (styles : Styles) (u : Int) (cluster : List Nat)
    (chunks : List TextChunk) (sid : Option String) (sstyle : String) (ssend : Nat)
    (D Z : Option Int)
    (huni : ∀ (i : Nat) (ch : TextChunk), chunks[i]? = some ch →
      ∀ a ∈ ch.token_annotations, a.id = sid →
        a.style = sstyle ∧ a.zIndex = Z ∧ a.depth = D ∧ ch.cend ≤ ssend)
    (hclu : ∀ (i : Nat) (ch : TextChunk), chunks[i]? = some ch →
      (∃ a ∈ ch.token_annotations, a.id = sid) → i ∈ cluster) :
    ∀ (i : Nat) (ch : TextChunk),
      (reverseUnderlineClusterDepths styles u cluster chunks)[i]? = some ch →
      ∀ a ∈ ch.token_annotations, a.id = sid →
        a.style = sstyle ∧ a.zIndex = Z ∧
        a.depth = (if shapeOf styles sstyle = some "underline"
          then some (D.getD 0 - u - 1) else D) ∧
        ch.cend ≤ ssend := by
  intro i ch hch a ha haid
  rw [reverse_chunks_getElem] at hch
  rcases hc0 : chunks[i]? with _ | ch0
  · rw [hc0] at hch
    cases hch
  · rw [hc0] at hch
    simp only [Option.map_some'] at hch
    have hcheq := Option.some.inj hch
    by_cases hmem : i ∈ cluster
    · rw [if_pos hmem] at hcheq
      rw [← hcheq] at ha ⊢
      rcases List.mem_map.mp ha with ⟨a0, ha0, rfl⟩
      have hid0 : a0.id = sid := by
        rw [← (revAnn_fields styles u a0).2.2.2]
        exact haid
      have hu := huni i ch0 hc0 a0 ha0 hid0
      have hr := revAnn_uniform styles u a0 sstyle D Z hu.1 hu.2.1 hu.2.2.1
      exact ⟨hr.1, hr.2.1, hr.2.2, hu.2.2.2⟩
    · rw [if_neg hmem] at hcheq
      rw [← hcheq] at ha
      exact absurd (hclu i ch0 hc0 ⟨a, ha, haid⟩) hmem

/-- A cluster flush while no `s`-annotated chunk is in the cluster leaves
all of `s`'s annotations untouched. -/
theorem reverse_c4B (styles : Styles) (u : Int) (cluster : List Nat)
    (chunks : List TextChunk) (sid : Option String) (sstyle : String) (ssend : Nat)
    (D Z : Option Int)
    (huni : ∀ (i : Nat) (ch : TextChunk), chunks[i]? = some ch →
      ∀ a ∈ ch.token_annotations, a.id = sid →
        a.style = sstyle ∧ a.zIndex = Z ∧ a.depth = D ∧ ch.cend ≤ ssend)
    (hout : ∀ (i : Nat) (ch : TextChunk), chunks[i]? = some ch →
      (∃ a ∈ ch.token_annotations, a.id = sid) → i ∉ cluster) :
    ∀ (i : Nat) (ch : TextChunk),
      (reverseUnderlineClusterDepths styles u cluster chunks)[i]? = some ch →
      ∀ a ∈ ch.token_annotations, a.id = sid →
        a.style = sstyle ∧ a.zIndex = Z ∧ a.depth = D ∧ ch.cend ≤ ssend := by
  intro i ch hch a ha haid
  rw [reverse_chunks_getElem] at hch
  rcases hc0 : chunks[i]? with _ | ch0
  · rw [hc0] at hch
    cases hch
  · rw [hc0] at hch
    simp only [Option.map_some'] at hch
    have hcheq := Option.some.inj hch
    by_cases hmem : i ∈ cluster
    · rw [if_pos hmem] at hcheq
      rw [← hcheq] at ha
      rcases List.mem_map.mp ha with ⟨a0, ha0, rfl⟩
      have hid0 : a0.id = sid := by
        rw [← (revAnn_fields styles u a0).2.2.2]
        exact haid
      exact absurd (⟨a0, ha0, hid0⟩ : ∃ a ∈ ch0.token_annotations, a.id = sid)
        (fun hx => (hout i ch0 hc0 hx) hmem)
    · rw [if_neg hmem] at hcheq
      rw [← hcheq] at ha ⊢
      exact huni i ch0 hc0 a ha haid

/-- Phase A step: processing a later span while `s`'s chunks are all in
the open cluster either keeps the cluster open (no flush, uniformity
unchanged) or flushes it, shifting all of `s`'s annotations uniformly and
moving them permanently out of the cluster; in the flush case the current
span begins at or after `s.end`. -/
theorem processSpan_c4A (styles : Styles) (st st' : LayoutState) (t : SpanData)
    (sid : Option String) (sstyle : String) (ssend : Nat) (D Z : Option Int)
    (h : processSpan styles st t = Except.ok st')
    (hni : t.id ≠ sid)
    (huni : ∀ (i : Nat) (ch : TextChunk), st.chunks[i]? = some ch →
      ∀ a ∈ ch.token_annotations, a.id = sid →
        a.style = sstyle ∧ a.zIndex = Z ∧ a.depth = D ∧ ch.cend ≤ ssend)
    (hclu : ∀ (i : Nat) (ch : TextChunk), st.chunks[i]? = some ch →
      (∃ a ∈ ch.token_annotations, a.id = sid) → i ∈ st.cluster)
    (hrmo : ssend ≤ st.rMO) :
    ∃ D' : Option Int,
      (∀ (i : Nat) (ch : TextChunk), st'.chunks[i]? = some ch →
        ∀ a ∈ ch.token_annotations, a.id = sid →
          a.style = sstyle ∧ a.zIndex = Z ∧ a.depth = D' ∧ ch.cend ≤ ssend) ∧
      (((∀ (i : Nat) (ch : TextChunk), st'.chunks[i]? = some ch →
          (∃ a ∈ ch.token_annotations, a.id = sid) → i ∈ st'.cluster) ∧ ssend ≤ st'.rMO)
       ∨ ((∀ (i : Nat) (ch : TextChunk), st'.chunks[i]? = some ch →
          (∃ a ∈ ch.token_annotations, a.id = sid) → i ∉ st'.cluster) ∧ ssend ≤ t.sbegin)) := by
  unfold processSpan at h
  rcases hfold : (List.range (flushStep styles st t).chunks.length).foldlM
      (processChunk styles t)
      { chunks := (flushStep styles st t).chunks
        cluster := (flushStep styles st t).cluster
        uCD := (flushStep styles st t).uCD
        newDepth := none
        newZIndex := none } with e | ls
  · rw [hfold] at h
    cases h
  · rw [hfold] at h
    have h2 : Except.ok ({ chunks := ls.chunks, cluster := ls.cluster, uCD := ls.uCD, rMO := (flushStep styles st t).rMO } : LayoutState) = Except.ok st' := h
    have h3 := Except.ok.inj h2
    by_cases hbr : st.rMO ≤ t.sbegin
    · -- a cluster flush happens before this span
      have hFc : (flushStep styles st t).chunks
          = reverseUnderlineClusterDepths styles st.uCD st.cluster st.chunks := by
        unfold flushStep
        rw [if_pos hbr]
      have hFcl : (flushStep styles st t).cluster = [] := by
        unfold flushStep
        rw [if_pos hbr]
      have hts : ssend ≤ t.sbegin := le_trans hrmo hbr
      have hFuni := reverse_c4A styles st.uCD st.cluster st.chunks sid sstyle ssend D Z
        huni hclu
      rw [← hFc] at hFuni
      have hFout : ∀ (i : Nat) (ch : TextChunk),
          (flushStep styles st t).chunks[i]? = some ch →
          (∃ a ∈ ch.token_annotations, a.id = sid) → i ∉ (flushStep styles st t).cluster ∧
            ch.cend ≤ ssend := by
        intro i ch hch hex
        rw [hFcl]
        rcases hex with ⟨a, ha, haid⟩
        exact ⟨by simp, (hFuni i ch hch a ha haid).2.2.2⟩
      have hluni := chunkLoop_c4other styles t sid sstyle ssend
        (if shapeOf styles sstyle = some "underline"
          then some (D.getD 0 - st.uCD - 1) else D) Z hni
        (List.range (flushStep styles st t).chunks.length) _ ls hfold hFuni
      have hlout := chunkLoop_c4outclu styles t sid ssend hni hts
        (List.range (flushStep styles st t).chunks.length) _ ls hfold hFout
      refine ⟨(if shapeOf styles sstyle = some "underline"
        then some (D.getD 0 - st.uCD - 1) else D), ?_, Or.inr ⟨?_, hts⟩⟩
      · rw [← h3]
        exact hluni
      · rw [← h3]
        intro i ch hch hex
        exact (hlout i ch hch hex).1
    · -- no flush: the open cluster persists
      have hFc : (flushStep styles st t).chunks = st.chunks := by
        unfold flushStep
        rw [if_neg hbr]
        split_ifs <;> rfl
      have hFcl : (flushStep styles st t).cluster = st.cluster := by
        unfold flushStep
        rw [if_neg hbr]
        split_ifs <;> rfl
      have hFr : ssend ≤ (flushStep styles st t).rMO := by
        unfold flushStep
        rw [if_neg hbr]
        split_ifs with hlt
        · show ssend ≤ t.send
          omega
        · exact hrmo
      have hFuni : ∀ (i : Nat) (ch : TextChunk),
          (flushStep styles st t).chunks[i]? = some ch →
          ∀ a ∈ ch.token_annotations, a.id = sid →
            a.style = sstyle ∧ a.zIndex = Z ∧ a.depth = D ∧ ch.cend ≤ ssend := by
        rw [hFc]
        exact huni
      have hFclu : ∀ (i : Nat) (ch : TextChunk),
          (flushStep styles st t).chunks[i]? = some ch →
          (∃ a ∈ ch.token_annotations, a.id = sid) → i ∈ (flushStep styles st t).cluster := by
        rw [hFc, hFcl]
        exact hclu
      have hluni := chunkLoop_c4other styles t sid sstyle ssend D Z hni
        (List.range (flushStep styles st t).chunks.length) _ ls hfold hFuni
      have hlclu := chunkLoop_c4inclu styles t sid hni
        (List.range (flushStep styles st t).chunks.length) _ ls hfold hFclu
      refine ⟨D, ?_, Or.inl ⟨?_, ?_⟩⟩
      · rw [← h3]
        exact hluni
      · rw [← h3]
        exact hlclu
      · rw [← h3]
        exact hFr

/-- Phase B step: once `s`'s chunks are out of the cluster and every
remaining span begins at or after `s.end`, processing a span leaves
`s`'s annotations untouched and its chunks out of the cluster. -/
theorem processSpan_c4B (styles : Styles) (st st' : LayoutState) (t : SpanData)
    (sid : Option String) (sstyle : String) (ssend : Nat) (D Z : Option Int)
    (h : processSpan styles st t = Except.ok st')
    (hni : t.id ≠ sid) (hts : ssend ≤ t.sbegin)
    (huni : ∀ (i : Nat) (ch : TextChunk), st.chunks[i]? = some ch →
      ∀ a ∈ ch.token_annotations, a.id = sid →
        a.style = sstyle ∧ a.zIndex = Z ∧ a.depth = D ∧ ch.cend ≤ ssend)
    (hout : ∀ (i : Nat) (ch : TextChunk), st.chunks[i]? = some ch →
      (∃ a ∈ ch.token_annotations, a.id = sid) → i ∉ st.cluster) :
    (∀ (i : Nat) (ch : TextChunk), st'.chunks[i]? = some ch →
      ∀ a ∈ ch.token_annotations, a.id = sid →
        a.style = sstyle ∧ a.zIndex = Z ∧ a.depth = D ∧ ch.cend ≤ ssend) ∧
    (∀ (i : Nat) (ch : TextChunk), st'.chunks[i]? = some ch →
      (∃ a ∈ ch.token_annotations, a.id = sid) → i ∉ st'.cluster) := by
  unfold processSpan at h
  rcases hfold : (List.range (flushStep styles st t).chunks.length).foldlM
      (processChunk styles t)
      { chunks := (flushStep styles st t).chunks
        cluster := (flushStep styles st t).cluster
        uCD := (flushStep styles st t).uCD
        newDepth := none
        newZIndex := none } with e | ls
  · rw [hfold] at h
    cases h
  · rw [hfold] at h
    have h2 : Except.ok ({ chunks := ls.chunks, cluster := ls.cluster, uCD := ls.uCD, rMO := (flushStep styles st t).rMO } : LayoutState) = Except.ok st' := h
    have h3 := Except.ok.inj h2
    have hFuni : ∀ (i : Nat) (ch : TextChunk),
        (flushStep styles st t).chunks[i]? = some ch →
        ∀ a ∈ ch.token_annotations, a.id = sid →
          a.style = sstyle ∧ a.zIndex = Z ∧ a.depth = D ∧ ch.cend ≤ ssend := by
      unfold flushStep
      split_ifs with h1 h2'
      · exact reverse_c4B styles st.uCD st.cluster st.chunks sid sstyle ssend D Z huni hout
      · exact huni
      · exact huni
    have hFout : ∀ (i : Nat) (ch : TextChunk),
        (flushStep styles st t).chunks[i]? = some ch →
        (∃ a ∈ ch.token_annotations, a.id = sid) →
          i ∉ (flushStep styles st t).cluster ∧ ch.cend ≤ ssend := by
      intro i ch hch hex
      refine ⟨?_, ?_⟩
      · revert hch
        unfold flushStep
        split_ifs with h1 h2'
        · intro _
          simp
        · intro hch
          exact hout i ch hch hex
        · intro hch
          exact hout i ch hch hex
      · rcases hex with ⟨a, ha, haid⟩
        exact (hFuni i ch hch a ha haid).2.2.2
    have hluni := chunkLoop_c4other styles t sid sstyle ssend D Z hni
      (List.range (flushStep styles st t).chunks.length) _ ls hfold hFuni
    have hlout := chunkLoop_c4outclu styles t sid ssend hni hts
      (List.range (flushStep styles st t).chunks.length) _ ls hfold hFout
    constructor
    · rw [← h3]
      exact hluni
    · rw [← h3]
      intro i ch hch hex
      exact (hlout i ch hch hex).1

/-- The span walk after `s` has been processed keeps all of `s`'s
annotations identical (possibly shifted together by flushes), ending with
them either all inside or all outside the open cluster. -/
theorem spanWalk_c4 (styles : Styles) (sid : Option String) (sstyle : String) (ssend : Nat) :
    ∀ (rest : List SpanData) (st st' : LayoutState) (D Z : Option Int),
      rest.foldlM (processSpan styles) st = Except.ok st' →
      (∀ t ∈ rest, t.id ≠ sid) →
      (∀ t ∈ rest, t.mouseSelected = false) →
      List.Pairwise (fun a b => spanLE a b = true) rest →
      (∀ (i : Nat) (ch : TextChunk), st.chunks[i]? = some ch →
        ∀ a ∈ ch.token_annotations, a.id = sid →
          a.style = sstyle ∧ a.zIndex = Z ∧ a.depth = D ∧ ch.cend ≤ ssend) →
      (((∀ (i : Nat) (ch : TextChunk), st.chunks[i]? = some ch →
          (∃ a ∈ ch.token_annotations, a.id = sid) → i ∈ st.cluster) ∧ ssend ≤ st.rMO)
       ∨ ((∀ (i : Nat) (ch : TextChunk), st.chunks[i]? = some ch →
          (∃ a ∈ ch.token_annotations, a.id = sid) → i ∉ st.cluster) ∧
          (∀ t ∈ rest, ssend ≤ t.sbegin))) →
      ∃ D' : Option Int,
        (∀ (i : Nat) (ch : TextChunk), st'.chunks[i]? = some ch →
          ∀ a ∈ ch.token_annotations, a.id = sid →
            a.style = sstyle ∧ a.zIndex = Z ∧ a.depth = D' ∧ ch.cend ≤ ssend) ∧
        ((∀ (i : Nat) (ch : TextChunk), st'.chunks[i]? = some ch →
          (∃ a ∈ ch.token_annotations, a.id = sid) → i ∈ st'.cluster)
         ∨ (∀ (i : Nat) (ch : TextChunk), st'.chunks[i]? = some ch →
          (∃ a ∈ ch.token_annotations, a.id = sid) → i ∉ st'.cluster)) := by
  intro rest
  induction rest with
  | nil =>
    intro st st' D Z h _ _ _ huni hphase
    cases h
    rcases hphase with ⟨hclu, _⟩ | ⟨hout, _⟩
    · exact ⟨D, huni, Or.inl hclu⟩
    · exact ⟨D, huni, Or.inr hout⟩
  | cons t rest' ih =>
    intro st st' D Z h hid hmouse hpw huni hphase
    rw [List.foldlM_cons] at h
    rcases hp : processSpan styles st t with e | st1
    · rw [hp] at h
      cases h
    · rw [hp] at h
      have hnit : t.id ≠ sid := hid t (List.mem_cons_self t rest')
      have hid' : ∀ u ∈ rest', u.id ≠ sid := fun u hu => hid u (List.mem_cons_of_mem t hu)
      have hmouse' : ∀ u ∈ rest', u.mouseSelected = false :=
        fun u hu => hmouse u (List.mem_cons_of_mem t hu)
      have hpw' := (List.pairwise_cons.mp hpw).2
      have hrel := (List.pairwise_cons.mp hpw).1
      rcases hphase with ⟨hclu, hrmo⟩ | ⟨hout, hall⟩
      · rcases processSpan_c4A styles st st1 t sid sstyle ssend D Z hp hnit huni hclu hrmo
          with ⟨D1, huni1, hph1⟩
        rcases hph1 with ⟨hclu1, hrmo1⟩ | ⟨hout1, hts1⟩
        · exact ih st1 st' D1 Z h hid' hmouse' hpw' huni1 (Or.inl ⟨hclu1, hrmo1⟩)
        · refine ih st1 st' D1 Z h hid' hmouse' hpw' huni1 (Or.inr ⟨hout1, ?_⟩)
          intro u hu
          have := spanLE_nonmouse t u (hrel u hu)
            (hmouse t (List.mem_cons_self t rest'))
          omega
      · have hts : ssend ≤ t.sbegin := hall t (List.mem_cons_self t rest')
        rcases processSpan_c4B styles st st1 t sid sstyle ssend D Z hp hnit hts huni hout
          with ⟨huni1, hout1⟩
        refine ih st1 st' D Z h hid' hmouse' hpw' huni1 (Or.inr ⟨hout1, ?_⟩)
        intro u hu
        exact hall u (List.mem_cons_of_mem t hu)

/-- Chunk-bound facts transfer along walks that preserve every chunk's
bounds and tokens. -/
theorem key_straddle_transfer (A B : List TextChunk) (ssend : Nat)
    (hkey : A.map (fun c => (c.cbegin, c.cend, c.tokens))
      = B.map (fun c => (c.cbegin, c.cend, c.tokens)))
    (h : ∀ ch ∈ B, ch.cbegin < ssend → ch.cend ≤ ssend) :
    ∀ (i : Nat) (ch : TextChunk), A[i]? = some ch → ch.cbegin < ssend → ch.cend ≤ ssend := by
  intro i ch hch hlt
  have h1 : (A.map (fun c => (c.cbegin, c.cend, c.tokens)))[i]?
      = some (ch.cbegin, ch.cend, ch.tokens) := by
    rw [List.getElem?_map, hch]
    rfl
  rw [hkey, List.getElem?_map] at h1
  rcases hB : B[i]? with _ | ch0
  · rw [hB] at h1
    cases h1
  · rw [hB] at h1
    have h2 := Option.some.inj h1
    have hb : ch0.cbegin = ch.cbegin := congrArg Prod.fst h2
    have he : ch0.cend = ch.cend := congrArg Prod.fst (congrArg Prod.snd h2)
    have := h ch0 (List.getElem?_mem hB) (by omega)
    omega

/-- For a non-mouse-selected span `s` occurring exactly once, with an id
no other span shares, all of `s`'s annotations in the `styleTextChunks_`
output share one style (`s`'s), one z-index and one depth. -/
theorem styleTextChunks_c4 (CH : List TextChunk) (PS : List SpanData) (styles : Styles)
    (out : List TextChunk) (s : SpanData)
    (h : styleTextChunks_ CH PS styles = Except.ok out)
    (hsmem : s ∈ PS) (hcount : PS.count s = 1)
    (hid : ∀ t ∈ PS, t.id = s.id → t = s)
    (hmouse : s.mouseSelected = false)
    (hsorted : List.Pairwise (fun a b => spanLE a b = true) PS)
    (hinit : ∀ ch ∈ CH, ch.token_annotations = [])
    (hstrad : ∀ ch ∈ CH, ch.cbegin < s.send → ch.cend ≤ s.send) :
    ∃ D Z : Option Int, ∀ ch ∈ out, ∀ a ∈ ch.token_annotations, a.id = s.id →
      a.style = s.style ∧ a.zIndex = Z ∧ a.depth = D := by
  obtain ⟨P, R, hPR⟩ := List.append_of_mem hsmem
  subst hPR
  rw [List.count_append, List.count_cons_self] at hcount
  have hsP : s ∉ P := by
    rw [← List.count_eq_zero]
    omega
  have hsR : s ∉ R := by
    rw [← List.count_eq_zero]
    omega
  have hniP : ∀ t ∈ P, t.id ≠ s.id := by
    intro t ht hidt
    have heq := hid t (List.mem_append_left _ ht) hidt
    rw [heq] at ht
    exact hsP ht
  have hniR : ∀ t ∈ R, t.id ≠ s.id := by
    intro t ht hidt
    have heq := hid t (List.mem_append_right _ (List.mem_cons_of_mem s ht)) hidt
    rw [heq] at ht
    exact hsR ht
  obtain ⟨_, hpwSR, _⟩ := List.pairwise_append.mp hsorted
  have hrelR := (List.pairwise_cons.mp hpwSR).1
  have hpwR := (List.pairwise_cons.mp hpwSR).2
  have hmouseR : ∀ t ∈ R, t.mouseSelected = false :=
    fun t ht => (spanLE_nonmouse s t (hrelR t ht) hmouse).1
  unfold styleTextChunks_ at h
  rw [List.foldlM_append] at h
  rcases hP : P.foldlM (processSpan styles)
      { chunks := CH, cluster := [], uCD := 0, rMO := 0 } with e | st0
  · rw [hP] at h
    cases h
  · rw [hP] at h
    have h1 : ((s :: R).foldlM (processSpan styles) st0).map (fun st =>
        reverseUnderlineClusterDepths styles st.uCD st.cluster st.chunks)
        = Except.ok out := h
    rw [List.foldlM_cons] at h1
    rcases hs1 : processSpan styles st0 s with e | st1
    · rw [hs1] at h1
      cases h1
    · rw [hs1] at h1
      have h2 : (R.foldlM (processSpan styles) st1).map (fun st =>
          reverseUnderlineClusterDepths styles st.uCD st.cluster st.chunks)
          = Except.ok out := h1
      rcases hR : R.foldlM (processSpan styles) st1 with e | st2
      · rw [hR] at h2
        cases h2
      · rw [hR] at h2
        have hout : reverseUnderlineClusterDepths styles st2.uCD st2.cluster st2.chunks
            = out := Except.ok.inj h2
        have hno0m : ∀ ch ∈ st0.chunks, ∀ a ∈ ch.token_annotations, a.id ≠ s.id := by
          refine spanWalk_pres_noid styles s.id P _ st0 hP ?_ ?_
          · intro t ht hidt
            exact absurd hidt (hniP t ht)
          · intro ch hch a ha
            rw [hinit ch hch] at ha
            cases ha
        have hno0 : ∀ (i : Nat) (ch : TextChunk), st0.chunks[i]? = some ch →
            ∀ a ∈ ch.token_annotations, a.id ≠ s.id :=
          fun i ch hch => hno0m ch (List.getElem?_mem hch)
        have hkey0 : st0.chunks.map (fun c => (c.cbegin, c.cend, c.tokens))
            = CH.map (fun c => (c.cbegin, c.cend, c.tokens)) :=
          spanWalk_shape styles P _ st0 hP
        have hstrad0 := key_straddle_transfer st0.chunks CH s.send hkey0 hstrad
        rcases processSpan_c4self styles st0 s st1 hs1 hstrad0 hno0
          with ⟨⟨D, Z, huni1c⟩, hrmo1⟩
        have huni1 : ∀ (i : Nat) (ch : TextChunk), st1.chunks[i]? = some ch →
            ∀ a ∈ ch.token_annotations, a.id = s.id →
              a.style = s.style ∧ a.zIndex = Z ∧ a.depth = D ∧ ch.cend ≤ s.send := by
          intro i ch hch a ha haid
          have hu := huni1c i ch hch a ha haid
          exact ⟨hu.1, hu.2.1, hu.2.2.1, hu.2.2.2.2⟩
        have hclu1 : ∀ (i : Nat) (ch : TextChunk), st1.chunks[i]? = some ch →
            (∃ a ∈ ch.token_annotations, a.id = s.id) → i ∈ st1.cluster := by
          intro i ch hch hex
          rcases hex with ⟨a, ha, haid⟩
          exact (huni1c i ch hch a ha haid).2.2.2.1
        rcases spanWalk_c4 styles s.id s.style s.send R st1 st2 D Z hR hniR hmouseR hpwR
          huni1 (Or.inl ⟨hclu1, hrmo1⟩) with ⟨D2, huni2, hph2⟩
        rcases hph2 with hclu2 | hout2
        · refine ⟨(if shapeOf styles s.style = some "underline"
            then some (D2.getD 0 - st2.uCD - 1) else D2), Z, ?_⟩
          intro ch hch a ha haid
          rcases List.mem_iff_getElem?.mp hch with ⟨i, hi⟩
          rw [← hout] at hi
          have hr := reverse_c4A styles st2.uCD st2.cluster st2.chunks s.id s.style s.send
            D2 Z huni2 hclu2 i ch hi a ha haid
          exact ⟨hr.1, hr.2.1, hr.2.2.1⟩
        · refine ⟨D2, Z, ?_⟩
          intro ch hch a ha haid
          rcases List.mem_iff_getElem?.mp hch with ⟨i, hi⟩
          rw [← hout] at hi
          have hr := reverse_c4B styles st2.uCD st2.cluster st2.chunks s.id s.style s.send
            D2 Z huni2 hout2 i ch hi a ha haid
          exact ⟨hr.1, hr.2.1, hr.2.2.1⟩

/-- Annotations carrying a given id always carry the style of the spans
with that id: the walk only creates annotations stamped with their
span's own style, and flushes never change styles. -/
theorem spanWalk_idStyle (styles : Styles) (sid : Option String) (sstyle : String) :
    ∀ (spans : List SpanData) (st st' : LayoutState),
      spans.foldlM (processSpan styles) st = Except.ok st' →
      (∀ t ∈ spans, t.id = sid → t.style = sstyle) →
      (∀ ch ∈ st.chunks, ∀ a ∈ ch.token_annotations, a.id = sid → a.style = sstyle) →
      ∀ ch ∈ st'.chunks, ∀ a ∈ ch.token_annotations, a.id = sid → a.style = sstyle := by
  intro spans
  induction spans with
  | nil =>
    intro st st' h _ hinv
    cases h
    exact hinv
  | cons t rest ih =>
    intro st st' h hall hinv
    rw [List.foldlM_cons] at h
    rcases hp : processSpan styles st t with e | st1
    · rw [hp] at h
      cases h
    · rw [hp] at h
      have hinv1 : ∀ ch ∈ st1.chunks, ∀ a ∈ ch.token_annotations,
          a.id = sid → a.style = sstyle := by
        refine processSpan_pres styles st t st1
          (fun a => a.id = sid → a.style = sstyle) hp ?_ ?_ hinv
        · intro u a haP hid2
          rw [(revAnn_fields styles u a).1]
          exact haP (by
            rw [← (revAnn_fields styles u a).2.2.2]
            exact hid2)
        · left
          intro dz ch hid2
          exact hall t (List.mem_cons_self t rest) hid2
      exact ih st1 st' h (fun u hu => hall u (List.mem_cons_of_mem t hu)) hinv1

/-- The layout assigner stamps every annotation of an id with the style
shared by the spans of that id. -/
theorem styleTextChunks_idStyle (tc : List TextChunk) (spans : List SpanData)
    (styles : Styles) (out : List TextChunk) (sid : Option String) (sstyle : String)
    (h : styleTextChunks_ tc spans styles = Except.ok out)
    (hall : ∀ t ∈ spans, t.id = sid → t.style = sstyle)
    (hinv : ∀ ch ∈ tc, ∀ a ∈ ch.token_annotations, a.id = sid → a.style = sstyle) :
    ∀ ch ∈ out, ∀ a ∈ ch.token_annotations, a.id = sid → a.style = sstyle := by
  unfold styleTextChunks_ at h
  rcases hf : spans.foldlM (processSpan styles)
      { chunks := tc, cluster := [], uCD := 0, rMO := 0 } with e | st
  · rw [hf] at h
    cases h
  · rw [hf] at h
    have hst := spanWalk_idStyle styles sid sstyle spans _ st hf hall hinv
    have hout : reverseUnderlineClusterDepths styles st.uCD st.cluster st.chunks = out :=
      Except.ok.inj h
    intro ch hch a ha haid
    rw [← hout] at hch
    rcases reverse_mem_anns styles st.uCD st.cluster st.chunks ch hch a ha
      with ⟨ch0, hch0, a0, ha0, heq | heq⟩
    · rw [heq] at haid ⊢
      exact hst ch0 hch0 a0 ha0 haid
    · rw [heq] at haid ⊢
      rw [(revAnn_fields styles st.uCD a0).1]
      exact hst ch0 hch0 a0 ha0 (by
        rw [← (revAnn_fields styles st.uCD a0).2.2.2]
        exact haid)

/-- Attaching text slices preserves the occurrence count of a span whose
id no distinct span shares. -/
theorem count_prep (l : List SpanData) (s : SpanData) (text : List Char)
    (hid : ∀ t ∈ l, t.id = s.id → t = s) :
    (l.map (fun t =>
        ({ t with text := some (sliceChars text t.sbegin t.send) } : SpanData))).count
      { s with text := some (sliceChars text s.sbegin s.send) } = l.count s := by
  induction l with
  | nil => rfl
  | cons t rest ih =>
    rw [List.map_cons]
    have hrec := ih (fun u hu => hid u (List.mem_cons_of_mem t hu))
    by_cases he : t = s
    · rw [he]
      rw [List.count_cons_self, List.count_cons_self, hrec]
    · have hne : ({ t with text := some (sliceChars text t.sbegin t.send) } : SpanData)
          ≠ { s with text := some (sliceChars text s.sbegin s.send) } := by
        intro hcontra
        have h0 := congrArg SpanData.id hcontra
        have hidt : t.id = s.id := h0
        exact he (hid t (List.mem_cons_self t rest) hidt)
      rw [List.count_cons_of_ne (Ne.symm hne), List.count_cons_of_ne (Ne.symm he), hrec]

/-- The prepared span list is sorted by the priority order. -/
theorem preparedSpans_sorted (spans : List SpanData) (text : List Char) :
    List.Pairwise (fun a b => spanLE a b = true) (preparedSpans spans text) := by
  haveI : IsTotal SpanData (fun a b => spanLE a b = true) := ⟨spanLE_total⟩
  haveI : IsTrans SpanData (fun a b => spanLE a b = true) := ⟨spanLE_trans⟩
  unfold preparedSpans
  refine List.Pairwise.map _ ?_ (List.sorted_insertionSort _ spans)
  intro a b hab
  exact hab

/-- The prepared span list preserves the occurrence count of a span whose
id no distinct span shares. -/
theorem preparedSpans_count (spans : List SpanData) (text : List Char) (s : SpanData)
    (hid : ∀ t ∈ spans, t.id = s.id → t = s) :
    (preparedSpans spans text).count
      { s with text := some (sliceChars text s.sbegin s.send) } = spans.count s := by
  unfold preparedSpans sortSpans
  have hperm := List.perm_insertionSort (fun a b => spanLE a b = true) spans
  rw [count_prep (spans.insertionSort fun a b => spanLE a b = true) s text
    (fun t ht hidt => hid t (hperm.mem_iff.mp ht) hidt)]
  exact hperm.count_eq s

/-- C4, amended: for a span `s` that occurs exactly once and whose id no
other span shares, any two annotation instances created for `s` agree on
`style` and `zIndex`; they also agree on `depth` whenever `s` is not
mouse-selected.  (For mouse-selected spans the depth claim fails, see the
counterexample: a later span can pull some of the mouse span's flushed
chunks into a new cluster, whose flush shifts only those copies again.) -/
theorem spec_C4_amended (spans : List SpanData) (text : List Char) (styles : Styles)
    (s : SpanData) (hs : s ∈ spans) (hcount : spans.count s = 1)
    (hid : ∀ t ∈ spans, t.id = s.id → t = s) :
    ∀ line ∈ resLines (tokenize spans text styles), ∀ td ∈ line,
      ∀ a ∈ td.token_annotations, a.id = s.id →
      ∀ line2 ∈ resLines (tokenize spans text styles), ∀ td2 ∈ line2,
      ∀ b ∈ td2.token_annotations, b.id = s.id →
      a.style = b.style ∧ a.zIndex = b.zIndex ∧
      (s.mouseSelected = false → a.depth = b.depth) := by
  rcases hsty : styleTextChunks_ (chunkText (preparedSpans spans text) text)
      (preparedSpans spans text) styles with e | out
  · have herr : tokenize spans text styles = Except.error e := by
      unfold tokenize
      rw [hsty]
      rfl
    intro line hline
    unfold resLines at hline
    rw [herr] at hline
    cases hline
  · have hr : tokenize spans text styles = Except.ok
        { lines := tokenizeTextChunks out
          ids := (preparedSpans spans text).map (·.id) } := by
      unfold tokenize
      rw [hsty]
      rfl
    intro line hline td htd a ha haid line2 hline2 td2 htd2 b hb hbid
    rw [hr] at hline hline2
    rcases tokenizeTextChunks_anns out line hline td htd with ⟨ch, hch, heqa⟩
    rcases tokenizeTextChunks_anns out line2 hline2 td2 htd2 with ⟨ch2, hch2, heqb⟩
    rw [heqa] at ha
    rw [heqb] at hb
    have hs' : ({ s with text := some (sliceChars text s.sbegin s.send) } : SpanData)
        ∈ preparedSpans spans text :=
      (mem_preparedSpans spans text _).mpr ⟨s, hs, rfl⟩
    have hid' : ∀ t ∈ preparedSpans spans text,
        t.id = ({ s with text := some (sliceChars text s.sbegin s.send) } : SpanData).id →
        t = { s with text := some (sliceChars text s.sbegin s.send) } := by
      intro t' ht' hidt
      rcases (mem_preparedSpans spans text t').mp ht' with ⟨t, ht, rfl⟩
      have ht2 : t = s := hid t ht hidt
      rw [ht2]
    have hinit : ∀ ch0 ∈ chunkText (preparedSpans spans text) text,
        ch0.token_annotations = [] := chunkText_anns_nil _ text
    by_cases hm : s.mouseSelected = false
    · have hcount' : (preparedSpans spans text).count
          { s with text := some (sliceChars text s.sbegin s.send) } = 1 := by
        rw [preparedSpans_count spans text s hid]
        exact hcount
      have hmem' : s.send ∈ boundaryIndices (preparedSpans spans text) text := by
        rw [mem_boundaryIndices_iff]
        refine List.mem_append_left _ (List.mem_flatMap.mpr ⟨_, hs', ?_⟩)
        simp
      have hstrad : ∀ ch0 ∈ chunkText (preparedSpans spans text) text,
          ch0.cbegin < s.send → ch0.cend ≤ s.send := by
        intro ch0 hch0 hlt
        have hns := chunkText_boundary_no_straddle (preparedSpans spans text) text
          s.send hmem' ch0 hch0
        omega
      rcases styleTextChunks_c4 (chunkText (preparedSpans spans text) text)
        (preparedSpans spans text) styles out _ hsty hs' hcount' hid' hm
        (preparedSpans_sorted spans text) hinit hstrad with ⟨D, Z, hu⟩
      have hua := hu ch hch a ha haid
      have hub := hu ch2 hch2 b hb hbid
      exact ⟨by rw [hua.1, hub.1], by rw [hua.2.1, hub.2.1],
        fun _ => by rw [hua.2.2, hub.2.2]⟩
    · have hmtrue : s.mouseSelected = true := by
        rcases hmb : s.mouseSelected
        · exact absurd hmb hm
        · rfl
      have hallSty : ∀ t ∈ preparedSpans spans text, t.id = s.id → t.style = s.style := by
        intro t' ht' hidt
        have ht2 := hid' t' ht' hidt
        rw [ht2]
      have hsty1 := styleTextChunks_idStyle _ _ styles out s.id s.style hsty hallSty
        (by
          intro ch0 hch0 a0 ha0 _
          rw [hinit ch0 hch0] at ha0
          cases ha0)
      have hallOpt : ∀ t ∈ preparedSpans spans text, t.id = s.id →
          (t.mouseSelected = true ∨ autoNestingOff styles t.style = true) := by
        intro t' ht' hidt
        have ht2 := hid' t' ht' hidt
        rw [ht2]
        exact Or.inl hmtrue
      have hz1 := styleTextChunks_optedId _ _ styles out s.id hsty hallOpt
        (by
          intro ch0 hch0 a0 ha0 _
          rw [hinit ch0 hch0] at ha0
          cases ha0)
      refine ⟨?_, ?_, fun hmf => absurd hmf hm⟩
      · rw [hsty1 ch hch a ha haid, hsty1 ch2 hch2 b hb hbid]
      · rw [(hz1 ch hch a ha haid).1, (hz1 ch2 hch2 b hb hbid).1]

/-- Witness for the amended C4: in the witness run the underline span
`A = [0,4)` is cut into three chunks by a box span `[1,3)`, and all three
of its annotation instances agree on style, z-index and depth. -/
theorem spec_C4_amended_witness :
    ((mkSp 0 4 "u" false "A") ∈ c4spansW ∧
     c4spansW.count (mkSp 0 4 "u" false "A") = 1 ∧
     (∀ t ∈ c4spansW, t.id = (mkSp 0 4 "u" false "A").id → t = mkSp 0 4 "u" false "A") ∧
     c4line ∈ resLines (tokenize c4spansW "abcd".toList exStyles) ∧
     c4td0 ∈ c4line ∧ c4annA0 ∈ c4td0.token_annotations ∧
     c4annA0.id = (mkSp 0 4 "u" false "A").id ∧
     c4td2 ∈ c4line ∧ c4annA2 ∈ c4td2.token_annotations ∧
     c4annA2.id = (mkSp 0 4 "u" false "A").id ∧
     (mkSp 0 4 "u" false "A").mouseSelected = false) ∧
    (c4annA0.style = c4annA2.style ∧ c4annA0.zIndex = c4annA2.zIndex ∧
     c4annA0.depth = c4annA2.depth) :=
  ⟨⟨by decide, by decide, by decide, by decide, by decide, by decide, by decide,
    by decide, by decide, by decide, by decide⟩, by
    have h := spec_C4_amended c4spansW "abcd".toList exStyles (mkSp 0 4 "u" false "A")
      (by decide) (by decide) (by decide) c4line (by decide) c4td0 (by decide)
      c4annA0 (by decide) (by decide) c4line (by decide) c4td2 (by decide)
      c4annA2 (by decide) (by decide)
    exact ⟨h.1, h.2.1, h.2.2 (by decide)⟩⟩

/-- `missing[v] = true` adds exactly `v` to the set an occupancy array
represents (an array slot reads `true` iff the represented set holds its
index); `null` and negative values change nothing. -/
theorem markIndex_rep (arr : List Bool) (v : Option Int) (S : Nat → Prop)
    (hrep : ∀ n : Nat, arr[n]? = some true ↔ S n) :
    ∀ n : Nat, (markIndex arr v)[n]? = some true ↔ (S n ∨ v = some (n : Int)) := by
  intro n
  unfold markIndex
  rcases v with _ | vi
  · simp only
    rw [hrep]
    constructor
    · exact Or.inl
    · rintro (h | h)
      · exact h
      · cases h
  · rcases vi with k | k
    · simp only
      by_cases hnk : n = k
      · subst hnk
        have hlen : n < (arr ++ List.replicate (n + 1 - arr.length) false).length := by
          rw [List.length_append, List.length_replicate]
          omega
        rw [List.getElem?_set_self hlen]
        constructor
        · intro _
          exact Or.inr rfl
        · intro _
          rfl
      · rw [List.getElem?_set_ne fun h => hnk h.symm]
        have hiff : (arr ++ List.replicate (k + 1 - arr.length) false)[n]? = some true ↔ S n := by
          rw [List.getElem?_append]
          by_cases hn : n < arr.length
          · rw [if_pos hn]
            exact hrep n
          · rw [if_neg hn]
            have hs : ¬ S n := by
              rw [← hrep n]
              rw [List.getElem?_eq_none (Nat.le_of_not_lt hn)]
              simp
            constructor
            · intro hcontra
              rcases hrepl : (List.replicate (k + 1 - arr.length) false)[n - arr.length]?
                with _ | b
              · rw [hrepl] at hcontra
                cases hcontra
              · rw [hrepl] at hcontra
                have hb := List.getElem?_mem hrepl
                have : b = false := List.eq_of_mem_replicate hb
                rw [this] at hcontra
                cases hcontra
            · intro hcontra
              exact absurd hcontra hs
        rw [hiff]
        constructor
        · exact Or.inl
        · rintro (h | h)
          · exact h
          · have := Option.some.inj h
            exact absurd (Int.ofNat.inj this).symm hnk
    · simp only
      rw [hrep]
      constructor
      · exact Or.inl
      · rintro (h | h)
        · exact h
        · have := Option.some.inj h
          cases this

/-- The first-fit scan returns the smallest index whose slot is not
`true`: the represented set misses the result and contains every smaller
value. -/
theorem findFree_spec : ∀ (arr : List Bool) (S : Nat → Prop),
    (∀ n : Nat, arr[n]? = some true ↔ S n) →
    ¬ S (arr.findIdx fun b => !b) ∧
      ∀ m : Nat, m < (arr.findIdx fun b => !b) → S m := by
  intro arr
  induction arr with
  | nil =>
    intro S hrep
    constructor
    · rw [← hrep]
      simp
    · intro m hm
      have h0 : List.findIdx (fun b => !b) ([] : List Bool) = 0 := rfl
      rw [h0] at hm
      omega
  | cons b rest ih =>
    intro S hrep
    rcases hb : b
    · rw [List.findIdx_cons]
      simp only [hb, Bool.not_false, cond_true]
      constructor
      · rw [← hrep 0]
        simp
        exact hb
      · intro m hm
        omega
    · rw [List.findIdx_cons]
      simp only [hb, Bool.not_true, cond_false]
      have hrep' : ∀ n : Nat, rest[n]? = some true ↔ S (n + 1) := by
        intro n
        rw [← hrep (n + 1)]
        simp
      have hih := ih (fun n => S (n + 1)) hrep'
      constructor
      · exact hih.1
      · intro m hm
        rcases m with _ | m2
        · rw [← hrep 0]
          simp
          exact hb
        · exact hih.2 m2 (by omega)

/-- The annotation scan of lines 103-108 builds exactly the occupancy
sets of the claim: depths of non-mouse-selected annotations split by
shape category (underline vs not), z-indices of all non-mouse-selected
annotations. -/
theorem scanAnns_rep (styles : Styles) :
    ∀ (anns : List TokenAnn) (acc acc' : List Bool × List Bool × List Bool),
      scanAnns styles anns acc = Except.ok acc' →
      ∀ (B U Zc : Nat → Prop),
      (∀ n : Nat, acc.1[n]? = some true ↔ B n) →
      (∀ n : Nat, acc.2.1[n]? = some true ↔ U n) →
      (∀ n : Nat, acc.2.2[n]? = some true ↔ Zc n) →
      (∀ n : Nat, (acc'.1)[n]? = some true ↔ (B n ∨ depthOccupied styles false anns n)) ∧
      (∀ n : Nat, (acc'.2.1)[n]? = some true ↔ (U n ∨ depthOccupied styles true anns n)) ∧
      (∀ n : Nat, (acc'.2.2)[n]? = some true ↔ (Zc n ∨ zOccupied anns n)) := by
  intro anns
  induction anns with
  | nil =>
    intro acc acc' h B U Zc hB hU hZ
    cases h
    refine ⟨fun n => ?_, fun n => ?_, fun n => ?_⟩
    · rw [hB]
      simp [depthOccupied]
    · rw [hU]
      simp [depthOccupied]
    · rw [hZ]
      simp [zOccupied]
  | cons a rest ih =>
    intro acc acc' h B U Zc hB hU hZ
    have hsplitD : ∀ (flag : Bool) (n : Nat), depthOccupied styles flag (a :: rest) n ↔
        ((a.mouseSelected = false ∧
          ((lookupStyle styles a.style).map fun q => q.shape == "underline") = some flag ∧
          a.depth = some (n : Int)) ∨ depthOccupied styles flag rest n) := by
      intro flag n
      unfold depthOccupied
      rw [List.exists_mem_cons_iff]
    have hsplitZ : ∀ n : Nat, zOccupied (a :: rest) n ↔
        ((a.mouseSelected = false ∧ a.zIndex = some (n : Int)) ∨ zOccupied rest n) := by
      intro n
      unfold zOccupied
      rw [List.exists_mem_cons_iff]
    rw [scanAnns] at h
    by_cases hm : a.mouseSelected = true
    · rw [if_pos hm] at h
      have hrec := ih acc acc' h B U Zc hB hU hZ
      refine ⟨fun n => ?_, fun n => ?_, fun n => ?_⟩
      · rw [(hrec.1 n), hsplitD false n]
        rw [hm]
        tauto
      · rw [(hrec.2.1 n), hsplitD true n]
        rw [hm]
        tauto
      · rw [(hrec.2.2 n), hsplitZ n]
        rw [hm]
        tauto
    · rw [if_neg hm] at h
      have hmf : a.mouseSelected = false := by
        rcases hmb : a.mouseSelected
        · rfl
        · exact absurd hmb hm
      split at h
      · cases h
      · rename_i stl hlk
        split at h
        · rename_i hsh
          have hrec := ih _ acc' h B (fun n => U n ∨ a.depth = some (n : Int))
            (fun n => Zc n ∨ a.zIndex = some (n : Int)) hB
            (markIndex_rep acc.2.1 a.depth U hU)
            (markIndex_rep acc.2.2 a.zIndex Zc hZ)
          have hmap : ((lookupStyle styles a.style).map fun q => q.shape == "underline")
              = some true := by
            rw [hlk]
            simp [hsh]
          refine ⟨fun n => ?_, fun n => ?_, fun n => ?_⟩
          · rw [(hrec.1 n), hsplitD false n, hmap]
            simp only [Option.some.injEq]
            tauto
          · rw [(hrec.2.1 n), hsplitD true n, hmap]
            simp only [Option.some.injEq]
            tauto
          · rw [(hrec.2.2 n), hsplitZ n]
            tauto
        · rename_i hsh
          have hrec := ih _ acc' h (fun n => B n ∨ a.depth = some (n : Int)) U
            (fun n => Zc n ∨ a.zIndex = some (n : Int))
            (markIndex_rep acc.1 a.depth B hB) hU
            (markIndex_rep acc.2.2 a.zIndex Zc hZ)
          have hmap : ((lookupStyle styles a.style).map fun q => q.shape == "underline")
              = some false := by
            rw [hlk]
            simp
            exact hsh
          refine ⟨fun n => ?_, fun n => ?_, fun n => ?_⟩
          · rw [(hrec.1 n), hsplitD false n, hmap]
            simp only [Option.some.injEq]
            tauto
          · rw [(hrec.2.1 n), hsplitD true n, hmap]
            simp only [Option.some.injEq]
            tauto
          · rw [(hrec.2.2 n), hsplitZ n]
            tauto

/-- First-fit characterization of the depth computation: on success the
depth is the smallest non-negative integer whose depth slot is free among
same-shape-category non-mouse-selected annotations of the scanned chunk,
and the z-index is the smallest non-negative integer not used as z-index
by any non-mouse-selected annotation there. -/
theorem computeDepthZ_spec (styles : Styles) (anns : List TokenAnn) (sty : String)
    (dz : Option Int × Option Int) (h : computeDepthZ styles anns sty = Except.ok dz)
    (stl : PreprocessedStyle) (hstl : lookupStyle styles sty = some stl) :
    ∃ dn zn : Nat, dz = (some (dn : Int), some (zn : Int)) ∧
      ¬ depthOccupied styles (stl.shape == "underline") anns dn ∧
      (∀ m : Nat, m < dn → depthOccupied styles (stl.shape == "underline") anns m) ∧
      ¬ zOccupied anns zn ∧
      (∀ m : Nat, m < zn → zOccupied anns m) := by
  unfold computeDepthZ at h
  rcases hs : scanAnns styles anns ([false], [false], [false]) with e | acc
  · rw [hs] at h
    cases h
  · rw [hs, hstl] at h
    have hdz := (Except.ok.inj h).symm
    have hinitrep : ∀ n : Nat, ([false] : List Bool)[n]? = some true ↔ False := by
      intro n
      rcases n with _ | n2 <;> simp
    have hrep := scanAnns_rep styles anns ([false], [false], [false]) acc hs
      (fun _ => False) (fun _ => False) (fun _ => False) hinitrep hinitrep hinitrep
    have hrepB : ∀ n : Nat, acc.1[n]? = some true ↔ depthOccupied styles false anns n := by
      intro n
      rw [hrep.1 n]
      tauto
    have hrepU : ∀ n : Nat, acc.2.1[n]? = some true ↔ depthOccupied styles true anns n := by
      intro n
      rw [hrep.2.1 n]
      tauto
    have hrepZ : ∀ n : Nat, acc.2.2[n]? = some true ↔ zOccupied anns n := by
      intro n
      rw [hrep.2.2 n]
      tauto
    have hffz := findFree_spec acc.2.2 (zOccupied anns) hrepZ
    by_cases hsh : stl.shape = "underline"
    · have hflag : (stl.shape == "underline") = true := by
        rw [hsh]
        rfl
      rw [hflag]
      have hff := findFree_spec acc.2.1 (depthOccupied styles true anns) hrepU
      refine ⟨acc.2.1.findIdx (fun b => !b), acc.2.2.findIdx (fun b => !b), ?_,
        hff.1, hff.2, hffz.1, hffz.2⟩
      rw [hdz, if_pos hsh]
      rfl
    · have hflag : (stl.shape == "underline") = false := by
        rcases hb : (stl.shape == "underline")
        · rfl
        · exact absurd (beq_iff_eq.mp hb) hsh
      rw [hflag]
      have hff := findFree_spec acc.1 (depthOccupied styles false anns) hrepB
      refine ⟨acc.1.findIdx (fun b => !b), acc.2.2.findIdx (fun b => !b), ?_,
        hff.1, hff.2, hffz.1, hffz.2⟩
      rw [hdz, if_neg hsh]
      rfl

/-- C3, amended: when the walk reaches the first chunk an auto-laid-out
span overlaps (`newDepth` still unset, span neither mouse-selected nor
opted out), the assigned depth is the smallest non-negative integer not
occupied by the depth of a same-shape-category non-mouse-selected
annotation already on that chunk, and the assigned z-index is the
smallest non-negative integer not occupied by any non-mouse-selected
annotation's z-index there; consequently the new annotation collides, at
assignment time, with no same-shape non-mouse-selected depth and no
non-mouse-selected z-index of that chunk.  (The original claim's global
post-layout distinctness is refuted by the counterexample: the flush
rewrite coerces the `null` depth of an opted-out underline span to a
number that can equal an auto-assigned one.) -/
theorem spec_C3_amended (styles : Styles) (s : SpanData) (st : SpanLoopState) (i : Nat)
    (ch : TextChunk) (st' : SpanLoopState) (stl : PreprocessedStyle)
    (hch : st.chunks[i]? = some ch) (hov : ch.cbegin < s.send ∧ s.sbegin < ch.cend)
    (hnd : st.newDepth = none) (hm : s.mouseSelected = false)
    (hopt : autoNestingOff styles s.style = false)
    (h : processChunk styles s st i = Except.ok st')
    (hstl : lookupStyle styles s.style = some stl) :
    ∃ dn zn : Nat,
      st'.newDepth = some (dn : Int) ∧ st'.newZIndex = some (zn : Int) ∧
      ¬ depthOccupied styles (stl.shape == "underline") ch.token_annotations dn ∧
      (∀ m : Nat, m < dn → depthOccupied styles (stl.shape == "underline")
        ch.token_annotations m) ∧
      ¬ zOccupied ch.token_annotations zn ∧
      (∀ m : Nat, m < zn → zOccupied ch.token_annotations m) ∧
      (∀ a ∈ ch.token_annotations, a.mouseSelected = false →
        ((lookupStyle styles a.style).map fun q => q.shape == "underline")
          = some (stl.shape == "underline") → a.depth ≠ some (dn : Int)) ∧
      (∀ a ∈ ch.token_annotations, a.mouseSelected = false →
        a.zIndex ≠ some (zn : Int)) := by
  rw [processChunk_overlap_step styles s st i ch hch hov] at h
  rw [if_pos ⟨hnd, hm, hopt⟩] at h
  rcases hx : computeDepthZ styles ch.token_annotations s.style with e | dz
  · rw [hx] at h
    cases h
  · rw [hx] at h
    rcases computeDepthZ_spec styles ch.token_annotations s.style dz hx stl hstl
      with ⟨dn, zn, hdzeq, hnd1, hall1, hnz1, hallz1⟩
    have h3 := Except.ok.inj h
    unfold depthOccupied at hnd1
    unfold zOccupied at hnz1
    refine ⟨dn, zn, ?_, ?_, hnd1, hall1, hnz1, hallz1, ?_, ?_⟩
    · rw [← h3]
      show dz.1 = some (dn : Int)
      rw [hdzeq]
    · rw [← h3]
      show dz.2 = some (zn : Int)
      rw [hdzeq]
    · intro a ha hamf hmap hdep
      exact hnd1 ⟨a, ha, hamf, hmap, hdep⟩
    · intro a ha hamf hz
      exact hnz1 ⟨a, ha, hamf, hz⟩

/-- Witness for the amended C3: an underline span assigned on a chunk
already carrying an underline annotation (depth 0, z-index 0) and a box
annotation (depth 0, z-index 1) receives depth 1 (smallest free underline
depth) and z-index 2 (smallest free z-index overall). -/
theorem spec_C3_amended_witness :
    (c3state.chunks[0]? = some c3chunk ∧
     (c3chunk.cbegin < (mkSp 0 2 "u" false "S").send ∧
      (mkSp 0 2 "u" false "S").sbegin < c3chunk.cend) ∧
     c3state.newDepth = none ∧
     (mkSp 0 2 "u" false "S").mouseSelected = false ∧
     autoNestingOff exStyles (mkSp 0 2 "u" false "S").style = false ∧
     processChunk exStyles (mkSp 0 2 "u" false "S") c3state 0 = Except.ok c3stateAfter ∧
     lookupStyle exStyles (mkSp 0 2 "u" false "S").style = some c3stl) ∧
    (∃ dn zn : Nat,
      c3stateAfter.newDepth = some (dn : Int) ∧ c3stateAfter.newZIndex = some (zn : Int) ∧
      ¬ depthOccupied exStyles (c3stl.shape == "underline") c3chunk.token_annotations dn ∧
      (∀ m : Nat, m < dn → depthOccupied exStyles (c3stl.shape == "underline")
        c3chunk.token_annotations m) ∧
      ¬ zOccupied c3chunk.token_annotations zn ∧
      (∀ m : Nat, m < zn → zOccupied c3chunk.token_annotations m) ∧
      (∀ a ∈ c3chunk.token_annotations, a.mouseSelected = false →
        ((lookupStyle exStyles a.style).map fun q => q.shape == "underline")
          = some (c3stl.shape == "underline") → a.depth ≠ some (dn : Int)) ∧
      (∀ a ∈ c3chunk.token_annotations, a.mouseSelected = false →
        a.zIndex ≠ some (zn : Int))) :=
  ⟨⟨by decide, by decide, by decide, by decide, by decide, by rfl, by decide⟩,
   spec_C3_amended exStyles (mkSp 0 2 "u" false "S") c3state 0 c3chunk c3stateAfter c3stl
     (by decide) (by decide) (by decide) (by decide) (by decide) (by rfl) (by decide)⟩
